import Mathlib

/-!
# Verification of the ordered hash table and struct values of starlark-go

This file gives a shallow embedding of the value-representation core of the
repository:

* `starlark/hashtable.go` — the insertion-order-preserving hash table
  (`hashtable`), its specialized positional view (`OrderedStringDict`), and
  the string hash (`softHashString`).
* `starlarkstruct/struct.go` — the immutable record value (`Struct`) built on
  a string-keyed copy of the same table, with merge (`Binary`), hashing
  (`Hash`), equality (`structsEqual` / `CompareSameType`) and field
  enumeration (`AttrNames`).

Modelling conventions:

* Go pointers and the intrusive doubly-linked insertion-order list are
  rendered functionally: buckets are lists of slots, a slot is
  `Option (HEntry K V)` (`none` is the Go zero entry whose `hash` field is 0),
  and the insertion-order list is the list `order` of slot addresses
  `(chain index, bucket index in chain, slot index in bucket)`.  Appending to
  the list tail and O(1) splicing through `prevLink`/`tailLink` become list
  append and `List.erase` over addresses.
* `uint32` values are `Nat`s reduced `% 2 ^ 32` where the source can overflow.
* The Go `Value` interface is a bundle `ValueAPI` of the operations the table
  consumes: a fallible hash, a fallible equality and pure freeze maps.
* `float64(elems) >= 6.5*float64(buckets)` in `overloaded` is exact for the
  integers in play (6.5 is a representable double and the conversions are
  exact), so it is rendered as `2 * elems ≥ 13 * buckets`.
* The `goto retry` loop of `insert` and its mutual recursion with `grow` are
  rendered with an explicit fuel argument; the exported operation passes fuel
  `ht.len + ht.table.length + 2`, and the development proves that on
  well-formed tables a single regrow always suffices, so the fuel never runs
  out (`outOfFuel` is unreachable there).
-/

set_option autoImplicit false

namespace StarlarkGo

/-- The error kinds of §7 of the design: each constructor corresponds to one
of the `fmt.Errorf` results (or propagated `Value` errors) of the source. -/
inductive Err where
  /-- "cannot insert into frozen hash table" -/
  | frozenInsert : Err
  /-- "cannot delete from frozen hash table" -/
  | frozenDelete : Err
  /-- "cannot clear frozen hash table" -/
  | frozenClear : Err
  /-- "cannot insert into hash table during iteration" -/
  | iterInsert : Err
  /-- "cannot delete from hash table during iteration" -/
  | iterDelete : Err
  /-- "cannot clear hash table during iteration" -/
  | iterClear : Err
  /-- "unhashable type: …" (from a `Value.Hash` implementation) -/
  | unhashable (typeName : String) : Err
  /-- "comparison exceeded maximum recursion depth" (from `CompareDepth`) -/
  | recursionLimit : Err
  /-- "struct <op> struct not implemented" (from `CompareSameType`) -/
  | cmpUnimplemented : Err
  /-- "in x + y: error comparing constructors: …" (from `Struct.Binary`);
  carries the rendered constructors and the propagated inner error. -/
  | ctorCmpError (cx cy : String) (inner : Err) : Err
  /-- "cannot add structs of different constructors: cx + cy" -/
  | ctorMismatch (cx cy : String) : Err
  /-- "error comparing struct constructors cx and cy: …" (from `structsEqual`) -/
  | structCtorCmpError (cx cy : String) (inner : Err) : Err
  /-- "duplicate key …" (from `OrderedStringDict.append`) -/
  | duplicateKey (k : String) : Err
  /-- Modelling artifact: the fuel of the `insert`/`grow` recursion ran out.
  Unreachable from well-formed tables with the exported fuel. -/
  | outOfFuel : Err
  deriving DecidableEq, Repr

/-! ## List index helpers -/

/-- Apply `f` to the element at index `i` of `l` (identity out of range). -/
def modIdx {α : Type} (f : α → α) : Nat → List α → List α
  | _, [] => []
  | 0, x :: l => f x :: l
  | i + 1, x :: l => x :: modIdx f i l


/-! ## The table data model (`starlark/hashtable.go`)

`type hashtable struct { table []bucket; bucket0 [1]bucket; len uint32;
itercount uint32; head *entry; tailLink **entry; frozen bool }` with
`type bucket struct { entries [bucketSize]entry; next *bucket }` and
`type entry struct { hash uint32; key, value Value; next *entry;
prevLink **entry }`.

An in-use entry (`hash != 0`) is a `some` slot; the Go zero entry is `none`.
A chain is the inline first bucket of a table cell followed by its `next`
overflow buckets.  `bucket0` is an allocation detail and is not modelled. -/

/-- An in-use table entry: hash (already remapped, hence nonzero), key, value. -/
structure HEntry (K V : Type) where
  hash : Nat
  key : K
  value : V
  deriving DecidableEq, Repr

/-- One of the `bucketSize` fixed slots of a bucket; `none` is an empty slot
(Go: `hash == 0`). -/
abbrev Slot (K V : Type) := Option (HEntry K V)

/-- A bucket: the fixed array `entries [bucketSize]entry`. -/
abbrev Bucket (K V : Type) := List (Slot K V)

/-- A bucket chain: a table cell together with its `next` overflow buckets. -/
abbrev Chain (K V : Type) := List (Bucket K V)

/-- The address of a slot: (table cell index, bucket index in the chain,
slot index in the bucket).  Plays the role of an `*entry` pointer. -/
abbrev Addr := Nat × Nat × Nat

/-- The hash table state.  `order` is the insertion-order doubly-linked list
(`head`/`next`/`prevLink`/`tailLink`), rendered as the list of addresses of
the live entries in insertion order. -/
structure Hashtable (K V : Type) where
  table : List (Chain K V)
  len : Nat
  itercount : Nat
  order : List Addr
  frozen : Bool
  deriving DecidableEq, Repr

/-- The capability set the table consumes from the surrounding runtime
(`Value.Hash`, `starlark.Equal`, `Value.Freeze`). -/
structure ValueAPI (K V : Type) where
  hashFn : K → Except Err Nat
  eqFn : K → K → Except Err Bool
  freezeK : K → K
  freezeV : V → V

/-- `const bucketSize = 8` -/
def bucketSize : Nat := 8

/-- `func overloaded(elems, buckets int) bool` — the load-factor test
`elems >= bucketSize && float64(elems) >= 6.5*float64(buckets)`; the float
comparison is exact and is rendered over `Nat` as `2*elems ≥ 13*buckets`. -/
def overloaded (elems buckets : Nat) : Bool :=
  bucketSize ≤ elems && 13 * buckets ≤ 2 * elems

/-- A bucket of `bucketSize` empty slots (the Go zero `bucket{}`). -/
def emptyBucket (K V : Type) : Bucket K V := List.replicate bucketSize none

/-- The bucket-count doubling loop of `hashtable.init`:
`nb := 1; for overloaded(size, nb) { nb = nb << 1 }`.  The fuel `size + 1`
always dominates the number of doublings. -/
def initNBAux (size : Nat) : Nat → Nat → Nat
  | 0, nb => nb
  | f + 1, nb => if overloaded size nb then initNBAux size f (2 * nb) else nb

/-- Number of buckets allocated by `hashtable.init(size)`. -/
def initNB (size : Nat) : Nat := initNBAux size (size + 1) 1

/-- The bucket array allocated by `hashtable.init(size)`: one inline bucket
when `nb < 2`, else `nb` fresh buckets. -/
def initTable (K V : Type) (size : Nat) : List (Chain K V) :=
  let nb := initNB size
  if nb < 2 then [[emptyBucket K V]] else List.replicate nb [emptyBucket K V]

/-- `func (ht *hashtable) init(size int)` on a table-shaped state (the list
head bookkeeping `tailLink = &head` is implicit in the `order` rendering). -/
def htInit {K V : Type} (ht : Hashtable K V) (size : Nat) : Hashtable K V :=
  { ht with table := initTable K V size }

/-- The all-empty table value (`var ht hashtable`). -/
def mkHT (K V : Type) : Hashtable K V :=
  { table := [], len := 0, itercount := 0, order := [], frozen := false }

/-- Read the slot a pointer address denotes (out-of-range reads give `none`,
which only well-formedness rules out caring about). -/
def getSlot {K V : Type} (t : List (Chain K V)) (a : Addr) : Slot K V :=
  ((t.getD a.1 []).getD a.2.1 []).getD a.2.2 none

/-- Overwrite slot `si` of a bucket. -/
def setInBucket {K V : Type} (s : Slot K V) (si : Nat) (b : Bucket K V) : Bucket K V :=
  modIdx (fun _ => s) si b

/-- Overwrite slot `si` of bucket `bi` of a chain. -/
def setInChain {K V : Type} (s : Slot K V) (bi si : Nat) (ch : Chain K V) : Chain K V :=
  modIdx (setInBucket s si) bi ch

/-- Overwrite the slot at address `a` (out-of-range writes are dropped). -/
def setSlot {K V : Type} (t : List (Chain K V)) (a : Addr) (s : Slot K V) :
    List (Chain K V) :=
  modIdx (setInChain s a.2.1 a.2.2) a.1 t

/-- `h == 0 → h = 1`: "zero is reserved" — performed after every `k.Hash()`. -/
def remapHash (h : Nat) : Nat := if h = 0 then 1 else h

/-- `k.Hash()` followed by the zero remap. -/
def hashKey {K V : Type} (api : ValueAPI K V) (k : K) : Except Err Nat :=
  (api.hashFn k).map remapHash

/-- `h & (uint32(len(ht.table) - 1))` — the table cell for hash `h`. -/
def chainIdx (h n : Nat) : Nat := h &&& (n - 1)

/-- The slots of bucket `bi` of cell `ci`, with their addresses, starting at
slot index `si` (the scan order of `for i := range p.entries`). -/
def bucketSlots {K V : Type} (ci bi : Nat) : Nat → Bucket K V → List (Addr × Slot K V)
  | _, [] => []
  | si, s :: rest => ((ci, bi, si), s) :: bucketSlots ci bi (si + 1) rest

/-- The slots of the chain of cell `ci`, bucket `bi` onwards, with addresses
(the scan order of the `for { … p = p.next }` bucket walk). -/
def chainSlots {K V : Type} (ci : Nat) : Nat → Chain K V → List (Addr × Slot K V)
  | _, [] => []
  | bi, b :: rest => bucketSlots ci bi 0 b ++ chainSlots ci (bi + 1) rest

/-- Outcome of a bucket-chain scan for key `k` with hash `h`. -/
inductive ScanRes (K V : Type) where
  /-- An entry with equal hash and `Equal`-equal key was found at `a`. -/
  | found (a : Addr) (e : HEntry K V)
  /-- No match; `cand` is the address of the last empty slot seen
  (the `insert` note of the source scan). -/
  | notFound (cand : Option Addr)
  deriving DecidableEq, Repr

/-- The shared bucket-chain scan of `insert`/`lookup`/`delete`: visit the
slots in chain order; an empty slot becomes the insertion candidate; an
in-use slot with equal hash is compared by `Equal(k, e.key)`, whose error
aborts; an equal key is a match.  (`lookup`/`delete` ignore the candidate.) -/
def scanSlots {K V : Type} (eqFn : K → K → Except Err Bool) (h : Nat) (k : K) :
    List (Addr × Slot K V) → Option Addr → Except Err (ScanRes K V)
  | [], cand => .ok (.notFound cand)
  | (a, none) :: rest, _ => scanSlots eqFn h k rest (some a)
  | (a, some e) :: rest, cand =>
    if e.hash ≠ h then scanSlots eqFn h k rest cand
    else
      match eqFn k e.key with
      | .error err => .error err
      | .ok true => .ok (.found a e)
      | .ok false => scanSlots eqFn h k rest cand

/-- A fresh overflow bucket holding `e` in slot 0
(`b := new(bucket); insert = &b.entries[0]`). -/
def newBucket {K V : Type} (e : HEntry K V) : Bucket K V :=
  some e :: List.replicate (bucketSize - 1) none

/-- Link a fresh overflow bucket at the end of a chain (`p.next = b`). -/
def appendBucket {K V : Type} (nb : Bucket K V) (ch : Chain K V) : Chain K V :=
  ch ++ [nb]

/-- The slot address the new entry is written to: the noted empty slot, or
slot 0 of the overflow bucket about to be appended to chain `ci`. -/
def placeAddr {K V : Type} (ht : Hashtable K V) (ci : Nat) (cand : Option Addr) : Addr :=
  match cand with
  | some a => a
  | none => (ci, (ht.table.getD ci []).length, 0)

/-- Write the new entry and append it to the insertion-order list: either into
the noted empty slot, or into slot 0 of a fresh overflow bucket appended to
the chain of cell `ci`. -/
def placeEntry {K V : Type} (ht : Hashtable K V) (ci : Nat) (cand : Option Addr)
    (e : HEntry K V) : Hashtable K V :=
  match cand with
  | some a =>
    { ht with table := setSlot ht.table a (some e),
              order := ht.order ++ [a],
              len := ht.len + 1 }
  | none =>
    { ht with table := modIdx (appendBucket (newBucket e)) ci ht.table,
              order := ht.order ++ [(ci, (ht.table.getD ci []).length, 0)],
              len := ht.len + 1 }

/-- The live entries in insertion order (what the `head`/`next` walk sees). -/
def obsEntries {K V : Type} (ht : Hashtable K V) : List (HEntry K V) :=
  ht.order.filterMap (fun a => getSlot ht.table a)

/-- The observable contents: key/value pairs in insertion order
(`hashtable.items`). -/
def obs {K V : Type} (ht : Hashtable K V) : List (K × V) :=
  (obsEntries ht).map (fun e => (e.key, e.value))

/-- `func (ht *hashtable) keys() []Value` — keys in insertion order. -/
def keysList {K V : Type} (ht : Hashtable K V) : List K :=
  (obsEntries ht).map (·.key)

mutual

/-- The `retry:` loop body of `func (ht *hashtable) insert(k, v Value) error`:
scan the chain; overwrite in place on a key match; otherwise grow and retry
while overloaded; otherwise place the entry and link it at the list tail. -/
def insertLoop {K V : Type} (api : ValueAPI K V) (fuel : Nat) (ht : Hashtable K V)
    (h : Nat) (k : K) (v : V) : Hashtable K V × Option Err :=
  match fuel with
  | 0 => (ht, some .outOfFuel)
  | fuel' + 1 =>
    let n := ht.table.length
    let ci := chainIdx h n
    match scanSlots api.eqFn h k (chainSlots ci 0 (ht.table.getD ci [])) none with
    | .error e => (ht, some e)
    | .ok (.found a e) =>
      ({ ht with table := setSlot ht.table a (some ⟨e.hash, e.key, v⟩) }, none)
    | .ok (.notFound cand) =>
      if overloaded ht.len n then
        insertLoop api fuel' (grow api fuel' ht) h k v
      else
        (placeEntry ht ci cand ⟨h, k, v⟩, none)
termination_by (fuel, 0)

/-- `func (ht *hashtable) grow()`: double the bucket count and re-`insert`
every live entry in insertion order (insert errors are discarded, as in the
source, which ignores the return value of `ht.insert` here). -/
def grow {K V : Type} (api : ValueAPI K V) (fuel : Nat) (ht : Hashtable K V) :
    Hashtable K V :=
  let olds := obs ht
  let fresh : Hashtable K V :=
    { table := List.replicate (2 * ht.table.length) [emptyBucket K V],
      len := 0, itercount := ht.itercount, order := [], frozen := ht.frozen }
  olds.foldl (fun acc kv => (insert api fuel acc kv.1 kv.2).1) fresh
termination_by (fuel, 2)

/-- `func (ht *hashtable) insert(k, v Value) error`: the frozen and iterator
guards, lazy `init(1)`, key hashing with zero remap, then the retry loop.
The mutated receiver is returned alongside the `error` result. -/
def insert {K V : Type} (api : ValueAPI K V) (fuel : Nat) (ht : Hashtable K V)
    (k : K) (v : V) : Hashtable K V × Option Err :=
  if ht.frozen then (ht, some .frozenInsert)
  else if 0 < ht.itercount then (ht, some .iterInsert)
  else
    let ht' := if ht.table.isEmpty then htInit ht 1 else ht
    match hashKey api k with
    | .error e => (ht', some e)
    | .ok h => insertLoop api fuel ht' h k v
termination_by (fuel, 1)

end

/-- Fuel that always suffices on well-formed tables (proved below: a single
insert performs at most one regrow there, so any fuel ≥ 2 works). -/
def defaultFuel {K V : Type} (ht : Hashtable K V) : Nat :=
  ht.len + ht.table.length + 2

/-- The exported insert: `insert` with ample fuel. -/
def insertD {K V : Type} (api : ValueAPI K V) (ht : Hashtable K V) (k : K) (v : V) :
    Hashtable K V × Option Err :=
  insert api (defaultFuel ht) ht k v

/-- `func (ht *hashtable) lookup(k Value) (v Value, found bool, err error)`:
hash (zero-remapped), empty-table fast path, then the chain scan.
`(v, true)` is `some v`; `(None, false)` is `none`. -/
def lookup {K V : Type} (api : ValueAPI K V) (ht : Hashtable K V) (k : K) :
    Except Err (Option V) :=
  match hashKey api k with
  | .error e => .error e
  | .ok h =>
    if ht.table.isEmpty then .ok none
    else
      let ci := chainIdx h ht.table.length
      match scanSlots api.eqFn h k (chainSlots ci 0 (ht.table.getD ci [])) none with
      | .error e => .error e
      | .ok (.found _ e) => .ok (some e.value)
      | .ok (.notFound _) => .ok none

/-- `func (ht *hashtable) delete(k Value) (v Value, found bool, err error)`:
guards, empty-table fast path (before hashing), hash, chain scan; on a match
the entry is spliced out of the insertion-order list, its slot zeroed and the
length decremented. -/
def delete {K V : Type} (api : ValueAPI K V) (ht : Hashtable K V) (k : K) :
    Hashtable K V × Except Err (Option V) :=
  if ht.frozen then (ht, .error .frozenDelete)
  else if 0 < ht.itercount then (ht, .error .iterDelete)
  else if ht.table.isEmpty then (ht, .ok none)
  else
    match hashKey api k with
    | .error e => (ht, .error e)
    | .ok h =>
      let ci := chainIdx h ht.table.length
      match scanSlots api.eqFn h k (chainSlots ci 0 (ht.table.getD ci [])) none with
      | .error e => (ht, .error e)
      | .ok (.found a e) =>
        ({ ht with table := setSlot ht.table a none,
                   order := ht.order.erase a,
                   len := ht.len - 1 }, .ok (some e.value))
      | .ok (.notFound _) => (ht, .ok none)

/-- `func (ht *hashtable) clear() error`: guards, then reset every table cell
to an empty bucket, reset the order list and zero the length. -/
def clear {K V : Type} (ht : Hashtable K V) : Hashtable K V × Option Err :=
  if ht.frozen then (ht, some .frozenClear)
  else if 0 < ht.itercount then (ht, some .iterClear)
  else
    ({ ht with table := ht.table.map (fun _ => [emptyBucket K V]),
               order := [], len := 0 }, none)

/-- `e.key.Freeze(); e.value.Freeze()` on one entry. -/
def freezeEntry {K V : Type} (api : ValueAPI K V) (e : HEntry K V) : HEntry K V :=
  ⟨e.hash, api.freezeK e.key, api.freezeV e.value⟩

/-- `func (ht *hashtable) freeze()`: once, set the flag and freeze every
retained key and value.  The source walks the insertion-order list; under the
table invariant that visits exactly the occupied slots, so the freeze maps
are applied to every occupied slot. -/
def freezeHT {K V : Type} (api : ValueAPI K V) (ht : Hashtable K V) : Hashtable K V :=
  if ht.frozen then ht
  else
    { ht with frozen := true,
              table := ht.table.map (fun ch => ch.map (fun b => b.map (fun s =>
                s.map (freezeEntry api)))) }

/-- `func (ht *hashtable) iterate() *keyIterator`: bump the active-iterator
counter unless frozen; the returned cursor walks the insertion-order list, so
it is modelled by the key sequence it will yield (`Next` pops). -/
def iterate {K V : Type} (ht : Hashtable K V) : List K × Hashtable K V :=
  (keysList ht, if ht.frozen then ht else { ht with itercount := ht.itercount + 1 })

/-- `func (it *keyIterator) Done()`: drop the counter unless frozen. -/
def iterDone {K V : Type} (ht : Hashtable K V) : Hashtable K V :=
  if ht.frozen then ht else { ht with itercount := ht.itercount - 1 }

/-! ## Address and slot lemmas -/

/-- An address that denotes an actual slot of the table shape. -/
def validAddr {K V : Type} (t : List (Chain K V)) (a : Addr) : Prop :=
  a.1 < t.length ∧ a.2.1 < (t.getD a.1 []).length ∧
    a.2.2 < ((t.getD a.1 []).getD a.2.1 []).length

/-- No in-use entry with hash `h` compares `Equal`-true (or errors) against
`k`: the key is definitely absent from the table. -/
def NoMatch {K V : Type} (api : ValueAPI K V) (ht : Hashtable K V) (h : Nat) (k : K) : Prop :=
  ∀ a e, getSlot ht.table a = some e → e.hash = h → api.eqFn k e.key = .ok false

/-- Well-formedness of a table state — the representation invariant of
`hashtable`: the length counts the insertion-order list; that list enumerates
the occupied slots exactly once; every occupied slot lives in the chain its
(remapped, key-derived) hash selects; entries of equal hash compare
`Equal`-false, later entry against earlier; and the load stays within one
insert of the growth threshold. -/
structure Inv {K V : Type} (api : ValueAPI K V) (ht : Hashtable K V) : Prop where
  lenOrd : ht.len = ht.order.length
  ordNodup : ht.order.Nodup
  ordFull : ∀ a ∈ ht.order, (getSlot ht.table a).isSome
  fullOrd : ∀ a : Addr, (getSlot ht.table a).isSome → a ∈ ht.order
  placed : ∀ a e, getSlot ht.table a = some e → a.1 = chainIdx e.hash ht.table.length
  hashOk : ∀ a e, getSlot ht.table a = some e → hashKey api e.key = .ok e.hash
  eqFalse : ht.order.Pairwise (fun a b => ∀ ea eb, getSlot ht.table a = some ea →
    getSlot ht.table b = some eb → eb.hash = ea.hash → api.eqFn eb.key ea.key = .ok false)
  load : ht.len ≤ bucketSize ∨ 2 * ht.len ≤ 13 * ht.table.length + 2

/-- The pairwise `Equal`-false relation, read off the observable list:
later keys of equal remapped hash compare `Equal`-false against earlier. -/
def PWR {K V : Type} (api : ValueAPI K V) (p q : K × V) : Prop :=
  ∀ hp hq, hashKey api p.1 = .ok hp → hashKey api q.1 = .ok hq → hq = hp →
    api.eqFn q.1 p.1 = .ok false

/-- The re-insertion fold of `grow`: `for e := oldhead; e != nil; e = e.next
{ ht.insert(e.key, e.value) }` over a given entry list. -/
def insertAll {K V : Type} (api : ValueAPI K V) (fuel : Nat) (ht : Hashtable K V)
    (L : List (K × V)) : Hashtable K V :=
  L.foldl (fun acc kv => (insert api fuel acc kv.1 kv.2).1) ht

/-- The `Value` capability bundle of well-behaved keys: hashing by a pure
function that never fails, `Equal` the decidable equality, freezing the
identity (hashable keys are immutable). -/
def pureAPI {K V : Type} [DecidableEq K] (hf : K → Nat) : ValueAPI K V :=
  { hashFn := fun k => .ok (hf k)
    eqFn := fun a b => .ok (decide (a = b))
    freezeK := id
    freezeV := id }

/-- The association-list model of `insert`: overwrite in place, else append
(`specInsert`), of `delete`: drop the key (`specDelete`), and of `lookup`:
first match (`specLookup`). -/
def specInsert {K V : Type} [DecidableEq K] : List (K × V) → K → V → List (K × V)
  | [], k, v => [(k, v)]
  | p :: m, k, v => if p.1 = k then (k, v) :: m else p :: specInsert m k v

def specDelete {K V : Type} [DecidableEq K] (m : List (K × V)) (k : K) : List (K × V) :=
  m.filter (fun p => decide (p.1 ≠ k))

def specLookup {K V : Type} [DecidableEq K] (m : List (K × V)) (k : K) : Option V :=
  (m.find? (fun p => decide (p.1 = k))).map Prod.snd

/-- A table operation: an insert or a delete. -/
inductive TOp (K V : Type) where
  | ins (k : K) (v : V) : TOp K V
  | del (k : K) : TOp K V

/-- Run one operation (insert with ample fuel, or delete), keeping the
resulting table. -/
def runOp {K V : Type} (api : ValueAPI K V) (ht : Hashtable K V) :
    TOp K V → Hashtable K V
  | .ins k v => (insertD api ht k v).1
  | .del k => (delete api ht k).1

/-- Run a sequence of operations from a starting table. -/
def runOps {K V : Type} (api : ValueAPI K V) (ht : Hashtable K V)
    (ops : List (TOp K V)) : Hashtable K V :=
  ops.foldl (runOp api) ht

/-- The association-list meaning of one operation. -/
def specOp {K V : Type} [DecidableEq K] (m : List (K × V)) : TOp K V → List (K × V)
  | .ins k v => specInsert m k v
  | .del k => specDelete m k

/-- The association-list meaning of an operation sequence, from empty. -/
def specOps {K V : Type} [DecidableEq K] (ops : List (TOp K V)) : List (K × V) :=
  ops.foldl specOp []

/-- Insert-only operation sequences. -/
def insOps {K V : Type} (ps : List (K × V)) : List (TOp K V) :=
  ps.map (fun p => TOp.ins p.1 p.2)

/-- Keys already first-inserted, in first-insertion order. -/
def firstKeys {K : Type} [DecidableEq K] : List K → List K
  | [] => []
  | k :: ks => k :: (firstKeys ks).filter (fun x => decide (x ≠ k))

/-- `iterate` called `n` times: `n` outstanding iterators. -/
def iterateN {K V : Type} (ht : Hashtable K V) : Nat → Hashtable K V
  | 0 => ht
  | n + 1 => (iterate (iterateN ht n)).2

/-- `Done()` called on `n` iterators. -/
def iterDoneN {K V : Type} (ht : Hashtable K V) : Nat → Hashtable K V
  | 0 => ht
  | n + 1 => iterDone (iterDoneN ht n)

/-! ## The struct layer (`starlarkstruct`)

`struct.go` stores its fields in a string-keyed copy of the hash table
(`starlarkstruct/hashtable.go`): keys are Go strings compared with `==` and
hashed with `starlark.String(k).Hash()`, which never fails.  That table is
the pure instantiation `pureAPI hashString` of the generic table above.
Field values are modelled by the small universe `SVal`: strings, integers,
tuples (immutable, hashable) and lists (mutable, unhashable) — enough to
express every behaviour the claims mention. -/

/-- UTF-8 encoding of one character, as byte values (Go strings are byte
strings holding UTF-8). -/
def charUtf8 (c : Char) : List Nat :=
  let n := c.toNat
  if n < 0x80 then [n]
  else if n < 0x800 then [0xC0 + n / 0x40, 0x80 + n % 0x40]
  else if n < 0x10000 then
    [0xE0 + n / 0x1000, 0x80 + n / 0x40 % 0x40, 0x80 + n % 0x40]
  else
    [0xF0 + n / 0x40000, 0x80 + n / 0x1000 % 0x40, 0x80 + n / 0x40 % 0x40,
      0x80 + n % 0x40]

/-- The UTF-8 bytes of a string. -/
def strBytes (s : String) : List Nat :=
  s.data.foldr (fun c acc => charUtf8 c ++ acc) []

/-- `func softHashString(s string) uint32`: the 32-bit FNV-1a hash
(`h := 2166136261; for each byte: h ^= b; h *= 16777619`). -/
def softHashString (s : String) : Nat :=
  (strBytes s).foldl (fun h b => ((h ^^^ b) * 16777619) % 2 ^ 32) 2166136261

/-- `func hashString(s string) uint32`.  For strings of length ≥ 12 the Go
code calls the runtime's optimized string hash; that branch is modelled by
the same software FNV-1a hash (the claims depend only on `hashString` being
a fixed pure total function, never on particular hash values). -/
def hashString (s : String) : Nat := softHashString s

/-- The universe of Starlark values stored in struct fields: strings,
integers, tuples (hashable, comparable elementwise) and lists (mutable,
hence unhashable). -/
inductive SVal where
  | str (s : String)
  | int (n : Int)
  | tuple (xs : List SVal)
  | list (xs : List SVal)

mutual

def svalBeq : SVal → SVal → Bool
  | .str a, .str b => a == b
  | .int a, .int b => a == b
  | .tuple xs, .tuple ys => svalListBeq xs ys
  | .list xs, .list ys => svalListBeq xs ys
  | _, _ => false

def svalListBeq : List SVal → List SVal → Bool
  | [], [] => true
  | x :: xs, y :: ys => svalBeq x y && svalListBeq xs ys
  | _, _ => false

end

mutual

def svalBeq_iff : ∀ x y : SVal, svalBeq x y = true ↔ x = y
  | .str _, .str _ => by simp [svalBeq]
  | .str _, .int _ => by simp [svalBeq]
  | .str _, .tuple _ => by simp [svalBeq]
  | .str _, .list _ => by simp [svalBeq]
  | .int _, .str _ => by simp [svalBeq]
  | .int _, .int _ => by simp [svalBeq]
  | .int _, .tuple _ => by simp [svalBeq]
  | .int _, .list _ => by simp [svalBeq]
  | .tuple _, .str _ => by simp [svalBeq]
  | .tuple _, .int _ => by simp [svalBeq]
  | .tuple xs, .tuple ys => by
    simp only [svalBeq, SVal.tuple.injEq]
    exact svalListBeq_iff xs ys
  | .tuple _, .list _ => by simp [svalBeq]
  | .list _, .str _ => by simp [svalBeq]
  | .list _, .int _ => by simp [svalBeq]
  | .list _, .tuple _ => by simp [svalBeq]
  | .list xs, .list ys => by
    simp only [svalBeq, SVal.list.injEq]
    exact svalListBeq_iff xs ys

def svalListBeq_iff : ∀ xs ys : List SVal, svalListBeq xs ys = true ↔ xs = ys
  | [], [] => by simp [svalListBeq]
  | [], _ :: _ => by simp [svalListBeq]
  | _ :: _, [] => by simp [svalListBeq]
  | x :: xs, y :: ys => by
    simp only [svalListBeq, Bool.and_eq_true, List.cons.injEq]
    exact and_congr (svalBeq_iff x y) (svalListBeq_iff xs ys)

end

instance : DecidableEq SVal := fun x y => decidable_of_iff _ (svalBeq_iff x y)

instance {ε α : Type} [DecidableEq ε] [DecidableEq α] :
    DecidableEq (Except ε α) := fun
  | .ok a, .ok b => decidable_of_iff (a = b) (by simp)
  | .ok _, .error _ => isFalse (by simp)
  | .error _, .ok _ => isFalse (by simp)
  | .error e, .error f => decidable_of_iff (e = f) (by simp)

mutual

/-- Modelled from the spec: the value abstraction's `hash()`
(`Value.Hash` lives in `value.go`, outside this repository).  String hashing
is `hashString` and never fails; integer hashing is a fixed pure function
(no claim depends on its values); tuple hashing mixes element hashes with an
evolving multiplier, propagating the first element error; lists are mutable
and therefore unhashable. -/
def svalHash : SVal → Except Err Nat
  | .str s => .ok (hashString s)
  | .int n => .ok ((n.natAbs * 2654435761) % 2 ^ 32)
  | .list _ => .error (.unhashable "list")
  | .tuple xs => tupleHash xs (2 * xs.length) 0x345678 1000003

/-- The element fold of tuple hashing (seed `0x345678`, multiplier `1000003`
evolving by `82520 + 2*len` per element). -/
def tupleHash : List SVal → Nat → Nat → Nat → Except Err Nat
  | [], _, x, _ => .ok x
  | e :: rest, len2, x, mult =>
    match svalHash e with
    | .error err => .error err
    | .ok y =>
      tupleHash rest len2 ((x ^^^ y * mult % 2 ^ 32) % 2 ^ 32)
        ((mult + 82520 + len2) % 2 ^ 32)

end

/-- Modelled from the spec: elementwise equality of sequences at a given
element comparator — the `EQL` case of `sliceCompare`, which propagates
element errors and stops at the first inequality. -/
def sliceEqual (cmp : SVal → SVal → Except Err Bool) :
    List SVal → List SVal → Except Err Bool
  | [], _ => .ok true
  | _ :: _, [] => .ok false
  | x :: xs, y :: ys =>
    match cmp x y with
    | .error e => .error e
    | .ok false => .ok false
    | .ok true => sliceEqual cmp xs ys

/-- Modelled from the spec: `starlark.EqualDepth` / `CompareDepth` with
`op = EQL`.  A depth budget below 1 is an error before any value is
inspected; sequences first compare lengths, then elements at `depth - 1`;
values of different types are unequal.  (Go's depth is an `int` that can go
negative; only `depth < 1` is ever tested, so `Nat` truncation at 0 is
faithful.) -/
def equalDepth : Nat → SVal → SVal → Except Err Bool
  | 0, _, _ => .error .recursionLimit
  | d + 1, x, y =>
    match x, y with
    | .str a, .str b => .ok (decide (a = b))
    | .int a, .int b => .ok (decide (a = b))
    | .tuple xs, .tuple ys =>
      if xs.length ≠ ys.length then .ok false else sliceEqual (equalDepth d) xs ys
    | .list xs, .list ys =>
      if xs.length ≠ ys.length then .ok false else sliceEqual (equalDepth d) xs ys
    | _, _ => .ok false

/-- Modelled from the spec: `starlark.Equal` — a fast path for strings
(interface equality, never fails), otherwise `EqualDepth` with the default
recursion budget `CompareLimit = 10`. -/
def starlarkEqual (x y : SVal) : Except Err Bool :=
  match x with
  | .str s => .ok (decide (y = .str s))
  | _ => equalDepth 10 x y

mutual

/-- Modelled from the spec: the rendering `Value.String()`, used only as the
error-message payloads (`%s`) of the struct operations. -/
def svalString : SVal → String
  | .str s => "\"" ++ s ++ "\""
  | .int n => toString n
  | .tuple xs => "(" ++ svalListString xs ++ ")"
  | .list xs => "[" ++ svalListString xs ++ "]"

/-- Comma-separated element renderings. -/
def svalListString : List SVal → String
  | [] => ""
  | [x] => svalString x
  | x :: y :: xs => svalString x ++ ", " ++ svalListString (y :: xs)

end

/-- Lexicographic comparison of character sequences by code point.  Go
compares strings byte-lexicographically; on UTF-8 encoded text that order
coincides with code-point lexicographic order, modelled here over the
character sequence. -/
def charsLt : List Char → List Char → Bool
  | [], [] => false
  | [], _ :: _ => true
  | _ :: _, [] => false
  | a :: as, b :: bs =>
    if a.toNat < b.toNat then true
    else if a.toNat = b.toNat then charsLt as bs
    else false

/-- Go's `<` on strings. -/
def strLt (a b : String) : Bool := charsLt a.data b.data

/-- Go's `<=` on strings (total order: `a <= b ↔ ¬(b < a)`). -/
def strLe (a b : String) : Bool := !strLt b a

/-- `type Struct struct { constructor starlark.Value; ht hashtable }`. -/
structure Struct where
  constructor : SVal
  ht : Hashtable String SVal

/-- The capability bundle of the string-keyed table of
`starlarkstruct/hashtable.go`: keys are hashed with
`starlark.String(k).Hash()` (never fails) and compared with `==`; it is the
pure instantiation of the generic table. -/
def strAPI : ValueAPI String SVal := pureAPI hashString

/-- `starlark.StringDict` is a Go map from string to value, modelled as an
association list with unique keys; `d[k]` (the key is always present where
used). -/
def dictGet (d : List (String × SVal)) (k : String) : SVal :=
  (specLookup d k).getD (SVal.str "")

/-- Modelled from the spec: `StringDict.Keys()` (in `value.go`, outside this
repository) returns the key set in ascending lexicographic order. -/
def dictKeys (d : List (String × SVal)) : List String :=
  List.insertionSort (fun a b => strLe a b = true) (d.map Prod.fst)

/-- The field sequence `FromStringDict` inserts: the sorted keys, each with
its mapped value. -/
def sortedFields (d : List (String × SVal)) : List (String × SVal) :=
  (dictKeys d).map (fun k => (k, dictGet d k))

/-- `func FromStringDict(constructor, d) *Struct`: pre-size with
`ht.init(len(d))`, then insert the fields in sorted key order. -/
def fromStringDict (ctor : SVal) (d : List (String × SVal)) : Struct :=
  { constructor := ctor,
    ht := runOps strAPI (htInit (mkHT String SVal) d.length)
      (insOps (sortedFields d)) }

/-- `func (s *Struct) AttrNames() []string`: walk the insertion-order list
collecting keys. -/
def attrNames (s : Struct) : List String := keysList s.ht

/-- `func (s *Struct) len() int`. -/
def structLen (s : Struct) : Nat := s.ht.len

/-- The field fold of `func (s *Struct) Hash()`:
`x = x ^ 3*namehash; y, err := v.Hash(); x = x ^ y*m; m += 7349`, all in
`uint32` arithmetic. -/
def structHashFields : List (String × SVal) → Nat → Nat → Except Err Nat
  | [], x, _ => .ok x
  | (k, v) :: rest, x, m =>
    let x1 := x ^^^ 3 * hashString k % 2 ^ 32
    match svalHash v with
    | .error e => .error e
    | .ok y => structHashFields rest (x1 ^^^ y * m % 2 ^ 32) ((m + 7349) % 2 ^ 32)

/-- `func (s *Struct) Hash() (uint32, error)`: the field fold seeded with
the primes 8731 and 9839. -/
def structHash (s : Struct) : Except Err Nat :=
  structHashFields (obs s.ht) 8731 9839

/-- The key/value sequence inserted by the three-way linear merge walk of
`Struct.Binary` (both inputs walked in insertion order; on equal keys the
right operand's value is taken and both advance). -/
def mergePairs : List (String × SVal) → List (String × SVal) → List (String × SVal)
  | [], ys => ys
  | xs, [] => xs
  | (kx, vx) :: xs, (ky, vy) :: ys =>
    if strLt kx ky then (kx, vx) :: mergePairs xs ((ky, vy) :: ys)
    else if kx = ky then (ky, vy) :: mergePairs xs ys
    else (ky, vy) :: mergePairs ((kx, vx) :: xs) ys
termination_by xs ys => xs.length + ys.length

/-- The table built by `Struct.Binary`: `s.ht.init(x.len() + y.len())`, then
the merge walk's inserts. -/
def mergeHT (hx hy : Hashtable String SVal) : Hashtable String SVal :=
  runOps strAPI (htInit (mkHT String SVal) (hx.len + hy.len))
    (insOps (mergePairs (obs hx) (obs hy)))

/-- The syntax tokens the struct operations inspect. -/
inductive Token where
  | plus
  | eql
  | neq
  | other
  deriving DecidableEq

/-- `starlark.Side`: which operand the receiver of `Binary` is. -/
inductive Side where
  | left
  | right
  deriving DecidableEq

/-- The handled case of `Struct.Binary` (`op == PLUS`, `y` a struct): check
the constructors with `starlark.Equal` (propagating its error, wrapped), fail
on mismatch naming both constructors, else build the merged struct. -/
def structBinaryPlus (x y : Struct) : Except Err (Option Struct) :=
  match starlarkEqual x.constructor y.constructor with
  | .error e =>
    .error (.ctorCmpError (svalString x.constructor) (svalString y.constructor) e)
  | .ok false =>
    .error (.ctorMismatch (svalString x.constructor) (svalString y.constructor))
  | .ok true => .ok (some ⟨x.constructor, mergeHT x.ht y.ht⟩)

/-- `func (x *Struct) Binary(op, y, side)`: only `PLUS` on two structs is
handled (`.ok none` is Go's `nil, nil`); when the receiver is the right
operand the operands are swapped first. -/
def structBinary (x : Struct) (op : Token) (y : Struct) (side : Side) :
    Except Err (Option Struct) :=
  if op = Token.plus then
    structBinaryPlus (if side = Side.right then y else x)
      (if side = Side.right then x else y)
  else .ok none

/-- The pairwise field walk of `structsEqual`: keys must match and values
must be `EqualDepth`-equal at `depth - 1` (first error propagates; the
mixed-length cases are unreachable behind the length guard). -/
def fieldsEqual (d : Nat) :
    List (String × SVal) → List (String × SVal) → Except Err Bool
  | [], _ => .ok true
  | _ :: _, [] => .ok false
  | (kx, vx) :: xs, (ky, vy) :: ys =>
    if kx ≠ ky then .ok false
    else match equalDepth (d - 1) vx vy with
      | .error e => .error e
      | .ok false => .ok false
      | .ok true => fieldsEqual d xs ys

/-- `func structsEqual(x, y *Struct, depth int) (bool, error)`: false fast on
a length mismatch; then the fallible constructor comparison (its error
wrapped, naming both constructors); then the pairwise field walk.  (Go's
depth is an `int` that may go negative; only `depth-1 < 1` is ever tested
below, so `Nat` truncation at 0 is faithful.) -/
def structsEqual (x y : Struct) (depth : Nat) : Except Err Bool :=
  if x.ht.len ≠ y.ht.len then .ok false
  else match starlarkEqual x.constructor y.constructor with
    | .error e =>
      .error (.structCtorCmpError (svalString x.constructor)
        (svalString y.constructor) e)
    | .ok false => .ok false
    | .ok true => fieldsEqual depth (obs x.ht) (obs y.ht)

/-- `func (x *Struct) CompareSameType(op, y_, depth)`: `EQL` is
`structsEqual`, `NEQ` its negation (the Go pair `(!eq, err)` is the mapped
`Except`), anything else is unimplemented. -/
def structCompareSameType (x : Struct) (op : Token) (y : Struct) (depth : Nat) :
    Except Err Bool :=
  match op with
  | .eql => structsEqual x y depth
  | .neq => (structsEqual x y depth).map (fun b => !b)
  | _ => .error .cmpUnimplemented

/-! ## The string order is a linear order -/

def char_eq_of_toNat_eq {a b : Char} (h : a.toNat = b.toNat) : a = b := by
  have h3 : a.val.toNat = b.val.toNat := h
  exact Char.ext (UInt32.eq_of_val_eq (Fin.ext h3))

def string_eq_of_data_eq {a b : String} (h : a.data = b.data) : a = b := by
  cases a
  cases b
  exact congrArg String.mk h

def charsLt_cons_iff (a b : Char) (as bs : List Char) :
    charsLt (a :: as) (b :: bs) = true ↔
      a.toNat < b.toNat ∨ (a.toNat = b.toNat ∧ charsLt as bs = true) := by
  show (if a.toNat < b.toNat then true
    else if a.toNat = b.toNat then charsLt as bs else false) = true ↔ _
  by_cases h1 : a.toNat < b.toNat
  · simp [h1]
  · by_cases h2 : a.toNat = b.toNat <;> simp [h1, h2]

def charsLt_irrefl : ∀ l : List Char, charsLt l l = false
  | [] => rfl
  | a :: as => by
    show (if a.toNat < a.toNat then true
      else if a.toNat = a.toNat then charsLt as as else false) = false
    rw [if_neg (Nat.lt_irrefl _), if_pos rfl]
    exact charsLt_irrefl as

def charsLt_trans : ∀ (a b c : List Char), charsLt a b = true →
    charsLt b c = true → charsLt a c = true
  | [], _ :: _, _ :: _, _, _ => rfl
  | [], [], _, h, _ => by simp [charsLt] at h
  | [], _ :: _, [], _, h => by simp [charsLt] at h
  | _ :: _, [], _, h, _ => by simp [charsLt] at h
  | _ :: _, _ :: _, [], _, h => by simp [charsLt] at h
  | a :: as, b :: bs, c :: cs, h1, h2 => by
    rw [charsLt_cons_iff] at h1 h2 ⊢
    rcases h1 with h1 | ⟨h1e, h1r⟩
    · rcases h2 with h2 | ⟨h2e, h2r⟩
      · exact Or.inl (Nat.lt_trans h1 h2)
      · exact Or.inl (h2e ▸ h1)
    · rcases h2 with h2 | ⟨h2e, h2r⟩
      · exact Or.inl (h1e ▸ h2)
      · exact Or.inr ⟨h1e.trans h2e, charsLt_trans as bs cs h1r h2r⟩

def charsLt_eq_of_not : ∀ (a b : List Char), charsLt a b = false →
    charsLt b a = false → a = b
  | [], [], _, _ => rfl
  | [], _ :: _, h, _ => by simp [charsLt] at h
  | _ :: _, [], _, h => by simp [charsLt] at h
  | a :: as, b :: bs, h1, h2 => by
    have h1' : ¬(a.toNat < b.toNat ∨ (a.toNat = b.toNat ∧ charsLt as bs = true)) := by
      rw [← charsLt_cons_iff]
      simp [h1]
    have h2' : ¬(b.toNat < a.toNat ∨ (b.toNat = a.toNat ∧ charsLt bs as = true)) := by
      rw [← charsLt_cons_iff]
      simp [h2]
    have hab : a.toNat = b.toNat := by
      rcases Nat.lt_trichotomy a.toNat b.toNat with h | h | h
      · exact absurd (Or.inl h) h1'
      · exact h
      · exact absurd (Or.inl h) h2'
    have hr1 : charsLt as bs = false := by
      rcases hc : charsLt as bs with _ | _
      · rfl
      · exact absurd (Or.inr ⟨hab, hc⟩) h1'
    have hr2 : charsLt bs as = false := by
      rcases hc : charsLt bs as with _ | _
      · rfl
      · exact absurd (Or.inr ⟨hab.symm, hc⟩) h2'
    rw [char_eq_of_toNat_eq hab, charsLt_eq_of_not as bs hr1 hr2]

def charsLt_asymm {a b : List Char} (h : charsLt a b = true) :
    charsLt b a = false := by
  rcases hc : charsLt b a with _ | _
  · rfl
  · have := charsLt_trans a b a h hc
    rw [charsLt_irrefl] at this
    exact absurd this (by simp)

def strLe_total (a b : String) : strLe a b = true ∨ strLe b a = true := by
  unfold strLe strLt
  rcases hc : charsLt b.data a.data with _ | _
  · left
    simp
  · right
    rw [charsLt_asymm hc]
    rfl

def strLe_antisymm {a b : String} (h1 : strLe a b = true)
    (h2 : strLe b a = true) : a = b := by
  unfold strLe strLt at h1 h2
  rw [Bool.not_eq_true'] at h1 h2
  exact string_eq_of_data_eq (charsLt_eq_of_not _ _ h2 h1)

def strLe_trans {a b c : String} (h1 : strLe a b = true)
    (h2 : strLe b c = true) : strLe a c = true := by
  unfold strLe strLt at h1 h2 ⊢
  rw [Bool.not_eq_true'] at h1 h2 ⊢
  rcases hc : charsLt c.data a.data with _ | _
  · rfl
  · exfalso
    rcases hab : charsLt a.data b.data with _ | _
    · rw [charsLt_eq_of_not _ _ hab h1] at hc
      rw [hc] at h2
      exact absurd h2 (by simp)
    · have := charsLt_trans _ _ _ hc hab
      rw [this] at h2
      exact absurd h2 (by simp)

instance : IsTotal String (fun a b => strLe a b = true) := ⟨strLe_total⟩

instance : IsTrans String (fun a b => strLe a b = true) := ⟨fun _ _ _ => strLe_trans⟩

instance : IsAntisymm String (fun a b => strLe a b = true) := ⟨fun _ _ => strLe_antisymm⟩

/-- A one-entry table state in its canonical shape, used to instantiate the
struct theorems at concrete structs. -/
def oneFieldHT (k : String) (v : SVal) : Hashtable String SVal :=
  { table := [[[some ⟨remapHash (hashString k), k, v⟩]]],
    len := 1, itercount := 0, order := [(0, 0, 0)], frozen := false }

/-! ## The ordered string dictionary (`OrderedStringDict`)

The flat `entries` slice is the insertion-order sequence; buckets hold
`*osdEntry` pointers, rendered as indices into `entries`.  (The Go code
relies on those pointers staying valid: every in-repository construction
pre-sizes `entries` — `init(size)` from `OrderStringDict`, `grow` to twice
the length — so the backing array is never reallocated while bucket
pointers exist, and a stable index is a faithful rendering.)  An empty slot
is a nil pointer (`none`); the hash-0 sentinel of the generic table is not
used here. -/

/-- `type osdEntry struct { hash uint32; key string; value Value }`. -/
structure OsdEntry where
  hash : Nat
  key : String
  value : SVal
  deriving DecidableEq

/-- `type osdBucket struct { entries [bucketSize]*osdEntry; next *osdBucket }`:
one bucket's slots (the chain is the list of buckets). -/
abbrev OsdBucket := List (Option Nat)

/-- A table cell with its overflow buckets. -/
abbrev OsdChain := List OsdBucket

/-- `type OrderedStringDict struct { table []osdBucket; bucket0 [1]osdBucket;
entries []osdEntry }` (the inline `bucket0` is an allocation detail). -/
structure OSD where
  table : List OsdChain
  entries : List OsdEntry
  deriving DecidableEq

/-- Dereference an entry pointer (out-of-range is unreachable under the
representation invariant). -/
def osdEntryAt (es : List OsdEntry) (i : Nat) : OsdEntry :=
  es.getD i ⟨0, "", .str ""⟩

/-- The all-nil bucket (`osdBucket{}`). -/
def osdEmptyBucket : OsdBucket := List.replicate bucketSize none

/-- `func (d *OrderedStringDict) init(size int)`: the doubling loop sizes the
bucket array; the entries slice is reset (pre-sized to `size`). -/
def osdInit (d : OSD) (size : Nat) : OSD :=
  { d with
    table := if initNB size < 2 then [[osdEmptyBucket]]
      else List.replicate (initNB size) [osdEmptyBucket],
    entries := [] }

/-- The inner slot loop of `getEntry`: stop at the first nil pointer, return
the first entry with equal hash and key. -/
def osdScanBucketGet (es : List OsdEntry) (h : Nat) (k : String) :
    OsdBucket → Option Nat
  | [] => none
  | none :: _ => none
  | some i :: rest =>
    if (osdEntryAt es i).hash = h ∧ k = (osdEntryAt es i).key then some i
    else osdScanBucketGet es h k rest

/-- The outer bucket loop of `getEntry`. -/
def osdScanChainGet (es : List OsdEntry) (h : Nat) (k : String) :
    OsdChain → Option Nat
  | [] => none
  | b :: rest =>
    match osdScanBucketGet es h k b with
    | some i => some i
    | none => osdScanChainGet es h k rest

/-- `func (d *OrderedStringDict) getEntry(h uint32, k string) *osdEntry`. -/
def getEntryIdx (d : OSD) (h : Nat) (k : String) : Option Nat :=
  if d.table.isEmpty then none
  else osdScanChainGet d.entries h k (d.table.getD (chainIdx h d.table.length) [])

/-- The inner slot loop of `append`'s position scan: note the first nil slot,
fail on an equal key. -/
def osdScanPosBucket (es : List OsdEntry) (k : String) :
    OsdBucket → Nat → Except Err (Option Nat)
  | [], _ => .ok none
  | none :: _, si => .ok (some si)
  | some i :: rest, si =>
    if (osdEntryAt es i).key = k then .error (.duplicateKey k)
    else osdScanPosBucket es k rest (si + 1)

/-- The outer bucket loop of `append`'s position scan: the first bucket with
a free slot receives the entry; later buckets are not scanned (they are
empty in every reachable state). -/
def osdFindPos (es : List OsdEntry) (k : String) :
    OsdChain → Nat → Except Err (Option (Nat × Nat))
  | [], _ => .ok none
  | b :: rest, bi =>
    match osdScanPosBucket es k b 0 with
    | .error e => .error e
    | .ok (some si) => .ok (some (bi, si))
    | .ok none => osdFindPos es k rest (bi + 1)

/-- Write an entry pointer into slot `si` of bucket `bi` of cell `ci`. -/
def osdSetIdx (t : List OsdChain) (ci bi si idx : Nat) : List OsdChain :=
  modIdx (fun ch => modIdx (fun b => modIdx (fun _ => some idx) si b) bi ch) ci t

/-- Append a fresh overflow bucket holding the entry pointer in slot 0
(`b := new(osdBucket); p.next = b; p = b; position = 0`). -/
def osdAppendBucket (t : List OsdChain) (ci idx : Nat) : List OsdChain :=
  modIdx (fun ch => ch ++ [some idx :: List.replicate (bucketSize - 1) none]) ci t

mutual

/-- The body of `func (d *OrderedStringDict) append(h, k, v) error` after the
lazy init: the `for overloaded { grow }` loop (fuel-indexed; fuel 2 always
suffices under the representation invariant), then the position scan, then
the entry append and pointer write. -/
def osdAppendLoop : Nat → OSD → Nat → String → SVal → OSD × Option Err
  | fuel, d, h, k, v =>
    if overloaded d.entries.length d.table.length then
      match fuel with
      | 0 => (d, some .outOfFuel)
      | f + 1 => osdAppendLoop f (osdGrow f d) h k v
    else
      match osdFindPos d.entries k (d.table.getD (chainIdx h d.table.length) []) 0 with
      | .error e => (d, some e)
      | .ok (some (bi, si)) =>
        ({ table := osdSetIdx d.table (chainIdx h d.table.length) bi si
              d.entries.length,
           entries := d.entries ++ [⟨h, k, v⟩] }, none)
      | .ok none =>
        ({ table := osdAppendBucket d.table (chainIdx h d.table.length)
              d.entries.length,
           entries := d.entries ++ [⟨h, k, v⟩] }, none)
termination_by fuel _ _ _ _ => (fuel, 1, 0)

/-- `func (d *OrderedStringDict) append(h, k, v) error`: lazy `init(1)` on a
nil table, then the loop body. -/
def osdAppend : Nat → OSD → Nat → String → SVal → OSD × Option Err
  | fuel, d, h, k, v =>
    osdAppendLoop fuel (if d.table.isEmpty then osdInit d 1 else d) h k v
termination_by fuel _ _ _ _ => (fuel, 2, 0)

/-- `func (d *OrderedStringDict) grow()`: double the bucket array, reset the
entries, and re-append every old entry (return values discarded — "can't
error"). -/
def osdGrow (fuel : Nat) (d : OSD) : OSD :=
  osdReinsert fuel
    { table := List.replicate (2 * d.table.length) [osdEmptyBucket], entries := [] }
    d.entries
termination_by (fuel, 4, 0)

/-- The re-append loop of `grow`. -/
def osdReinsert : Nat → OSD → List OsdEntry → OSD
  | _, d, [] => d
  | fuel, d, e :: rest => osdReinsert fuel (osdAppend fuel d e.hash e.key e.value).1 rest
termination_by fuel _ l => (fuel, 3, l.length)

end

/-- Fuel that always suffices on well-formed states. -/
def osdDefaultFuel (d : OSD) : Nat := d.entries.length + d.table.length + 2

/-- `func OrderStringDict(d StringDict) OrderedStringDict`: `init(len(d))`,
then append the values in sorted key order (hashes from `hashString`;
append's return value is discarded). -/
def orderStringDict (d : List (String × SVal)) : OSD :=
  (dictKeys d).foldl
    (fun osd k =>
      (osdAppend (osdDefaultFuel osd) osd (hashString k) k (dictGet d k)).1)
    (osdInit { table := [], entries := [] } d.length)

/-- `func (d *OrderedStringDict) Set(k string, v Value) (found bool)`: update
the found entry's value through its pointer; a missing key is a no-op. -/
def osdSet (d : OSD) (k : String) (v : SVal) : OSD × Bool :=
  match getEntryIdx d (hashString k) k with
  | some i =>
    ({ d with entries := modIdx (fun e => { e with value := v }) i d.entries }, true)
  | none => (d, false)

/-- `func (d *OrderedStringDict) Get(k string) (v Value, found bool)`. -/
def osdGet (d : OSD) (k : String) : Option SVal :=
  (getEntryIdx d (hashString k) k).map (fun i => (osdEntryAt d.entries i).value)

/-- `func (d *OrderedStringDict) Index(i int) Value`. -/
def osdIndex (d : OSD) (i : Nat) : SVal := (osdEntryAt d.entries i).value

/-- `func (d *OrderedStringDict) Keys() []string`. -/
def osdKeys (d : OSD) : List String := d.entries.map OsdEntry.key

/-- `func (d *OrderedStringDict) Len() int`. -/
def osdLen (d : OSD) : Nat := d.entries.length

/-- A bucket's slots in every reachable state: in-use entries form a prefix,
nil pointers a suffix (appends fill the first nil). -/
def BucketShaped : OsdBucket → Prop
  | [] => True
  | some _ :: rest => BucketShaped rest
  | none :: rest => ∀ s ∈ rest, s = none

/-- A chain's buckets in every reachable state: a fresh bucket is only added
when every existing bucket is full, and entries are never removed, so every
bucket but the last is full. -/
def ChainShaped : OsdChain → Prop
  | [] => True
  | [b] => BucketShaped b
  | b :: rest => (∀ s ∈ b, s.isSome) ∧ ChainShaped rest

/-- The representation invariant of `OrderedStringDict`. -/
structure OSDInv (d : OSD) : Prop where
  keysNodup : (d.entries.map OsdEntry.key).Nodup
  hashOk : ∀ e ∈ d.entries, e.hash = hashString e.key
  shaped : ∀ ci, ChainShaped (d.table.getD ci [])
  valid : ∀ ci bi si i,
    ((d.table.getD ci []).getD bi []).getD si none = some i →
    i < d.entries.length ∧
      ci = chainIdx (osdEntryAt d.entries i).hash d.table.length
  placed : ∀ i, i < d.entries.length →
    ∃ b ∈ d.table.getD
        (chainIdx (osdEntryAt d.entries i).hash d.table.length) [],
      some i ∈ b
  load : d.entries.length ≤ bucketSize ∨
    2 * d.entries.length ≤ 13 * d.table.length + 2
  tnil : d.table = [] → d.entries = []

/-- A stored index, in chain-membership form. -/
def StoredIn (ch : OsdChain) (i : Nat) : Prop := ∃ b ∈ ch, some i ∈ b

theorem length_modIdx {α : Type} (f : α → α) (i : Nat) (l : List α) :
    (modIdx f i l).length = l.length := by
  induction l generalizing i with
  | nil => cases i <;> rfl
  | cons x l ih => cases i with
    | zero => rfl
    | succ j => simpa [modIdx] using ih j

theorem getD_modIdx_self {α : Type} (f : α → α) (i : Nat) (l : List α) (d : α)
    (h : i < l.length) : (modIdx f i l).getD i d = f (l.getD i d) := by
  induction l generalizing i with
  | nil => cases h
  | cons x l ih => cases i with
    | zero => rfl
    | succ j => simpa [modIdx] using ih j (by simpa using h)

theorem getD_modIdx_ne {α : Type} (f : α → α) (i j : Nat) (l : List α) (d : α)
    (h : i ≠ j) : (modIdx f i l).getD j d = l.getD j d := by
  induction l generalizing i j with
  | nil => cases i <;> rfl
  | cons x l ih => cases i with
    | zero => cases j with
      | zero => exact absurd rfl h
      | succ j => rfl
    | succ i => cases j with
      | zero => rfl
      | succ j => simpa [modIdx] using ih i j (by omega)

theorem getD_modIdx_oob {α : Type} (f : α → α) (i : Nat) (l : List α) (d : α)
    (h : l.length ≤ i) : (modIdx f i l).getD i d = d := by
  rw [List.getD_eq_default]
  rwa [length_modIdx]

section SlotLemmas

variable {K V : Type}


theorem validAddr_of_isSome {t : List (Chain K V)} {a : Addr}
    (h : (getSlot t a).isSome) : validAddr t a := by
  by_contra hv
  unfold validAddr at hv
  push_neg at hv
  rcases Nat.lt_or_ge a.1 t.length with h1 | h1
  · rcases Nat.lt_or_ge a.2.1 (t.getD a.1 []).length with h2 | h2
    · have h3 := hv h1 h2
      rw [getSlot, List.getD_eq_default _ _ h3] at h
      simp at h
    · rw [getSlot, List.getD_eq_default _ _ h2] at h
      simp at h
  · rw [getSlot, List.getD_eq_default _ _ h1] at h
    simp at h

theorem getD_modIdx {α : Type} (f : α → α) (i j : Nat) (l : List α) (d : α) :
    (modIdx f i l).getD j d =
      if i = j ∧ j < l.length then f (l.getD j d) else l.getD j d := by
  by_cases hij : i = j
  · subst hij
    by_cases hl : i < l.length
    · rw [getD_modIdx_self f i l d hl]
      simp [hl]
    · rw [List.getD_eq_default _ _ (by rw [length_modIdx]; omega),
        List.getD_eq_default _ _ (by omega)]
      simp [hl]
  · rw [getD_modIdx_ne f i j l d hij]
    simp [hij]

theorem length_setSlot (t : List (Chain K V)) (a : Addr) (s : Slot K V) :
    (setSlot t a s).length = t.length := by
  simp [setSlot, length_modIdx]

theorem getSlot_setSlot_self {t : List (Chain K V)} {a : Addr} (s : Slot K V)
    (h : validAddr t a) : getSlot (setSlot t a s) a = s := by
  obtain ⟨h1, h2, h3⟩ := h
  simp only [getSlot, setSlot]
  rw [getD_modIdx_self _ _ _ _ h1]
  simp only [setInChain]
  rw [getD_modIdx_self _ _ _ _ h2]
  simp only [setInBucket]
  rw [getD_modIdx_self _ _ _ _ h3]

theorem getSlot_setSlot_ne {t : List (Chain K V)} {a b : Addr} (s : Slot K V)
    (h : a ≠ b) : getSlot (setSlot t a s) b = getSlot t b := by
  obtain ⟨a1, a2, a3⟩ := a
  obtain ⟨b1, b2, b3⟩ := b
  simp only [getSlot, setSlot]
  rw [getD_modIdx]
  split_ifs with h1
  · simp only [setInChain]
    rw [getD_modIdx]
    split_ifs with h2
    · simp only [setInBucket]
      rw [getD_modIdx]
      split_ifs with h3
      · exact absurd (by rw [h1.1, h2.1, h3.1]) h
      · rfl
    · rfl
  · rfl

/-- Writing `some e` then reading anywhere: the written slot or the old one. -/
theorem getSlot_setSlot {t : List (Chain K V)} {a : Addr} (s : Slot K V) (b : Addr)
    (h : validAddr t a) :
    getSlot (setSlot t a s) b = if a = b then s else getSlot t b := by
  by_cases hab : a = b
  · subst hab
    simp [getSlot_setSlot_self s h]
  · simp [hab, getSlot_setSlot_ne s hab]

theorem mem_bucketSlots_iff (ci bi si : Nat) (b : Bucket K V) (a : Addr)
    (s : Slot K V) :
    (a, s) ∈ bucketSlots ci bi si b ↔
      ∃ j, j < b.length ∧ a = (ci, bi, si + j) ∧ s = b.getD j none := by
  induction b generalizing si with
  | nil => simp [bucketSlots]
  | cons x rest ih =>
    constructor
    · intro hm
      rcases List.mem_cons.mp hm with h0 | h1
      · refine ⟨0, by simp, ?_, ?_⟩
        · have := congrArg Prod.fst h0
          simpa using this
        · have := congrArg Prod.snd h0
          simpa using this
      · obtain ⟨j, hj, ha, hs⟩ := (ih (si + 1)).mp h1
        refine ⟨j + 1, by simpa using Nat.succ_lt_succ hj, ?_, by simpa using hs⟩
        rw [ha]
        have harith : si + 1 + j = si + (j + 1) := by omega
        rw [harith]
    · rintro ⟨j, hj, ha, hs⟩
      cases j with
      | zero =>
        subst hs
        apply List.mem_cons.mpr
        left
        rw [ha]
        simp
      | succ j =>
        apply List.mem_cons.mpr
        right
        apply (ih (si + 1)).mpr
        refine ⟨j, by simpa using hj, ?_, by simpa using hs⟩
        rw [ha]
        have harith : si + (j + 1) = si + 1 + j := by omega
        rw [harith]

theorem mem_chainSlots_iff (ci bi : Nat) (ch : Chain K V) (a : Addr)
    (s : Slot K V) :
    (a, s) ∈ chainSlots ci bi ch ↔
      ∃ bj sj, bj < ch.length ∧ a = (ci, bi + bj, sj) ∧
        sj < (ch.getD bj []).length ∧ s = (ch.getD bj []).getD sj none := by
  induction ch generalizing bi with
  | nil => simp [chainSlots]
  | cons b rest ih =>
    simp only [chainSlots, List.mem_append, mem_bucketSlots_iff, ih (bi + 1)]
    constructor
    · rintro (⟨j, hj, ha, hs⟩ | ⟨bj, sj, hbj, ha, hsj, hs⟩)
      · refine ⟨0, j, by simp, ?_, by simpa using hj, by simpa using hs⟩
        rw [ha]
        simp
      · refine ⟨bj + 1, sj, by simpa using hbj, ?_, by simpa using hsj, by simpa using hs⟩
        rw [ha]
        have harith : bi + 1 + bj = bi + (bj + 1) := by omega
        rw [harith]
    · rintro ⟨bj, sj, hbj, ha, hsj, hs⟩
      cases bj with
      | zero =>
        refine Or.inl ⟨sj, by simpa using hsj, ?_, by simpa using hs⟩
        rw [ha]
        simp
      | succ bj =>
        refine Or.inr ⟨bj, sj, by simpa using hbj, ?_, by simpa using hsj, by simpa using hs⟩
        rw [ha]
        have harith : bi + (bj + 1) = bi + 1 + bj := by omega
        rw [harith]

/-- Every addressed slot the chain scan visits is a real slot of the table. -/
theorem getSlot_of_mem_chainSlots {t : List (Chain K V)} {ci : Nat} {a : Addr}
    {s : Slot K V} (h : (a, s) ∈ chainSlots ci 0 (t.getD ci [])) :
    getSlot t a = s ∧ a.1 = ci := by
  rw [mem_chainSlots_iff] at h
  obtain ⟨bj, sj, hbj, ha, hsj, hs⟩ := h
  subst ha
  refine ⟨?_, rfl⟩
  simp only [getSlot, Nat.zero_add]
  exact hs.symm

/-- Every real slot of the chain of cell `ci` is visited by the scan. -/
theorem mem_chainSlots_of_getSlot {t : List (Chain K V)} {a : Addr}
    (hv : validAddr t a) :
    (a, getSlot t a) ∈ chainSlots a.1 0 (t.getD a.1 []) := by
  rw [mem_chainSlots_iff]
  exact ⟨a.2.1, a.2.2, hv.2.1, by rw [Nat.zero_add], hv.2.2, rfl⟩

theorem chainIdx_lt {h n : Nat} (hn : 0 < n) : chainIdx h n < n := by
  have := Nat.and_le_right (n := h) (m := n - 1)
  unfold chainIdx
  omega

end SlotLemmas

/-! ## Scan lemmas -/

section ScanLemmas

variable {K V : Type} (eqFn : K → K → Except Err Bool) (h : Nat) (k : K)

/-- If every in-use equal-hash slot compares `Equal`-false, the scan reports
no match. -/
theorem scan_notFound_of_noMatch (S : List (Addr × Slot K V)) (cand : Option Addr)
    (hS : ∀ a e, ((a : Addr), (some e : Slot K V)) ∈ S → e.hash = h →
      eqFn k e.key = .ok false) :
    ∃ c, scanSlots eqFn h k S cand = .ok (.notFound c) := by
  induction S generalizing cand with
  | nil => exact ⟨cand, rfl⟩
  | cons p rest ih =>
    obtain ⟨a, s⟩ := p
    cases s with
    | none => exact ih (some a) (fun a' e' hm he => hS a' e' (List.mem_cons_of_mem _ hm) he)
    | some e =>
      by_cases hh : e.hash = h
      · have heq := hS a e (List.mem_cons_self _ _) hh
        simp only [scanSlots, hh, ne_eq, not_true_eq_false, if_false, heq]
        exact ih cand (fun a' e' hm he => hS a' e' (List.mem_cons_of_mem _ hm) he)
      · simp only [scanSlots, ne_eq, hh, not_false_eq_true, if_true]
        exact ih cand (fun a' e' hm he => hS a' e' (List.mem_cons_of_mem _ hm) he)

/-- A found result names an in-use slot of the scanned list with equal hash
and `Equal`-true key. -/
theorem scan_found_mem {S : List (Addr × Slot K V)} {cand : Option Addr}
    {a : Addr} {e : HEntry K V}
    (hs : scanSlots eqFn h k S cand = .ok (.found a e)) :
    (a, (some e : Slot K V)) ∈ S ∧ e.hash = h ∧ eqFn k e.key = .ok true := by
  induction S generalizing cand with
  | nil => simp [scanSlots] at hs
  | cons p rest ih =>
    obtain ⟨b, s⟩ := p
    cases s with
    | none =>
      have := ih hs
      exact ⟨List.mem_cons_of_mem _ this.1, this.2⟩
    | some e' =>
      by_cases hh : e'.hash = h
      · simp only [scanSlots, hh, ne_eq, not_true_eq_false, if_false] at hs
        match heq : eqFn k e'.key with
        | .error err => rw [heq] at hs; exact absurd hs (by simp)
        | .ok true =>
          rw [heq] at hs
          simp only [Except.ok.injEq, ScanRes.found.injEq] at hs
          obtain ⟨ha, he⟩ := hs
          subst ha; subst he
          exact ⟨List.mem_cons_self _ _, hh, heq⟩
        | .ok false =>
          rw [heq] at hs
          have := ih hs
          exact ⟨List.mem_cons_of_mem _ this.1, this.2⟩
      · simp only [scanSlots, ne_eq, hh, not_false_eq_true, if_true] at hs
        have := ih hs
        exact ⟨List.mem_cons_of_mem _ this.1, this.2⟩

/-- A no-match result means every in-use equal-hash slot compared
`Equal`-false. -/
theorem scan_noMatch_of_notFound {S : List (Addr × Slot K V)} {cand : Option Addr}
    {c : Option Addr}
    (hs : scanSlots eqFn h k S cand = .ok (.notFound c)) :
    ∀ a e, ((a : Addr), (some e : Slot K V)) ∈ S → e.hash = h →
      eqFn k e.key = .ok false := by
  induction S generalizing cand with
  | nil => intro a e hm; simp at hm
  | cons p rest ih =>
    obtain ⟨b, s⟩ := p
    intro a e hm hh
    rcases List.mem_cons.mp hm with hm0 | hm1
    · have hb : a = b := congrArg Prod.fst hm0
      have hse : (some e : Slot K V) = s := congrArg Prod.snd hm0
      subst hb
      cases s with
      | none => exact absurd hse (by simp)
      | some e' =>
        have he' : e' = e := by simpa using hse.symm
        rw [he'] at hs
        simp only [scanSlots, hh, ne_eq, not_true_eq_false, if_false] at hs
        match heq : eqFn k e.key with
        | .error err => rw [heq] at hs; exact absurd hs (by simp)
        | .ok true => rw [heq] at hs; exact absurd hs (by simp)
        | .ok false => rfl
    · cases s with
      | none => exact ih hs a e hm1 hh
      | some e' =>
        by_cases hh' : e'.hash = h
        · simp only [scanSlots, hh', ne_eq, not_true_eq_false, if_false] at hs
          match heq : eqFn k e'.key with
          | .error err => rw [heq] at hs; exact absurd hs (by simp)
          | .ok true => rw [heq] at hs; exact absurd hs (by simp)
          | .ok false => rw [heq] at hs; exact ih hs a e hm1 hh
        · simp only [scanSlots, ne_eq, hh', not_false_eq_true, if_true] at hs
          exact ih hs a e hm1 hh

/-- The no-match insertion candidate is an empty slot of the scanned list
(or the incoming candidate). -/
theorem scan_cand_mem {S : List (Addr × Slot K V)} {cand : Option Addr} {a : Addr}
    (hs : scanSlots eqFn h k S cand = .ok (.notFound (some a))) :
    (a, (none : Slot K V)) ∈ S ∨ cand = some a := by
  induction S generalizing cand with
  | nil =>
    simp only [scanSlots, Except.ok.injEq, ScanRes.notFound.injEq] at hs
    exact Or.inr hs
  | cons p rest ih =>
    obtain ⟨b, s⟩ := p
    cases s with
    | none =>
      rcases ih hs with hm | hc
      · exact Or.inl (List.mem_cons_of_mem _ hm)
      · have : b = a := by simpa using hc
        subst this
        exact Or.inl (List.mem_cons_self _ _)
    | some e =>
      by_cases hh : e.hash = h
      · simp only [scanSlots, hh, ne_eq, not_true_eq_false, if_false] at hs
        match heq : eqFn k e.key with
        | .error err => rw [heq] at hs; exact absurd hs (by simp)
        | .ok true => rw [heq] at hs; exact absurd hs (by simp)
        | .ok false =>
          rw [heq] at hs
          rcases ih hs with hm | hc
          · exact Or.inl (List.mem_cons_of_mem _ hm)
          · exact Or.inr hc
      · simp only [scanSlots, ne_eq, hh, not_false_eq_true, if_true] at hs
        rcases ih hs with hm | hc
        · exact Or.inl (List.mem_cons_of_mem _ hm)
        · exact Or.inr hc

/-- A scan error is an `Equal` error on some in-use equal-hash slot. -/
theorem scan_error_mem {S : List (Addr × Slot K V)} {cand : Option Addr} {err : Err}
    (hs : scanSlots eqFn h k S cand = .error err) :
    ∃ a e, ((a : Addr), (some e : Slot K V)) ∈ S ∧ e.hash = h ∧
      eqFn k e.key = .error err := by
  induction S generalizing cand with
  | nil => simp [scanSlots] at hs
  | cons p rest ih =>
    obtain ⟨b, s⟩ := p
    cases s with
    | none =>
      obtain ⟨a, e, hm, he, heq⟩ := ih hs
      exact ⟨a, e, List.mem_cons_of_mem _ hm, he, heq⟩
    | some e' =>
      by_cases hh : e'.hash = h
      · simp only [scanSlots, hh, ne_eq, not_true_eq_false, if_false] at hs
        match heq : eqFn k e'.key with
        | .error err' =>
          rw [heq] at hs
          have : err' = err := by simpa using hs
          subst this
          exact ⟨b, e', List.mem_cons_self _ _, hh, heq⟩
        | .ok true => rw [heq] at hs; exact absurd hs (by simp)
        | .ok false =>
          rw [heq] at hs
          obtain ⟨a, e, hm, he, heq'⟩ := ih hs
          exact ⟨a, e, List.mem_cons_of_mem _ hm, he, heq'⟩
      · simp only [scanSlots, ne_eq, hh, not_false_eq_true, if_true] at hs
        obtain ⟨a, e, hm, he, heq⟩ := ih hs
        exact ⟨a, e, List.mem_cons_of_mem _ hm, he, heq⟩

/-- The scan finds the unique in-use slot whose key compares `Equal`-true
when every other in-use equal-hash slot compares `Equal`-false. -/
theorem scan_found_of_unique {S : List (Addr × Slot K V)} {a : Addr}
    {e : HEntry K V}
    (hmem : (a, (some e : Slot K V)) ∈ S) (hh : e.hash = h)
    (heq : eqFn k e.key = .ok true)
    (hrest : ∀ b e', ((b : Addr), (some e' : Slot K V)) ∈ S → e'.hash = h →
      (b, e') ≠ (a, e) → eqFn k e'.key = .ok false) :
    ∀ cand, scanSlots eqFn h k S cand = .ok (.found a e) := by
  induction S with
  | nil => simp at hmem
  | cons p rest ih =>
    intro cand
    obtain ⟨b, s⟩ := p
    rcases List.mem_cons.mp hmem with hm0 | hm1
    · have hb1 : a = b := congrArg Prod.fst hm0
      have hb2 : (some e : Slot K V) = s := congrArg Prod.snd hm0
      subst hb1
      subst hb2
      simp [scanSlots, hh, heq]
    · cases s with
      | none =>
        exact ih hm1 (fun b' e' hm' hh' hne => hrest b' e' (List.mem_cons_of_mem _ hm') hh' hne) _
      | some e' =>
        by_cases hh' : e'.hash = h
        · by_cases hpe : ((b, e') : Addr × HEntry K V) = (a, e)
          · have hb1 : b = a := congrArg Prod.fst hpe
            have hb2 : e' = e := congrArg Prod.snd hpe
            subst hb1; subst hb2
            simp [scanSlots, hh, heq]
          · have hf := hrest b e' (List.mem_cons_self _ _) hh' hpe
            simp only [scanSlots, hh', ne_eq, not_true_eq_false, if_false, hf]
            exact ih hm1 (fun b' e'' hm' hhh hne => hrest b' e'' (List.mem_cons_of_mem _ hm') hhh hne) _
        · simp only [scanSlots, ne_eq, hh', not_false_eq_true, if_true]
          exact ih hm1 (fun b' e'' hm' hhh hne => hrest b' e'' (List.mem_cons_of_mem _ hm') hhh hne) _

end ScanLemmas

/-! ## The representation invariant -/

section InvDef

variable {K V : Type}


theorem getD_replicate {α : Type} (x d : α) (n i : Nat) :
    (List.replicate n x).getD i d = if i < n then x else d := by
  induction n generalizing i with
  | zero => simp
  | succ n ih =>
    cases i with
    | zero => simp [List.replicate]
    | succ j => simpa [List.replicate, Nat.succ_lt_succ_iff] using ih j

theorem getSlot_nil (a : Addr) : getSlot ([] : List (Chain K V)) a = none := by
  simp [getSlot]

theorem getSlot_replicate_empty (m : Nat) (a : Addr) :
    getSlot (List.replicate m [emptyBucket K V] : List (Chain K V)) a = none := by
  unfold getSlot
  rw [getD_replicate]
  split
  · cases a.2.1 with
    | zero => simp [emptyBucket, getD_replicate]
    | succ j => simp
  · simp

theorem initNBAux_pos (size f nb : Nat) (h : 0 < nb) : 0 < initNBAux size f nb := by
  induction f generalizing nb with
  | zero => simpa [initNBAux]
  | succ f ih =>
    unfold initNBAux
    split
    · exact ih _ (by omega)
    · exact h

theorem initNB_pos (size : Nat) : 0 < initNB size := initNBAux_pos size (size + 1) 1 (by omega)

theorem initTable_eq_replicate (size : Nat) :
    initTable K V size = List.replicate (initNB size) [emptyBucket K V] := by
  unfold initTable
  simp only []
  split
  · rename_i hlt
    have := initNB_pos size
    have h1 : initNB size = 1 := by omega
    rw [h1]
    rfl
  · rfl

theorem getSlot_initTable (size : Nat) (a : Addr) :
    getSlot (initTable K V size) a = none := by
  rw [initTable_eq_replicate]
  exact getSlot_replicate_empty _ a

/-- Any state whose table slots are all empty and whose order list is empty
is well-formed. -/
theorem Inv.of_all_empty (api : ValueAPI K V) (ht : Hashtable K V)
    (ho : ht.order = []) (hl : ht.len = 0)
    (he : ∀ a : Addr, getSlot ht.table a = none) : Inv api ht := by
  refine ⟨?_, ?_, ?_, ?_, ?_, ?_, ?_, ?_⟩
  · rw [ho, hl]; rfl
  · rw [ho]; exact List.nodup_nil
  · intro a ha; rw [ho] at ha; simp at ha
  · intro a ha; rw [he a] at ha; simp at ha
  · intro a e hget; rw [he a] at hget; simp at hget
  · intro a e hget; rw [he a] at hget; simp at hget
  · rw [ho]; exact List.Pairwise.nil
  · left; rw [hl]; simp [bucketSize]

theorem Inv.mkHT (api : ValueAPI K V) : Inv api (StarlarkGo.mkHT K V) :=
  Inv.of_all_empty api _ rfl rfl (fun a => getSlot_nil a)

/-- Under the invariant, a nil table means an empty order list. -/
theorem Inv.order_nil_of_table_nil {api : ValueAPI K V} {ht : Hashtable K V}
    (inv : Inv api ht) (h : ht.table = []) : ht.order = [] := by
  rcases ho : ht.order with _ | ⟨a, rest⟩
  · rfl
  · have := inv.ordFull a (by rw [ho]; exact List.mem_cons_self _ _)
    rw [h, getSlot_nil] at this
    simp at this

/-- The lazy `init(1)` step of `insert` preserves the invariant and the
observable state. -/
theorem Inv.htInit {api : ValueAPI K V} {ht : Hashtable K V} (inv : Inv api ht)
    (h : ht.table = []) : Inv api (htInit ht 1) ∧ obs (htInit ht 1) = obs ht ∧
      (htInit ht 1).order = [] ∧ (htInit ht 1).len = 0 ∧
      (htInit ht 1).table ≠ [] := by
  have ho := inv.order_nil_of_table_nil h
  have hl : ht.len = 0 := by rw [inv.lenOrd, ho]; rfl
  refine ⟨Inv.of_all_empty api _ ho hl (fun a => getSlot_initTable 1 a), ?_, ho, hl, ?_⟩
  · simp [obs, obsEntries, StarlarkGo.htInit, ho]
  · rw [StarlarkGo.htInit, initTable_eq_replicate]
    simp only [ne_eq]
    intro hcon
    have := initNB_pos 1
    rw [List.replicate_eq_nil_iff] at hcon
    omega

/-- The entry sitting at an address of the order list. -/
theorem Inv.entryAt {api : ValueAPI K V} {ht : Hashtable K V} (inv : Inv api ht)
    {a : Addr} (ha : a ∈ ht.order) : ∃ e, getSlot ht.table a = some e := by
  have := inv.ordFull a ha
  exact Option.isSome_iff_exists.mp this

/-- Occupied slots are in the chain selected by the stored hash, so a
`NoMatch` hypothesis follows from a no-match chain scan. -/
theorem noMatch_of_scan_notFound {api : ValueAPI K V} {ht : Hashtable K V}
    {h : Nat} {k : K} {c : Option Addr} (inv : Inv api ht)
    (hs : scanSlots api.eqFn h k
      (chainSlots (chainIdx h ht.table.length) 0
        (ht.table.getD (chainIdx h ht.table.length) [])) none = .ok (.notFound c)) :
    NoMatch api ht h k := by
  intro a e hget hh
  have hv : validAddr ht.table a := validAddr_of_isSome (by rw [hget]; rfl)
  have hci : a.1 = chainIdx h ht.table.length := by
    have := inv.placed a e hget
    rw [hh] at this
    exact this
  have hmem := mem_chainSlots_of_getSlot hv
  rw [hget, hci] at hmem
  exact scan_noMatch_of_notFound api.eqFn h k hs a e hmem hh

/-- A `NoMatch` key scans to a no-match result on any chain. -/
theorem scan_notFound_of_noMatch_ht {api : ValueAPI K V} {ht : Hashtable K V}
    {h : Nat} {k : K} (ci : Nat) (hnm : NoMatch api ht h k) :
    ∃ c, scanSlots api.eqFn h k (chainSlots ci 0 (ht.table.getD ci [])) none =
      .ok (.notFound c) := by
  apply scan_notFound_of_noMatch
  intro a e hmem hh
  have := getSlot_of_mem_chainSlots hmem
  exact hnm a e this.1 hh

end InvDef

/-! ## Placement lemmas -/

section PlaceLemmas

variable {K V : Type}

theorem placeEntry_order (ht : Hashtable K V) (ci : Nat) (cand : Option Addr)
    (e : HEntry K V) :
    (placeEntry ht ci cand e).order = ht.order ++ [placeAddr ht ci cand] := by
  cases cand <;> rfl

theorem placeEntry_len (ht : Hashtable K V) (ci : Nat) (cand : Option Addr)
    (e : HEntry K V) : (placeEntry ht ci cand e).len = ht.len + 1 := by
  cases cand <;> rfl

theorem placeEntry_frozen (ht : Hashtable K V) (ci : Nat) (cand : Option Addr)
    (e : HEntry K V) : (placeEntry ht ci cand e).frozen = ht.frozen := by
  cases cand <;> rfl

theorem placeEntry_itercount (ht : Hashtable K V) (ci : Nat) (cand : Option Addr)
    (e : HEntry K V) : (placeEntry ht ci cand e).itercount = ht.itercount := by
  cases cand <;> rfl

theorem placeEntry_table_length (ht : Hashtable K V) (ci : Nat) (cand : Option Addr)
    (e : HEntry K V) : (placeEntry ht ci cand e).table.length = ht.table.length := by
  cases cand
  · exact length_modIdx _ _ _
  · exact length_setSlot _ _ _

/-- Reading the table after placement: the new entry at its address,
everything else untouched. -/
theorem getSlot_placeEntry (ht : Hashtable K V) (ci : Nat) (cand : Option Addr)
    (e : HEntry K V) (hci : ci < ht.table.length)
    (hv : ∀ a, cand = some a → validAddr ht.table a ∧ a.1 = ci) (b : Addr) :
    getSlot (placeEntry ht ci cand e).table b =
      if placeAddr ht ci cand = b then some e else getSlot ht.table b := by
  cases cand with
  | some a =>
    obtain ⟨hva, -⟩ := hv a rfl
    exact getSlot_setSlot (some e) b hva
  | none =>
    simp only [placeEntry, placeAddr]
    obtain ⟨b1, b2, b3⟩ := b
    simp only [getSlot, getD_modIdx]
    by_cases h1 : ci = b1
    · subst h1
      simp only [hci, and_true, eq_self_iff_true, if_true, true_and, and_self, appendBucket]
      set ch := ht.table.getD ci [] with hch
      rcases Nat.lt_trichotomy b2 ch.length with hb2 | hb2 | hb2
      · rw [List.getD_append _ _ _ _ hb2]
        have hne : ¬(ci, ch.length, 0) = (ci, b2, b3) := by
          intro hcon
          have := congrArg (fun p => p.2.1) hcon
          simp only at this
          omega
        simp [hne]
      · subst hb2
        rw [List.getD_append_right _ _ _ _ (Nat.le_refl _)]
        simp only [Nat.sub_self]
        cases b3 with
        | zero => simp [newBucket]
        | succ j =>
          have hne : ¬(ci, ch.length, 0) = (ci, ch.length, j + 1) := by
            intro hcon
            have := congrArg (fun p => p.2.2) hcon
            simp at this
          have hget2 : ch.getD ch.length [] = ([] : Bucket K V) :=
            List.getD_eq_default _ _ (Nat.le_refl _)
          simp [hne, hget2, newBucket, getD_replicate]
      · have hne : ¬(ci, ch.length, 0) = (ci, b2, b3) := by
          intro hcon
          have := congrArg (fun p => p.2.1) hcon
          simp only at this
          omega
        have hget1 : (ch ++ [newBucket e]).getD b2 [] = ([] : Bucket K V) := by
          apply List.getD_eq_default
          simp only [List.length_append, List.length_singleton]
          omega
        have hget2 : ch.getD b2 [] = ([] : Bucket K V) := by
          apply List.getD_eq_default
          omega
        simp only [hne, if_false]
        rw [hget1, hget2]
    · have hne : ¬(ci, (ht.table.getD ci []).length, 0) = (b1, b2, b3) := by
        intro hcon
        exact h1 (congrArg (fun p => p.1) hcon)
      simp [h1, hne]

end PlaceLemmas

/-! ## Insert characterization -/

section InsertLemmas

variable {K V : Type}

theorem overloaded_iff (a b : Nat) :
    overloaded a b = true ↔ bucketSize ≤ a ∧ 13 * b ≤ 2 * a := by
  simp [overloaded]

theorem overloaded_eq_false {a b : Nat} :
    overloaded a b = false ↔ a < bucketSize ∨ 2 * a < 13 * b := by
  rw [Bool.eq_false_iff, ne_eq, overloaded_iff]
  omega

/-- The append case of one `insert` retry iteration: guards already passed,
the key hashes to `h`, no in-use entry matches it, and the table is not
overloaded.  The entry is placed, linked at the tail of the insertion-order
list, and the invariant is preserved. -/
theorem insertLoop_append {api : ValueAPI K V} {ht : Hashtable K V} {h : Nat}
    {k : K} {v : V} (f : Nat) (inv : Inv api ht) (htne : ht.table ≠ [])
    (hhash : hashKey api k = .ok h) (hnm : NoMatch api ht h k)
    (hov : overloaded ht.len ht.table.length = false) :
    ∃ ht', insertLoop api (f + 1) ht h k v = (ht', none) ∧ Inv api ht' ∧
      obs ht' = obs ht ++ [(k, v)] ∧ ht'.len = ht.len + 1 ∧
      ht'.table.length = ht.table.length ∧ ht'.frozen = ht.frozen ∧
      ht'.itercount = ht.itercount := by
  have hn : 0 < ht.table.length := List.length_pos.mpr htne
  have hci : chainIdx h ht.table.length < ht.table.length := chainIdx_lt hn
  obtain ⟨c, hscan⟩ := scan_notFound_of_noMatch_ht (chainIdx h ht.table.length) hnm
  have hcand : ∀ a, c = some a →
      getSlot ht.table a = none ∧ validAddr ht.table a ∧
        a.1 = chainIdx h ht.table.length := by
    intro a hc
    subst hc
    rcases scan_cand_mem api.eqFn h k hscan with hmem | hcon
    · have hga := getSlot_of_mem_chainSlots hmem
      refine ⟨hga.1, ?_, hga.2⟩
      rw [mem_chainSlots_iff] at hmem
      obtain ⟨bj, sj, hbj, ha, hsj, -⟩ := hmem
      subst ha
      refine ⟨by simpa using hci, by simpa using hbj, by simpa using hsj⟩
    · simp at hcon
  have hAnew1 : (placeAddr ht (chainIdx h ht.table.length) c).1 =
      chainIdx h ht.table.length := by
    cases c with
    | some a => exact (hcand a rfl).2.2
    | none => rfl
  have hgetP := getSlot_placeEntry ht (chainIdx h ht.table.length) c ⟨h, k, v⟩ hci
    (fun a ha => ⟨(hcand a ha).2.1, (hcand a ha).2.2⟩)
  have hAnewEmpty : getSlot ht.table (placeAddr ht (chainIdx h ht.table.length) c) = none := by
    cases c with
    | some a => exact (hcand a rfl).1
    | none =>
      show getSlot ht.table (chainIdx h ht.table.length,
        (ht.table.getD (chainIdx h ht.table.length) []).length, 0) = none
      unfold getSlot
      rw [List.getD_eq_default _ _ (Nat.le_refl _)]
      rfl
  have hAnewNotMem : placeAddr ht (chainIdx h ht.table.length) c ∉ ht.order := by
    intro hmem
    have := inv.ordFull _ hmem
    rw [hAnewEmpty] at this
    simp at this
  have hres : insertLoop api (f + 1) ht h k v =
      (placeEntry ht (chainIdx h ht.table.length) c ⟨h, k, v⟩, none) := by
    rw [insertLoop]
    simp only [hscan, hov]
    rfl
  have hOldSlot : ∀ a ∈ ht.order,
      getSlot (placeEntry ht (chainIdx h ht.table.length) c ⟨h, k, v⟩).table a =
        getSlot ht.table a := by
    intro a ha
    rw [hgetP a, if_neg]
    intro hcon
    exact hAnewNotMem (hcon ▸ ha)
  have hNewSlot : getSlot (placeEntry ht (chainIdx h ht.table.length) c ⟨h, k, v⟩).table
      (placeAddr ht (chainIdx h ht.table.length) c) = some ⟨h, k, v⟩ := by
    rw [hgetP _, if_pos rfl]
  refine ⟨placeEntry ht (chainIdx h ht.table.length) c ⟨h, k, v⟩, hres, ?_, ?_,
    placeEntry_len ht _ c _, placeEntry_table_length ht _ c _,
    placeEntry_frozen ht _ c _, placeEntry_itercount ht _ c _⟩
  · -- the invariant after placement
    refine ⟨?_, ?_, ?_, ?_, ?_, ?_, ?_, ?_⟩
    · rw [placeEntry_len, placeEntry_order, List.length_append, inv.lenOrd]
      rfl
    · rw [placeEntry_order]
      refine List.Nodup.append inv.ordNodup (List.nodup_singleton _) ?_
      intro x hx hsing
      rw [List.mem_singleton] at hsing
      exact hAnewNotMem (hsing ▸ hx)
    · rw [placeEntry_order]
      intro a ha
      rcases List.mem_append.mp ha with ha1 | ha2
      · rw [hOldSlot a ha1]
        exact inv.ordFull a ha1
      · rw [List.mem_singleton] at ha2
        subst ha2
        rw [hNewSlot]
        rfl
    · intro a ha
      rw [placeEntry_order, List.mem_append, List.mem_singleton]
      rw [hgetP a] at ha
      by_cases hcon : placeAddr ht (chainIdx h ht.table.length) c = a
      · right; exact hcon.symm
      · left
        rw [if_neg hcon] at ha
        exact inv.fullOrd a ha
    · intro a e hget
      rw [placeEntry_table_length]
      rw [hgetP a] at hget
      by_cases hcon : placeAddr ht (chainIdx h ht.table.length) c = a
      · rw [if_pos hcon] at hget
        have he : (⟨h, k, v⟩ : HEntry K V) = e := by
          simpa using hget
        rw [← he, ← hcon, hAnew1]
      · rw [if_neg hcon] at hget
        exact inv.placed a e hget
    · intro a e hget
      rw [hgetP a] at hget
      by_cases hcon : placeAddr ht (chainIdx h ht.table.length) c = a
      · rw [if_pos hcon] at hget
        have he : (⟨h, k, v⟩ : HEntry K V) = e := by
          simpa using hget
        rw [← he]
        exact hhash
      · rw [if_neg hcon] at hget
        exact inv.hashOk a e hget
    · rw [placeEntry_order]
      rw [List.pairwise_append]
      refine ⟨?_, List.pairwise_singleton _ _, ?_⟩
      · refine List.Pairwise.imp_of_mem ?_ inv.eqFalse
        intro a b ha hb hr ea eb hga hgb hh
        rw [hOldSlot a ha] at hga
        rw [hOldSlot b hb] at hgb
        exact hr ea eb hga hgb hh
      · intro a ha b hb
        rw [List.mem_singleton] at hb
        subst hb
        intro ea eb hga hgb hh
        rw [hOldSlot a ha] at hga
        rw [hNewSlot] at hgb
        have he : (⟨h, k, v⟩ : HEntry K V) = eb := by simpa using hgb
        rw [← he] at hh ⊢
        exact hnm a ea hga hh.symm
    · rw [placeEntry_len, placeEntry_table_length]
      have hov' := overloaded_eq_false.mp hov
      have hbs : bucketSize = 8 := rfl
      rw [hbs] at hov' ⊢
      omega
  · -- the observable state: the pair is appended
    simp only [obs, obsEntries, placeEntry_order]
    rw [List.filterMap_append]
    rw [List.filterMap_congr hOldSlot]
    simp only [List.filterMap, hNewSlot]
    rw [List.map_append]
    rfl

/-- Entries of the observable list come from occupied slots. -/
theorem obs_mem_slot {api : ValueAPI K V} {ht : Hashtable K V} {p : K × V}
    (_ : Inv api ht) (hp : p ∈ obs ht) :
    ∃ a e, a ∈ ht.order ∧ getSlot ht.table a = some e ∧ e.key = p.1 ∧
      e.value = p.2 := by
  simp only [obs, List.mem_map] at hp
  obtain ⟨e, he, hpe⟩ := hp
  simp only [obsEntries, List.mem_filterMap] at he
  obtain ⟨a, ha, hget⟩ := he
  exact ⟨a, e, ha, hget, by rw [← hpe], by rw [← hpe]⟩

/-- Every occupied slot shows up in the observable list. -/
theorem slot_mem_obs {api : ValueAPI K V} {ht : Hashtable K V} {a : Addr}
    {e : HEntry K V} (inv : Inv api ht) (hget : getSlot ht.table a = some e) :
    (e.key, e.value) ∈ obs ht := by
  have ha : a ∈ ht.order := inv.fullOrd a (by rw [hget]; rfl)
  have he : e ∈ obsEntries ht := by
    simp only [obsEntries, List.mem_filterMap]
    exact ⟨a, ha, hget⟩
  simp only [obs, List.mem_map]
  exact ⟨e, he, rfl⟩

theorem length_filterMap_of_isSome {α β : Type} (f : α → Option β) (l : List α)
    (h : ∀ a ∈ l, (f a).isSome) : (l.filterMap f).length = l.length := by
  induction l with
  | nil => rfl
  | cons x xs ih =>
    have hx := h x (List.mem_cons_self _ _)
    match hfx : f x with
    | none => rw [hfx] at hx; simp at hx
    | some b =>
      simp only [List.filterMap_cons, hfx, List.length_cons]
      rw [ih (fun a ha => h a (List.mem_cons_of_mem _ ha))]

theorem obs_length {api : ValueAPI K V} {ht : Hashtable K V} (inv : Inv api ht) :
    (obs ht).length = ht.len := by
  simp only [obs, List.length_map, obsEntries]
  rw [length_filterMap_of_isSome _ _ inv.ordFull, inv.lenOrd]


theorem obs_pairwise {api : ValueAPI K V} {ht : Hashtable K V} (inv : Inv api ht) :
    (obs ht).Pairwise (PWR api) := by
  simp only [obs]
  rw [List.pairwise_map]
  simp only [obsEntries]
  rw [List.pairwise_filterMap]
  refine List.Pairwise.imp_of_mem ?_ inv.eqFalse
  intro a b _ _ hr ea hea eb heb
  simp only [Option.mem_def] at hea heb
  intro hp hq hhp hhq hqp
  have h1 : hp = ea.hash := by
    have := inv.hashOk a ea hea
    rw [hhp] at this
    exact (Except.ok.injEq _ _).mp this
  have h2 : hq = eb.hash := by
    have := inv.hashOk b eb heb
    rw [hhq] at this
    exact (Except.ok.injEq _ _).mp this
  exact hr ea eb hea heb (by omega)

/-- Absence of a key transfers along equality of observable lists. -/
theorem noMatch_transport {api : ValueAPI K V} {ht₁ ht₂ : Hashtable K V}
    {h : Nat} {k : K} (inv₁ : Inv api ht₁) (inv₂ : Inv api ht₂)
    (hobs : obs ht₂ = obs ht₁) (hnm : NoMatch api ht₁ h k) :
    NoMatch api ht₂ h k := by
  intro a e hget hh
  have hp := slot_mem_obs inv₂ hget
  rw [hobs] at hp
  obtain ⟨a', e', ha', hget', hkey, -⟩ := obs_mem_slot inv₁ hp
  have hhash : hashKey api e.key = .ok e.hash := inv₂.hashOk a e hget
  have hhash' : hashKey api e'.key = .ok e'.hash := inv₁.hashOk a' e' hget'
  rw [hkey] at hhash'
  have hsame : e'.hash = e.hash := by
    rw [hhash] at hhash'
    exact ((Except.ok.injEq _ _).mp hhash').symm
  have := hnm a' e' hget' (by omega)
  rw [hkey] at this
  exact this

/-- The in-place overwrite case of `insert`: the scan found an entry with
equal hash and `Equal`-equal key, so only that entry's value changes; length
and insertion order are untouched. -/
theorem insertLoop_found {api : ValueAPI K V} {ht : Hashtable K V} {h : Nat}
    {k : K} {v : V} (f : Nat) (inv : Inv api ht) {a : Addr} {e : HEntry K V}
    (hscan : scanSlots api.eqFn h k
      (chainSlots (chainIdx h ht.table.length) 0
        (ht.table.getD (chainIdx h ht.table.length) [])) none = .ok (.found a e)) :
    ∃ ht' A B, insertLoop api (f + 1) ht h k v = (ht', none) ∧ Inv api ht' ∧
      obs ht = A ++ (e.key, e.value) :: B ∧ obs ht' = A ++ (e.key, v) :: B ∧
      ht'.len = ht.len ∧ ht'.table.length = ht.table.length ∧
      ht'.frozen = ht.frozen ∧ ht'.itercount = ht.itercount ∧
      e.hash = h ∧ api.eqFn k e.key = .ok true := by
  obtain ⟨hmem, hh, heqk⟩ := scan_found_mem api.eqFn h k hscan
  obtain ⟨hget, -⟩ := getSlot_of_mem_chainSlots hmem
  have hv : validAddr ht.table a := validAddr_of_isSome (by rw [hget]; rfl)
  have ha : a ∈ ht.order := inv.fullOrd a (by rw [hget]; rfl)
  obtain ⟨l1, l2, hsplit⟩ := List.append_of_mem ha
  have hnodup := inv.ordNodup
  rw [hsplit, List.nodup_append] at hnodup
  have hal1 : a ∉ l1 := fun hx => hnodup.2.2 hx (List.mem_cons_self _ _)
  have hal2 : a ∉ l2 := by
    have := hnodup.2.1
    rw [List.nodup_cons] at this
    exact this.1
  set e' : HEntry K V := ⟨e.hash, e.key, v⟩ with he'
  set t' := setSlot ht.table a (some e') with ht'def
  have hget' : ∀ b, getSlot t' b = if a = b then some e' else getSlot ht.table b :=
    fun b => getSlot_setSlot (some e') b hv
  have hres : insertLoop api (f + 1) ht h k v =
      ({ ht with table := t' }, none) := by
    rw [insertLoop]
    simp only [hscan]
  have hOld : ∀ b, b ≠ a → getSlot t' b = getSlot ht.table b := by
    intro b hb
    rw [hget' b, if_neg (fun hc => hb hc.symm)]
  refine ⟨{ ht with table := t' },
    (l1.filterMap (fun b => getSlot ht.table b)).map (fun x => (x.key, x.value)),
    (l2.filterMap (fun b => getSlot ht.table b)).map (fun x => (x.key, x.value)),
    hres, ?_, ?_, ?_, rfl, length_setSlot _ _ _, rfl, rfl, hh, heqk⟩
  · -- invariant preserved by the value overwrite
    refine ⟨inv.lenOrd, inv.ordNodup, ?_, ?_, ?_, ?_, ?_, ?_⟩
    · intro b hb
      rw [hget' b]
      by_cases hab : a = b
      · simp [hab]
      · rw [if_neg hab]
        exact inv.ordFull b hb
    · intro b hb
      rw [hget' b] at hb
      by_cases hab : a = b
      · rw [← hab]
        exact ha
      · rw [if_neg hab] at hb
        exact inv.fullOrd b hb
    · intro b eb hgb
      show b.1 = chainIdx eb.hash t'.length
      rw [show t'.length = ht.table.length from length_setSlot _ _ _]
      rw [hget' b] at hgb
      by_cases hab : a = b
      · rw [if_pos hab] at hgb
        have : e' = eb := by simpa using hgb
        rw [← this, he']
        simp only
        rw [← hab]
        have := inv.placed a e hget
        exact this
      · rw [if_neg hab] at hgb
        exact inv.placed b eb hgb
    · intro b eb hgb
      rw [hget' b] at hgb
      by_cases hab : a = b
      · rw [if_pos hab] at hgb
        have : e' = eb := by simpa using hgb
        rw [← this, he']
        exact inv.hashOk a e hget
      · rw [if_neg hab] at hgb
        exact inv.hashOk b eb hgb
    · have hback : ∀ b eb, getSlot t' b = some eb →
          ∃ eb₀, getSlot ht.table b = some eb₀ ∧ eb₀.key = eb.key ∧
            eb₀.hash = eb.hash := by
        intro b eb hgb
        rw [hget' b] at hgb
        by_cases hab : a = b
        · rw [if_pos hab] at hgb
          have hee : e' = eb := by simpa using hgb
          refine ⟨e, hab ▸ hget, ?_, ?_⟩ <;> rw [← hee, he']
        · rw [if_neg hab] at hgb
          exact ⟨eb, hgb, rfl, rfl⟩
      refine List.Pairwise.imp_of_mem ?_ inv.eqFalse
      intro x y _ _ hr ex ey hgx hgy hhxy
      obtain ⟨ex₀, hgx₀, hkx, hhx⟩ := hback x ex hgx
      obtain ⟨ey₀, hgy₀, hky, hhy⟩ := hback y ey hgy
      rw [← hkx, ← hky]
      exact hr ex₀ ey₀ hgx₀ hgy₀ (by rw [hhy, hhx]; exact hhxy)
    · show ht.len ≤ bucketSize ∨ 2 * ht.len ≤ 13 * t'.length + 2
      rw [show t'.length = ht.table.length from length_setSlot _ _ _]
      exact inv.load
  · -- old observable list, split at the overwritten entry
    simp only [obs, obsEntries, hsplit]
    rw [List.filterMap_append, List.filterMap_cons, hget]
    simp only [List.map_append, List.map_cons]
  · -- new observable list: same split, new value
    simp only [obs, obsEntries, hsplit]
    rw [List.filterMap_append, List.filterMap_cons]
    have hga : getSlot t' a = some e' := by rw [hget' a, if_pos rfl]
    rw [hga]
    rw [List.filterMap_congr (fun b hb => hOld b (fun hc => hal1 (hc ▸ hb)))]
    rw [List.filterMap_congr (fun b hb => hOld b (fun hc => hal2 (hc ▸ hb)))]
    simp only [List.map_append, List.map_cons, he']


theorem grow_eq (api : ValueAPI K V) (fuel : Nat) (ht : Hashtable K V) :
    grow api fuel ht = insertAll api fuel
      { table := List.replicate (2 * ht.table.length) [emptyBucket K V],
        len := 0, itercount := ht.itercount, order := [], frozen := ht.frozen }
      (obs ht) := by
  rw [grow]
  rfl

/-- `insert` reduces to the retry loop once the guards pass, the table is
initialized and the key hashes. -/
theorem insert_eq_loop {api : ValueAPI K V} {ht : Hashtable K V} {k : K} {v : V}
    {h : Nat} (f : Nat) (hfz : ht.frozen = false) (hit : ht.itercount = 0)
    (htne : ht.table ≠ []) (hh : hashKey api k = .ok h) :
    insert api f ht k v = insertLoop api f ht h k v := by
  rw [insert]
  simp only [hfz, hit, List.isEmpty_eq_false.mpr htne, hh]
  rfl

/-- Re-inserting a list of pairwise-distinct, hashable entries into a table
that never overloads along the way simply appends them in order.  This is the
heart of the `grow` rehash. -/
theorem insertAll_good {api : ValueAPI K V} (L : List (K × V)) :
    ∀ (acc : Hashtable K V) (f : Nat), Inv api acc →
      acc.frozen = false → acc.itercount = 0 → acc.table ≠ [] →
      (∀ p ∈ L, ∃ hp, hashKey api p.1 = .ok hp) →
      (obs acc ++ L).Pairwise (PWR api) →
      (∀ i, i < L.length → overloaded (acc.len + i) acc.table.length = false) →
      Inv api (insertAll api (f + 1) acc L) ∧
        obs (insertAll api (f + 1) acc L) = obs acc ++ L ∧
        (insertAll api (f + 1) acc L).len = acc.len + L.length ∧
        (insertAll api (f + 1) acc L).table.length = acc.table.length ∧
        (insertAll api (f + 1) acc L).frozen = false ∧
        (insertAll api (f + 1) acc L).itercount = 0 := by
  induction L with
  | nil =>
    intro acc f inv hfz hit htne _ _ _
    refine ⟨inv, by simp [insertAll], by simp [insertAll], by simp [insertAll],
      ?_, ?_⟩ <;> simp [insertAll, hfz, hit]
  | cons p L' ih =>
    intro acc f inv hfz hit htne hL1 hPW hov
    obtain ⟨hp, hhp⟩ := hL1 p (List.mem_cons_self _ _)
    have hnm : NoMatch api acc hp p.1 := by
      intro a e hget hh
      have hobsmem := slot_mem_obs inv hget
      have hcross := (List.pairwise_append.mp hPW).2.2 _ hobsmem p
        (List.mem_cons_self _ _)
      have hkeyhash := inv.hashOk a e hget
      exact hcross e.hash hp hkeyhash hhp (by omega)
    have hov0 : overloaded acc.len acc.table.length = false := by
      have := hov 0 (by simp)
      simpa using this
    obtain ⟨acc', hloopeq, inv', hobs', hlen', htl', hfz', hit'⟩ :=
      insertLoop_append (v := p.2) f inv htne hhp hnm hov0
    have hstep : (insert api (f + 1) acc p.1 p.2).1 = acc' := by
      rw [insert_eq_loop (f + 1) hfz hit htne hhp, hloopeq]
    have hfold : insertAll api (f + 1) acc (p :: L') = insertAll api (f + 1) acc' L' := by
      simp only [insertAll, List.foldl_cons]
      rw [hstep]
    rw [hfold]
    have htne' : acc'.table ≠ [] := by
      intro hcon
      rw [hcon] at htl'
      simp at htl'
      exact htne (List.length_eq_zero.mp htl'.symm)
    have hPW' : (obs acc' ++ L').Pairwise (PWR api) := by
      rw [hobs', List.append_assoc, List.singleton_append]
      exact hPW
    have hov' : ∀ i, i < L'.length → overloaded (acc'.len + i) acc'.table.length = false := by
      intro i hi
      rw [hlen', htl']
      have := hov (i + 1) (by simpa using Nat.succ_lt_succ hi)
      have harith : acc.len + (i + 1) = acc.len + 1 + i := by omega
      rw [harith] at this
      exact this
    obtain ⟨g1, g2, g3, g4, g5, g6⟩ := ih acc' f inv'
      (by rw [hfz']; exact hfz) (by rw [hit']; exact hit) htne'
      (fun q hq => hL1 q (List.mem_cons_of_mem _ hq)) hPW' hov'
    refine ⟨g1, ?_, ?_, ?_, g5, g6⟩
    · rw [g2, hobs', List.append_assoc, List.singleton_append]
    · rw [g3, hlen', List.length_cons]
      omega
    · rw [g4, htl']

/-- `grow` on a well-formed, unfrozen, non-iterating table preserves the
observable contents and the invariant, doubles the bucket count and leaves
the table below the load threshold. -/
theorem grow_good {api : ValueAPI K V} {ht : Hashtable K V} (f : Nat)
    (inv : Inv api ht) (hfz : ht.frozen = false) (hit : ht.itercount = 0)
    (htne : ht.table ≠ []) :
    Inv api (grow api (f + 1) ht) ∧ obs (grow api (f + 1) ht) = obs ht ∧
      (grow api (f + 1) ht).len = ht.len ∧
      (grow api (f + 1) ht).table.length = 2 * ht.table.length ∧
      (grow api (f + 1) ht).frozen = false ∧
      (grow api (f + 1) ht).itercount = 0 ∧
      (grow api (f + 1) ht).table ≠ [] ∧
      overloaded (grow api (f + 1) ht).len (grow api (f + 1) ht).table.length
        = false := by
  have hn : 0 < ht.table.length := List.length_pos.mpr htne
  set fresh : Hashtable K V :=
    { table := List.replicate (2 * ht.table.length) [emptyBucket K V],
      len := 0, itercount := ht.itercount, order := [], frozen := ht.frozen }
    with hfresh
  have hinvF : Inv api fresh := by
    apply Inv.of_all_empty
    · rfl
    · rfl
    · intro a
      exact getSlot_replicate_empty _ a
  have htneF : fresh.table ≠ [] := by
    simp only [hfresh, ne_eq, List.replicate_eq_nil_iff]
    omega
  have hL1 : ∀ p ∈ obs ht, ∃ hp, hashKey api p.1 = .ok hp := by
    intro p hpm
    obtain ⟨a, e, -, hget, hkey, -⟩ := obs_mem_slot inv hpm
    exact ⟨e.hash, by rw [← hkey]; exact inv.hashOk a e hget⟩
  have hPW : (obs fresh ++ obs ht).Pairwise (PWR api) := by
    have : obs fresh = [] := rfl
    rw [this, List.nil_append]
    exact obs_pairwise inv
  have hlenobs := obs_length inv
  have hov : ∀ i, i < (obs ht).length →
      overloaded (fresh.len + i) fresh.table.length = false := by
    intro i hi
    rw [hlenobs] at hi
    have hload := inv.load
    have hbs : bucketSize = 8 := rfl
    rw [overloaded_eq_false]
    rw [hbs]
    simp only [hfresh, List.length_replicate, Nat.zero_add]
    rw [hbs] at hload
    omega
  obtain ⟨g1, g2, g3, g4, g5, g6⟩ := insertAll_good (obs ht) fresh f hinvF hfz hit htneF hL1 hPW hov
  rw [grow_eq, ← hfresh]
  refine ⟨g1, ?_, ?_, ?_, g5, g6, ?_, ?_⟩
  · rw [g2]
    simp [hfresh, obs, obsEntries]
  · rw [g3, hlenobs]
    simp [hfresh]
  · rw [g4]
    simp [hfresh]
  · intro hcon
    rw [hcon] at g4
    simp only [List.length_nil] at g4
    simp only [hfresh, List.length_replicate] at g4
    omega
  · rw [g3, g4, overloaded_eq_false]
    simp only [hfresh, List.length_replicate, Nat.zero_add]
    rw [hlenobs]
    have hload := inv.load
    have hbs : bucketSize = 8 := rfl
    rw [hbs] at hload ⊢
    omega

/-- A scan error aborts `insert` before any mutation. -/
theorem insertLoop_error {api : ValueAPI K V} {ht : Hashtable K V} {h : Nat}
    {k : K} (v : V) (f : Nat) {err : Err}
    (hscan : scanSlots api.eqFn h k
      (chainSlots (chainIdx h ht.table.length) 0
        (ht.table.getD (chainIdx h ht.table.length) [])) none = .error err) :
    insertLoop api (f + 1) ht h k v = (ht, some err) := by
  rw [insertLoop]
  simp only [hscan]

/-- Full characterization of one `insert` call on a well-formed table, with
fuel at least 2 (one regrow).  Errors leave the observable state untouched;
success either overwrites the value of the matched entry in place or appends
the new entry at the tail of the insertion order. -/
theorem insert_char {api : ValueAPI K V} {ht : Hashtable K V} (k : K) (v : V)
    (f : Nat) (inv : Inv api ht) :
    ∀ ht' res, insert api (f + 2) ht k v = (ht', res) →
      Inv api ht' ∧ ht'.frozen = ht.frozen ∧ ht'.itercount = ht.itercount ∧
      (∀ e, res = some e → obs ht' = obs ht ∧ ht'.len = ht.len ∧
        (ht.frozen = true ∨ 0 < ht.itercount ∨ hashKey api k = .error e ∨
          ∃ k', api.eqFn k k' = .error e)) ∧
      (res = none → ht.frozen = false ∧ ht.itercount = 0 ∧
        ∃ h, hashKey api k = .ok h ∧
          ((∃ (e : HEntry K V) (A B : List (K × V)),
              api.eqFn k e.key = .ok true ∧ e.hash = h ∧
              obs ht = A ++ (e.key, e.value) :: B ∧
              obs ht' = A ++ (e.key, v) :: B ∧ ht'.len = ht.len) ∨
           (NoMatch api ht h k ∧ obs ht' = obs ht ++ [(k, v)] ∧
              ht'.len = ht.len + 1))) := by
  intro ht' res hres
  by_cases hfz : ht.frozen
  · have heq : insert api (f + 2) ht k v = (ht, some .frozenInsert) := by
      rw [insert]
      simp [hfz]
    rw [heq] at hres
    injection hres with h1 h2
    subst h1
    subst h2
    exact ⟨inv, rfl, rfl, fun e _ => ⟨rfl, rfl, Or.inl hfz⟩,
      fun hcon => by simp at hcon⟩
  · have hfzf : ht.frozen = false := by
      simp only [Bool.not_eq_true] at hfz
      exact hfz
    by_cases hit : 0 < ht.itercount
    · have heq : insert api (f + 2) ht k v = (ht, some .iterInsert) := by
        rw [insert]
        simp [hfzf, hit]
      rw [heq] at hres
      injection hres with h1 h2
      subst h1
      subst h2
      exact ⟨inv, rfl, rfl, fun e _ => ⟨rfl, rfl, Or.inr (Or.inl hit)⟩,
        fun hcon => by simp at hcon⟩
    · have hit0 : ht.itercount = 0 := by omega
      -- the (possibly lazily initialized) working table
      have hinit : ∃ ht0 : Hashtable K V,
          (insert api (f + 2) ht k v =
            match hashKey api k with
            | .error e => (ht0, some e)
            | .ok h => insertLoop api (f + 2) ht0 h k v) ∧
          Inv api ht0 ∧ obs ht0 = obs ht ∧ ht0.len = ht.len ∧
          ht0.table ≠ [] ∧ ht0.frozen = false ∧ ht0.itercount = 0 := by
        by_cases hemp : ht.table.isEmpty
        · have htnil : ht.table = [] := by
            rwa [List.isEmpty_iff] at hemp
          obtain ⟨i1, i2, i3, i4, i5⟩ := Inv.htInit inv htnil
          refine ⟨htInit ht 1, ?_, i1, i2, ?_, i5, hfzf, hit0⟩
          · rw [insert]
            simp only [hfzf, hit0, hemp]
            rfl
          · rw [i4, inv.lenOrd, inv.order_nil_of_table_nil htnil]
            rfl
        · have htne : ht.table ≠ [] := by
            intro hcon
            rw [hcon] at hemp
            simp at hemp
          refine ⟨ht, ?_, inv, rfl, rfl, htne, hfzf, hit0⟩
          rw [insert]
          simp only [hfzf, hit0, hemp]
          rfl
      obtain ⟨ht0, hunf, inv0, hobs0, hlen0, htne0, hfz0, hit00⟩ := hinit
      rw [hunf] at hres
      match hh : hashKey api k with
      | .error e =>
        rw [hh] at hres
        replace hres : ((ht0, some e) : Hashtable K V × Option Err) = (ht', res) := hres
        injection hres with h1 h2
        subst h1
        subst h2
        refine ⟨inv0, by rw [hfz0, hfzf], by rw [hit00, hit0],
          fun e₀ he₀ => ⟨hobs0, hlen0, ?_⟩, fun hcon => by simp at hcon⟩
        injection he₀ with hee
        exact Or.inr (Or.inr (Or.inl (by rw [← hee])))
      | .ok h =>
        rw [hh] at hres
        replace hres : insertLoop api (f + 2) ht0 h k v = (ht', res) := hres
        match hscan : scanSlots api.eqFn h k
            (chainSlots (chainIdx h ht0.table.length) 0
              (ht0.table.getD (chainIdx h ht0.table.length) [])) none with
        | .error err =>
          have heq := insertLoop_error v (f + 1) hscan
          rw [show f + 1 + 1 = f + 2 from rfl] at heq
          rw [heq] at hres
          injection hres with h1 h2
          subst h1
          subst h2
          obtain ⟨a0, e0, -, -, heq0⟩ := scan_error_mem api.eqFn h k hscan
          refine ⟨inv0, by rw [hfz0, hfzf], by rw [hit00, hit0],
            fun e₀ he₀ => ⟨hobs0, hlen0, ?_⟩, fun hcon => by simp at hcon⟩
          injection he₀ with hee
          exact Or.inr (Or.inr (Or.inr ⟨e0.key, by rw [← hee]; exact heq0⟩))
        | .ok (.found a e) =>
          obtain ⟨ht'', A, B, heq, invF, hobsOld, hobsNew, hlenF, -, hfzF, hitF, hhash, heqk⟩ :=
            insertLoop_found (v := v) (f + 1) inv0 hscan
          rw [show f + 1 + 1 = f + 2 from rfl] at heq
          rw [heq] at hres
          injection hres with h1 h2
          subst h1
          subst h2
          refine ⟨invF, by rw [hfzF, hfz0, hfzf], by rw [hitF, hit00, hit0],
            fun e₀ hcon => by simp at hcon, fun _ => ⟨hfzf, hit0, h, rfl, ?_⟩⟩
          left
          exact ⟨e, A, B, heqk, hhash, by rw [← hobs0]; exact hobsOld, hobsNew,
            by rw [hlenF, hlen0]⟩
        | .ok (.notFound c) =>
          have hnm0 : NoMatch api ht0 h k := noMatch_of_scan_notFound inv0 hscan
          have hnm : NoMatch api ht h k :=
            noMatch_transport inv0 inv hobs0.symm hnm0
          by_cases hov : overloaded ht0.len ht0.table.length
          · -- regrow, then append
            have hstep : insertLoop api (f + 2) ht0 h k v =
                insertLoop api (f + 1) (grow api (f + 1) ht0) h k v := by
              rw [insertLoop]
              simp only [hscan, hov]
              rfl
            obtain ⟨g1, g2, g3, g4, g5, g6, g7, g8⟩ :=
              grow_good f inv0 hfz0 hit00 htne0
            have hnm2 : NoMatch api (grow api (f + 1) ht0) h k :=
              noMatch_transport inv0 g1 g2 hnm0
            obtain ⟨ht'', heq, invA, hobsA, hlenA, -, hfzA, hitA⟩ :=
              insertLoop_append (v := v) f g1 g7 hh hnm2 g8
            rw [hstep, heq] at hres
            injection hres with h1 h2
            subst h1
            subst h2
            refine ⟨invA, by rw [hfzA, g5, hfzf], by rw [hitA, g6, hit0],
              fun e₀ hcon => by simp at hcon, fun _ => ⟨hfzf, hit0, h, rfl, ?_⟩⟩
            right
            refine ⟨hnm, ?_, ?_⟩
            · rw [hobsA, g2, hobs0]
            · rw [hlenA, g3, hlen0]
          · -- direct append
            have hovf : overloaded ht0.len ht0.table.length = false := by
              rwa [Bool.not_eq_true] at hov
            obtain ⟨ht'', heq, invA, hobsA, hlenA, -, hfzA, hitA⟩ :=
              insertLoop_append (v := v) (f + 1) inv0 htne0 hh hnm0 hovf
            rw [show f + 1 + 1 = f + 2 from rfl] at heq
            rw [heq] at hres
            injection hres with h1 h2
            subst h1
            subst h2
            refine ⟨invA, by rw [hfzA, hfz0, hfzf], by rw [hitA, hit00, hit0],
              fun e₀ hcon => by simp at hcon, fun _ => ⟨hfzf, hit0, h, rfl, ?_⟩⟩
            right
            refine ⟨hnm, ?_, ?_⟩
            · rw [hobsA, hobs0]
            · rw [hlenA, hlen0]

end InsertLemmas

/-! ## Delete and clear characterization -/

section DeleteClearLemmas

variable {K V : Type}

/-- Full characterization of `delete`: errors and misses leave the receiver
untouched (structurally); a hit splices exactly the matched entry out of the
insertion order and clears its slot. -/
theorem delete_char {api : ValueAPI K V} {ht : Hashtable K V} (k : K)
    (inv : Inv api ht) :
    ∀ ht' res, delete api ht k = (ht', res) →
      Inv api ht' ∧ ht'.frozen = ht.frozen ∧ ht'.itercount = ht.itercount ∧
      (∀ e, res = .error e → ht' = ht ∧
        (ht.frozen = true ∨ 0 < ht.itercount ∨ hashKey api k = .error e ∨
          ∃ k', api.eqFn k k' = .error e)) ∧
      (res = .ok none → ht' = ht ∧
        (obs ht = [] ∨ ∃ h, hashKey api k = .ok h ∧ NoMatch api ht h k)) ∧
      (∀ v0, res = .ok (some v0) →
        ∃ (e : HEntry K V) (A B : List (K × V)), api.eqFn k e.key = .ok true ∧
          v0 = e.value ∧ obs ht = A ++ (e.key, e.value) :: B ∧
          obs ht' = A ++ B ∧ ht'.len = ht.len - 1) := by
  intro ht' res hres
  by_cases hfz : ht.frozen
  · have heq : delete api ht k = (ht, .error .frozenDelete) := by
      rw [delete]
      simp [hfz]
    rw [heq] at hres
    injection hres with h1 h2
    subst h1
    subst h2
    exact ⟨inv, rfl, rfl, fun e _ => ⟨rfl, Or.inl hfz⟩, fun hcon => by simp at hcon,
      fun v0 hcon => by simp at hcon⟩
  · have hfzf : ht.frozen = false := by simpa using hfz
    by_cases hit : 0 < ht.itercount
    · have heq : delete api ht k = (ht, .error .iterDelete) := by
        rw [delete]
        simp [hfzf, hit]
      rw [heq] at hres
      injection hres with h1 h2
      subst h1
      subst h2
      exact ⟨inv, rfl, rfl, fun e _ => ⟨rfl, Or.inr (Or.inl hit)⟩,
        fun hcon => by simp at hcon, fun v0 hcon => by simp at hcon⟩
    · have hit0 : ht.itercount = 0 := by omega
      by_cases hemp : ht.table.isEmpty
      · have htnil : ht.table = [] := by rwa [List.isEmpty_iff] at hemp
        have heq : delete api ht k = (ht, .ok none) := by
          rw [delete]
          simp [hfzf, hit, hemp]
        rw [heq] at hres
        injection hres with h1 h2
        subst h1
        subst h2
        refine ⟨inv, rfl, rfl, fun e hcon => by simp at hcon, fun _ => ⟨rfl, Or.inl ?_⟩,
          fun v0 hcon => by simp at hcon⟩
        simp [obs, obsEntries, inv.order_nil_of_table_nil htnil]
      · have hunf : delete api ht k =
            (match hashKey api k with
              | .error e => (ht, .error e)
              | .ok h =>
                match scanSlots api.eqFn h k
                  (chainSlots (chainIdx h ht.table.length) 0
                    (ht.table.getD (chainIdx h ht.table.length) [])) none with
                | .error e => (ht, .error e)
                | .ok (.found a e) =>
                  ({ ht with table := setSlot ht.table a none,
                             order := ht.order.erase a,
                             len := ht.len - 1 }, .ok (some e.value))
                | .ok (.notFound _) => (ht, .ok none)) := by
          rw [delete]
          simp only [hfzf, hit, hemp]
          rfl
        rw [hunf] at hres
        match hh : hashKey api k with
        | .error e =>
          rw [hh] at hres
          replace hres : ((ht, .error e) : Hashtable K V × Except Err (Option V)) = (ht', res) := hres
          injection hres with h1 h2
          subst h1
          subst h2
          refine ⟨inv, rfl, rfl, fun e₀ he₀ => ⟨rfl, ?_⟩, fun hcon => by simp at hcon,
            fun v0 hcon => by simp at hcon⟩
          injection he₀ with hee
          exact Or.inr (Or.inr (Or.inl (by rw [← hee])))
        | .ok h =>
          rw [hh] at hres
          replace hres : (match scanSlots api.eqFn h k
              (chainSlots (chainIdx h ht.table.length) 0
                (ht.table.getD (chainIdx h ht.table.length) [])) none with
            | .error e => (ht, .error e)
            | .ok (.found a e) =>
              ({ ht with table := setSlot ht.table a none,
                         order := ht.order.erase a,
                         len := ht.len - 1 }, .ok (some e.value))
            | .ok (.notFound _) => ((ht, .ok none) : Hashtable K V × Except Err (Option V))) = (ht', res) := hres
          match hscan : scanSlots api.eqFn h k
              (chainSlots (chainIdx h ht.table.length) 0
                (ht.table.getD (chainIdx h ht.table.length) [])) none with
          | .error err =>
            rw [hscan] at hres
            replace hres : ((ht, .error err) : Hashtable K V × Except Err (Option V)) = (ht', res) := hres
            injection hres with h1 h2
            subst h1
            subst h2
            obtain ⟨a0, e0, -, -, heq0⟩ := scan_error_mem api.eqFn h k hscan
            refine ⟨inv, rfl, rfl, fun e₀ he₀ => ⟨rfl, ?_⟩, fun hcon => by simp at hcon,
              fun v0 hcon => by simp at hcon⟩
            injection he₀ with hee
            exact Or.inr (Or.inr (Or.inr ⟨e0.key, by rw [← hee]; exact heq0⟩))
          | .ok (.notFound c) =>
            rw [hscan] at hres
            replace hres : ((ht, .ok none) : Hashtable K V × Except Err (Option V)) = (ht', res) := hres
            injection hres with h1 h2
            subst h1
            subst h2
            refine ⟨inv, rfl, rfl, fun e₀ hcon => by simp at hcon, fun _ => ⟨rfl, Or.inr ?_⟩,
              fun v0 hcon => by simp at hcon⟩
            exact ⟨h, rfl, noMatch_of_scan_notFound inv hscan⟩
          | .ok (.found a e) =>
            rw [hscan] at hres
            injection hres with h1 h2
            subst h1
            subst h2
            obtain ⟨hmem, hhash, heqk⟩ := scan_found_mem api.eqFn h k hscan
            obtain ⟨hget, -⟩ := getSlot_of_mem_chainSlots hmem
            have hv : validAddr ht.table a := validAddr_of_isSome (by rw [hget]; rfl)
            have ha : a ∈ ht.order := inv.fullOrd a (by rw [hget]; rfl)
            obtain ⟨l1, l2, hsplit⟩ := List.append_of_mem ha
            have hnodup := inv.ordNodup
            rw [hsplit, List.nodup_append] at hnodup
            have hal1 : a ∉ l1 := fun hx => hnodup.2.2 hx (List.mem_cons_self _ _)
            have hal2 : a ∉ l2 := by
              have := hnodup.2.1
              rw [List.nodup_cons] at this
              exact this.1
            have herase : ht.order.erase a = l1 ++ l2 := by
              rw [hsplit, List.erase_append_right _ hal1, List.erase_cons_head]
            have hget' : ∀ b, getSlot (setSlot ht.table a none) b =
                if a = b then none else getSlot ht.table b :=
              fun b => getSlot_setSlot none b hv
            have hOld : ∀ b, b ≠ a → getSlot (setSlot ht.table a none) b =
                getSlot ht.table b := by
              intro b hb
              rw [hget' b, if_neg (fun hc => hb hc.symm)]
            have hsub : List.Sublist (l1 ++ l2) ht.order := by
              rw [hsplit]
              exact (List.append_sublist_append_left l1).mpr
                (List.sublist_cons_self a l2)
            refine ⟨?_, rfl, rfl, fun e₀ hcon => by simp at hcon,
              fun hcon => by simp at hcon, fun v0 hv0 => ?_⟩
            · -- invariant after the splice
              refine ⟨?_, ?_, ?_, ?_, ?_, ?_, ?_, ?_⟩
              · show ht.len - 1 = (ht.order.erase a).length
                rw [herase, List.length_append, inv.lenOrd, hsplit,
                  List.length_append, List.length_cons]
                omega
              · show (ht.order.erase a).Nodup
                rw [herase]
                exact inv.ordNodup.sublist hsub
              · intro b hb
                rw [herase] at hb
                have hba : b ≠ a := by
                  intro hcon
                  subst hcon
                  rcases List.mem_append.mp hb with h1 | h2
                  · exact hal1 h1
                  · exact hal2 h2
                rw [hOld b hba]
                exact inv.ordFull b (hsub.mem (herase ▸ hb))
              · intro b hb
                show b ∈ ht.order.erase a
                rw [herase]
                rw [hget' b] at hb
                by_cases hab : a = b
                · rw [if_pos hab] at hb
                  simp at hb
                · rw [if_neg hab] at hb
                  have hbo := inv.fullOrd b hb
                  rw [hsplit] at hbo
                  rcases List.mem_append.mp hbo with h1 | h2
                  · exact List.mem_append.mpr (Or.inl h1)
                  · rcases List.mem_cons.mp h2 with h3 | h4
                    · exact absurd h3.symm hab
                    · exact List.mem_append.mpr (Or.inr h4)
              · intro b eb hgb
                show b.1 = chainIdx eb.hash (setSlot ht.table a none).length
                rw [length_setSlot]
                rw [hget' b] at hgb
                by_cases hab : a = b
                · rw [if_pos hab] at hgb
                  simp at hgb
                · rw [if_neg hab] at hgb
                  exact inv.placed b eb hgb
              · intro b eb hgb
                rw [hget' b] at hgb
                by_cases hab : a = b
                · rw [if_pos hab] at hgb
                  simp at hgb
                · rw [if_neg hab] at hgb
                  exact inv.hashOk b eb hgb
              · show (ht.order.erase a).Pairwise _
                rw [herase]
                refine List.Pairwise.imp_of_mem ?_ (inv.eqFalse.sublist hsub)
                intro x y hx hy hr ex ey hgx hgy hhxy
                have hxa : x ≠ a := by
                  intro hcon
                  subst hcon
                  rcases List.mem_append.mp hx with h1 | h2
                  · exact hal1 h1
                  · exact hal2 h2
                have hya : y ≠ a := by
                  intro hcon
                  subst hcon
                  rcases List.mem_append.mp hy with h1 | h2
                  · exact hal1 h1
                  · exact hal2 h2
                rw [hOld x hxa] at hgx
                rw [hOld y hya] at hgy
                exact hr ex ey hgx hgy hhxy
              · show ht.len - 1 ≤ bucketSize ∨
                  2 * (ht.len - 1) ≤ 13 * (setSlot ht.table a none).length + 2
                rw [length_setSlot]
                rcases inv.load with h1 | h2
                · left; omega
                · right; omega
            · -- the removed pair
              have hv0e : v0 = e.value := by
                injection hv0 with hv1
                injection hv1 with hv2
                exact hv2.symm
              refine ⟨e, (l1.filterMap (fun b => getSlot ht.table b)).map
                  (fun x => (x.key, x.value)),
                (l2.filterMap (fun b => getSlot ht.table b)).map
                  (fun x => (x.key, x.value)), heqk, hv0e, ?_, ?_, rfl⟩
              · simp only [obs, obsEntries, hsplit]
                rw [List.filterMap_append, List.filterMap_cons, hget]
                simp only [List.map_append, List.map_cons]
              · simp only [obs, obsEntries, herase]
                rw [List.filterMap_append]
                rw [List.filterMap_congr (fun b hb => hOld b (fun hc => hal1 (hc ▸ hb)))]
                rw [List.filterMap_congr (fun b hb => hOld b (fun hc => hal2 (hc ▸ hb)))]
                simp only [List.map_append]

/-- Full characterization of `clear`: errors leave the receiver untouched;
success resets every bucket and empties the insertion order. -/
theorem clear_char {api : ValueAPI K V} {ht : Hashtable K V} (inv : Inv api ht) :
    ∀ ht' res, clear ht = (ht', res) →
      Inv api ht' ∧ ht'.frozen = ht.frozen ∧ ht'.itercount = ht.itercount ∧
      (res ≠ none → ht' = ht) ∧
      (res = none → obs ht' = [] ∧ ht'.len = 0) := by
  intro ht' res hres
  by_cases hfz : ht.frozen
  · have heq : clear ht = (ht, some Err.frozenClear) := by
      rw [clear]
      simp [hfz]
    rw [heq] at hres
    injection hres with h1 h2
    subst h1
    subst h2
    exact ⟨inv, rfl, rfl, fun _ => rfl, fun hcon => by simp at hcon⟩
  · have hfzf : ht.frozen = false := by simpa using hfz
    by_cases hit : 0 < ht.itercount
    · have heq : clear ht = (ht, some Err.iterClear) := by
        rw [clear]
        simp [hfzf, hit]
      rw [heq] at hres
      injection hres with h1 h2
      subst h1
      subst h2
      exact ⟨inv, rfl, rfl, fun _ => rfl, fun hcon => by simp at hcon⟩
    · have heq : clear ht =
          ({ ht with table := ht.table.map (fun _ => [emptyBucket K V]),
                     order := [], len := 0 }, none) := by
        rw [clear]
        simp [hfzf, hit]
      rw [heq] at hres
      injection hres with h1 h2
      subst h1
      subst h2
      have hempty : ∀ a : Addr,
          getSlot (ht.table.map (fun _ => [emptyBucket K V])) a = none := by
        intro a
        unfold getSlot
        have hmap : (ht.table.map (fun _ => [emptyBucket K V])).getD a.1 [] =
            if a.1 < ht.table.length then [emptyBucket K V] else [] := by
          induction ht.table generalizing a with
          | nil => simp
          | cons x xs ih =>
            cases ha1 : a.1 with
            | zero => simp
            | succ j =>
              simp only [List.map_cons, List.getD_cons_succ, List.length_cons]
              have := ih ⟨j, a.2⟩
              simp only at this
              rw [this]
              simp only [Nat.succ_lt_succ_iff]
        rw [hmap]
        split
        · cases ha2 : a.2.1 with
          | zero => simp [emptyBucket, getD_replicate]
          | succ j => simp
        · simp
      refine ⟨Inv.of_all_empty api _ rfl rfl hempty, rfl, rfl,
        fun hcon => absurd rfl hcon, fun _ => ⟨?_, rfl⟩⟩
      simp [obs, obsEntries]

end DeleteClearLemmas

/-! ## Freeze and iterator lemmas -/

section FreezeIterLemmas

variable {K V : Type}

theorem freezeHT_frozen (api : ValueAPI K V) (ht : Hashtable K V) :
    (freezeHT api ht).frozen = true := by
  unfold freezeHT
  split
  · rename_i h
    exact h
  · rfl

theorem freezeHT_of_frozen (api : ValueAPI K V) {ht : Hashtable K V}
    (h : ht.frozen = true) : freezeHT api ht = ht := by
  unfold freezeHT
  simp [h]

/-- `freeze` is idempotent: the guard makes a second call a no-op. -/
theorem freezeHT_idem (api : ValueAPI K V) (ht : Hashtable K V) :
    freezeHT api (freezeHT api ht) = freezeHT api ht :=
  freezeHT_of_frozen api (freezeHT_frozen api ht)

theorem freezeHT_order (api : ValueAPI K V) (ht : Hashtable K V) :
    (freezeHT api ht).order = ht.order := by
  unfold freezeHT
  split <;> rfl

theorem insert_frozen {api : ValueAPI K V} {ht : Hashtable K V}
    (h : ht.frozen = true) (f : Nat) (k : K) (v : V) :
    insert api f ht k v = (ht, some .frozenInsert) := by
  rw [insert]
  simp [h]

theorem delete_frozen {api : ValueAPI K V} {ht : Hashtable K V}
    (h : ht.frozen = true) (k : K) :
    delete api ht k = (ht, .error .frozenDelete) := by
  rw [delete]
  simp [h]

theorem clear_frozen {ht : Hashtable K V} (h : ht.frozen = true) :
    clear ht = (ht, some .frozenClear) := by
  rw [clear]
  simp [h]

theorem insert_iterating {api : ValueAPI K V} {ht : Hashtable K V}
    (hfz : ht.frozen = false) (h : 0 < ht.itercount) (f : Nat) (k : K) (v : V) :
    insert api f ht k v = (ht, some .iterInsert) := by
  rw [insert]
  simp [hfz, h]

theorem delete_iterating {api : ValueAPI K V} {ht : Hashtable K V}
    (hfz : ht.frozen = false) (h : 0 < ht.itercount) (k : K) :
    delete api ht k = (ht, .error .iterDelete) := by
  rw [delete]
  simp [hfz, h]

theorem clear_iterating {ht : Hashtable K V} (hfz : ht.frozen = false)
    (h : 0 < ht.itercount) : clear ht = (ht, some .iterClear) := by
  rw [clear]
  simp [hfz, h]

theorem getD_map_pointed {α β : Type} (f : α → β) (dα : α) (dβ : β)
    (hf : f dα = dβ) (l : List α) (i : Nat) :
    (l.map f).getD i dβ = f (l.getD i dα) := by
  induction l generalizing i with
  | nil => simpa using hf.symm
  | cons x xs ih =>
    cases i with
    | zero => rfl
    | succ j => simpa using ih j

theorem getSlot_freezeHT {api : ValueAPI K V} {ht : Hashtable K V}
    (hfz : ht.frozen = false) (a : Addr) :
    getSlot (freezeHT api ht).table a =
      (getSlot ht.table a).map (freezeEntry api) := by
  unfold freezeHT
  simp only [hfz, Bool.false_eq_true, if_false]
  unfold getSlot
  rw [getD_map_pointed _ ([] : Chain K V) ([] : Chain K V) rfl]
  rw [getD_map_pointed _ ([] : Bucket K V) ([] : Bucket K V) rfl]
  rw [getD_map_pointed _ (none : Slot K V) (none : Slot K V) rfl]

theorem bucketSlots_map (fe : HEntry K V → HEntry K V) (ci bi si : Nat)
    (b : Bucket K V) :
    bucketSlots ci bi si (b.map (fun s => s.map fe)) =
      (bucketSlots ci bi si b).map (fun p => (p.1, p.2.map fe)) := by
  induction b generalizing si with
  | nil => rfl
  | cons s rest ih =>
    simp only [List.map_cons, bucketSlots, ih (si + 1)]

theorem chainSlots_map (fe : HEntry K V → HEntry K V) (ci bi : Nat)
    (ch : Chain K V) :
    chainSlots ci bi (ch.map (fun b => b.map (fun s => s.map fe))) =
      (chainSlots ci bi ch).map (fun p => (p.1, p.2.map fe)) := by
  induction ch generalizing bi with
  | nil => rfl
  | cons b rest ih =>
    simp only [List.map_cons, chainSlots, ih (bi + 1), bucketSlots_map,
      List.map_append]

/-- Scanning a value-frozen chain: same scan decisions (hashes and keys are
preserved by the entry freeze), frozen found entry. -/
theorem scanSlots_map (eqFn : K → K → Except Err Bool) (h : Nat) (k : K)
    (fe : HEntry K V → HEntry K V) (hkey : ∀ e, (fe e).key = e.key)
    (hhash : ∀ e, (fe e).hash = e.hash) (S : List (Addr × Slot K V))
    (cand : Option Addr) :
    scanSlots eqFn h k (S.map (fun p => (p.1, p.2.map fe))) cand =
      (scanSlots eqFn h k S cand).map (fun r =>
        match r with
        | .found a e => .found a (fe e)
        | .notFound c => .notFound c) := by
  induction S generalizing cand with
  | nil => rfl
  | cons p rest ih =>
    obtain ⟨a, s⟩ := p
    cases s with
    | none => simpa [scanSlots] using ih (some a)
    | some e =>
      simp only [List.map_cons, Option.map_some, scanSlots, hkey, hhash]
      by_cases hh : e.hash = h
      · simp only [hh, ne_eq, not_true_eq_false, if_false]
        match eqFn k e.key with
        | .error err => rfl
        | .ok true => rfl
        | .ok false => exact ih cand
      · simp only [hh, ne_eq, not_false_eq_true, if_true]
        exact ih cand

/-- After `freeze`, `lookup` still succeeds: same found/not-found/error
verdict, with the found value frozen.  (Keys are hashable, hence immutable:
their freeze leaves them identical, which is `hfk`.) -/
theorem lookup_freezeHT {api : ValueAPI K V} {ht : Hashtable K V}
    (hfk : ∀ x, api.freezeK x = x) (hfz : ht.frozen = false) (k : K) :
    lookup api (freezeHT api ht) k =
      (lookup api ht k).map (Option.map api.freezeV) := by
  have hkey : ∀ e : HEntry K V, (freezeEntry api e).key = e.key := by
    intro e
    simp [freezeEntry, hfk]
  have hhash : ∀ e : HEntry K V, (freezeEntry api e).hash = e.hash := by
    intro e
    rfl
  have htbl : (freezeHT api ht).table =
      ht.table.map (fun ch => ch.map (fun b => b.map (fun s =>
        s.map (freezeEntry api)))) := by
    unfold freezeHT
    simp [hfz]
  rw [lookup, lookup]
  match hashKey api k with
  | .error e => rfl
  | .ok h =>
    simp only [htbl]
    by_cases hemp : ht.table.isEmpty
    · have htn : ht.table = [] := by rwa [List.isEmpty_iff] at hemp
      rw [htn]
      rfl
    · have hne : ht.table ≠ [] := by
        intro hcon
        rw [hcon] at hemp
        simp at hemp
      have hmapne : ht.table.map (fun ch => ch.map (fun b => b.map (fun s =>
          s.map (freezeEntry api)))) ≠ [] := by
        simpa using hne
      simp only [List.isEmpty_eq_false.mpr hne, List.isEmpty_eq_false.mpr hmapne,
        Bool.false_eq_true, if_false, List.length_map]
      rw [getD_map_pointed _ ([] : Chain K V) ([] : Chain K V) rfl]
      rw [chainSlots_map (freezeEntry api)]
      rw [scanSlots_map api.eqFn h k (freezeEntry api) hkey hhash]
      match scanSlots api.eqFn h k
          (chainSlots (chainIdx h ht.table.length) 0
            (ht.table.getD (chainIdx h ht.table.length) [])) none with
      | .error err => rfl
      | .ok (.found a e) => rfl
      | .ok (.notFound c) => rfl

theorem filterMap_optionMap {α β γ : Type} (f : β → γ) (g : α → Option β)
    (l : List α) :
    l.filterMap (fun a => (g a).map f) = (l.filterMap g).map f := by
  induction l with
  | nil => rfl
  | cons x xs ih =>
    cases hg : g x with
    | none => simp [List.filterMap_cons, hg, ih]
    | some b => simp [List.filterMap_cons, hg, ih]

/-- After `freeze`, iteration still works and yields the same keys. -/
theorem keysList_freezeHT {api : ValueAPI K V} {ht : Hashtable K V}
    (hfk : ∀ x, api.freezeK x = x) :
    keysList (freezeHT api ht) = keysList ht := by
  by_cases hfz : ht.frozen
  · rw [freezeHT_of_frozen api hfz]
  · have hfzf : ht.frozen = false := by simpa using hfz
    unfold keysList obsEntries
    rw [freezeHT_order]
    have hcongr : ∀ a ∈ ht.order, getSlot (freezeHT api ht).table a =
        (getSlot ht.table a).map (freezeEntry api) :=
      fun a _ => getSlot_freezeHT hfzf a
    rw [List.filterMap_congr hcongr]
    rw [filterMap_optionMap]
    simp [List.map_map, Function.comp, freezeEntry, hfk]

theorem iterate_snd (ht : Hashtable K V) (hfz : ht.frozen = false) :
    (iterate ht).2 = { ht with itercount := ht.itercount + 1 } := by
  unfold iterate
  simp [hfz]

theorem iterate_fst (ht : Hashtable K V) : (iterate ht).1 = keysList ht := rfl

theorem iterDone_iterate (ht : Hashtable K V) (hfz : ht.frozen = false) :
    iterDone (iterate ht).2 = ht := by
  obtain ⟨t, l, ic, o, fz⟩ := ht
  simp only at hfz
  subst hfz
  rw [iterate_snd _ rfl]
  unfold iterDone
  simp

end FreezeIterLemmas

/-! ## The pure instantiation and the association-list model

For claims over "hashable keys" — keys whose `Hash` never fails and whose
`Equal` is ordinary decidable equality (ints, strings, tuples of such within
the comparison depth) — the table is an association list in insertion order.
-/

section PureLayer

variable {K V : Type} [DecidableEq K]


theorem pure_hashKey (hf : K → Nat) (k : K) :
    hashKey (V := V) (pureAPI hf) k = .ok (remapHash (hf k)) := rfl

theorem pairwise_or {α : Type} {R : α → α → Prop} {l : List α}
    (hp : l.Pairwise R) {a b : α} (ha : a ∈ l) (hb : b ∈ l) (hne : a ≠ b) :
    R a b ∨ R b a := by
  induction l with
  | nil => simp at ha
  | cons x xs ih =>
    rw [List.pairwise_cons] at hp
    rcases List.mem_cons.mp ha with ha0 | ha1
    · rcases List.mem_cons.mp hb with hb0 | hb1
      · exact absurd (ha0.trans hb0.symm) hne
      · exact Or.inl (by rw [ha0]; exact hp.1 b hb1)
    · rcases List.mem_cons.mp hb with hb0 | hb1
      · exact Or.inr (by rw [hb0]; exact hp.1 a ha1)
      · exact ih hp.2 ha1 hb1

/-- In the pure instantiation, absence of a match is exactly absence of the
key from the observable list. -/
theorem pure_noMatch_iff (hf : K → Nat) {ht : Hashtable K V}
    (inv : Inv (pureAPI hf) ht) (k : K) :
    NoMatch (pureAPI hf) ht (remapHash (hf k)) k ↔
      k ∉ (obs ht).map Prod.fst := by
  constructor
  · intro hnm hmem
    rw [List.mem_map] at hmem
    obtain ⟨p, hp, hpk⟩ := hmem
    obtain ⟨a, e, -, hget, hkey, -⟩ := obs_mem_slot inv hp
    have hhash := inv.hashOk a e hget
    rw [pure_hashKey] at hhash
    have hek : e.key = k := by rw [hkey, hpk]
    have hehash : e.hash = remapHash (hf k) := by
      have := (Except.ok.injEq _ _).mp hhash
      rw [← this, hek]
    have := hnm a e hget hehash
    rw [hek] at this
    simp [pureAPI] at this
  · intro hmem a e hget hh
    show Except.ok (decide (k = e.key)) = .ok false
    have hne : k ≠ e.key := by
      intro hcon
      apply hmem
      rw [List.mem_map]
      exact ⟨(e.key, e.value), slot_mem_obs inv hget, hcon.symm⟩
    simp [hne]

/-- In the pure instantiation, the observable keys are distinct. -/
theorem pure_keys_nodup (hf : K → Nat) {ht : Hashtable K V}
    (inv : Inv (pureAPI hf) ht) : ((obs ht).map Prod.fst).Nodup := by
  show ((obs ht).map Prod.fst).Pairwise _
  rw [List.pairwise_map]
  refine List.Pairwise.imp_of_mem ?_ (obs_pairwise inv)
  intro p q _ _ hr hcon
  have := hr (remapHash (hf p.1)) (remapHash (hf q.1)) rfl rfl (by rw [hcon])
  rw [hcon] at this
  simp [pureAPI] at this


theorem specInsert_not_mem {m : List (K × V)} {k : K} (v : V)
    (h : k ∉ m.map Prod.fst) : specInsert m k v = m ++ [(k, v)] := by
  induction m with
  | nil => rfl
  | cons p rest ih =>
    have hpk : p.1 ≠ k := by
      intro hcon
      exact h (by rw [List.map_cons, ← hcon]; exact List.mem_cons_self _ _)
    simp only [specInsert, hpk, if_false, List.cons_append]
    rw [ih (fun hcon => h (by rw [List.map_cons]; exact List.mem_cons_of_mem _ hcon))]

theorem specInsert_split {A B : List (K × V)} {k : K} (w v : V)
    (h : k ∉ A.map Prod.fst) :
    specInsert (A ++ (k, w) :: B) k v = A ++ (k, v) :: B := by
  induction A with
  | nil => simp [specInsert]
  | cons p rest ih =>
    have hpk : p.1 ≠ k := by
      intro hcon
      exact h (by rw [List.map_cons, ← hcon]; exact List.mem_cons_self _ _)
    simp only [List.cons_append, specInsert, hpk, if_false, List.append_eq]
    rw [ih (fun hcon => h (by rw [List.map_cons]; exact List.mem_cons_of_mem _ hcon))]

theorem specDelete_not_mem {m : List (K × V)} {k : K}
    (h : k ∉ m.map Prod.fst) : specDelete m k = m := by
  unfold specDelete
  rw [List.filter_eq_self]
  intro p hp
  simp only [ne_eq, decide_eq_true_eq]
  intro hcon
  exact h (by rw [← hcon]; exact List.mem_map_of_mem Prod.fst hp)

theorem specDelete_split {A B : List (K × V)} {k : K} (w : V)
    (hA : k ∉ A.map Prod.fst) (hB : k ∉ B.map Prod.fst) :
    specDelete (A ++ (k, w) :: B) k = A ++ B := by
  unfold specDelete
  rw [List.filter_append, List.filter_cons]
  rw [if_neg (by simp)]
  rw [show A.filter (fun p => decide (p.1 ≠ k)) = A from by
    rw [List.filter_eq_self]
    intro p hp
    simp only [ne_eq, decide_eq_true_eq]
    intro hcon
    exact hA (by rw [← hcon]; exact List.mem_map_of_mem Prod.fst hp)]
  rw [show B.filter (fun p => decide (p.1 ≠ k)) = B from by
    rw [List.filter_eq_self]
    intro p hp
    simp only [ne_eq, decide_eq_true_eq]
    intro hcon
    exact hB (by rw [← hcon]; exact List.mem_map_of_mem Prod.fst hp)]

theorem specLookup_not_mem {m : List (K × V)} {k : K}
    (h : k ∉ m.map Prod.fst) : specLookup m k = none := by
  unfold specLookup
  rw [List.find?_eq_none.mpr]
  · rfl
  · intro p hp
    simp only [decide_eq_true_eq]
    intro hcon
    exact h (by rw [← hcon]; exact List.mem_map_of_mem Prod.fst hp)

theorem specLookup_mem {m : List (K × V)} {k : K} {v : V}
    (hnd : (m.map Prod.fst).Nodup) (hmem : (k, v) ∈ m) :
    specLookup m k = some v := by
  induction m with
  | nil => simp at hmem
  | cons p rest ih =>
    rcases List.mem_cons.mp hmem with h0 | h1
    · unfold specLookup
      rw [← h0, List.find?_cons_of_pos _ (by simp)]
      rfl
    · have hpk : p.1 ≠ k := by
        intro hcon
        rw [List.map_cons, List.nodup_cons] at hnd
        exact hnd.1 (hcon ▸ List.mem_map_of_mem Prod.fst h1)
      unfold specLookup
      rw [List.find?_cons_of_neg _ (by simp [hpk])]
      have := ih (by rw [List.map_cons, List.nodup_cons] at hnd; exact hnd.2) h1
      exact this

/-- In the pure instantiation, `insert` never fails on an unfrozen,
non-iterating table, and acts as `specInsert` on the observable list. -/
theorem pure_insert_spec (hf : K → Nat) {ht : Hashtable K V}
    (inv : Inv (pureAPI hf) ht) (hfz : ht.frozen = false) (hit : ht.itercount = 0)
    (k : K) (v : V) (f : Nat) :
    (insert (pureAPI hf) (f + 2) ht k v).2 = none ∧
      Inv (pureAPI hf) (insert (pureAPI hf) (f + 2) ht k v).1 ∧
      obs (insert (pureAPI hf) (f + 2) ht k v).1 = specInsert (obs ht) k v ∧
      (insert (pureAPI hf) (f + 2) ht k v).1.frozen = false ∧
      (insert (pureAPI hf) (f + 2) ht k v).1.itercount = 0 := by
  obtain ⟨ht', res, hres⟩ : ∃ ht' res, insert (pureAPI hf) (f + 2) ht k v = (ht', res) :=
    ⟨_, _, rfl⟩
  rw [hres]
  obtain ⟨inv', hfz', hit', herr, hok⟩ := insert_char k v f inv ht' res hres
  have hresnone : res = none := by
    match res with
    | none => rfl
    | some e =>
      obtain ⟨-, -, hsrc⟩ := herr e rfl
      rcases hsrc with h1 | h1 | h1 | ⟨k', h1⟩
      · rw [hfz] at h1
        exact absurd h1 (by simp)
      · omega
      · rw [pure_hashKey] at h1
        exact absurd h1 (by simp)
      · exact absurd h1 (by simp [pureAPI])
  subst hresnone
  obtain ⟨-, -, h, hh, hcases⟩ := hok rfl
  have hhval : h = remapHash (hf k) := by
    rw [pure_hashKey] at hh
    exact ((Except.ok.injEq _ _).mp hh).symm
  refine ⟨rfl, inv', ?_, by rw [hfz', hfz], by rw [hit', hit]⟩
  rcases hcases with ⟨e, A, B, heqk, hhash, hold, hnew, -⟩ | ⟨hnm, hnew, -⟩
  · have hke : k = e.key := by
      simp only [pureAPI, Except.ok.injEq, decide_eq_true_eq] at heqk
      exact heqk
    rw [← hke] at hold hnew
    have hnd := pure_keys_nodup hf inv
    rw [hold] at hnd
    have hkA : k ∉ A.map Prod.fst := by
      intro hcon
      rw [List.map_append, List.map_cons, List.nodup_append] at hnd
      exact hnd.2.2 hcon (List.mem_cons_self _ _)
    rw [hnew, hold, specInsert_split e.value v hkA]
  · have hknot : k ∉ (obs ht).map Prod.fst := by
      rw [hhval] at hnm
      exact (pure_noMatch_iff hf inv k).mp hnm
    rw [hnew, specInsert_not_mem v hknot]

/-- In the pure instantiation, `delete` never fails on an unfrozen,
non-iterating table: it returns the value the key had (if any) and acts as
`specDelete` on the observable list. -/
theorem pure_delete_spec (hf : K → Nat) {ht : Hashtable K V}
    (inv : Inv (pureAPI hf) ht) (hfz : ht.frozen = false) (hit : ht.itercount = 0)
    (k : K) :
    (delete (pureAPI hf) ht k).2 = .ok (specLookup (obs ht) k) ∧
      Inv (pureAPI hf) (delete (pureAPI hf) ht k).1 ∧
      obs (delete (pureAPI hf) ht k).1 = specDelete (obs ht) k ∧
      (delete (pureAPI hf) ht k).1.frozen = false ∧
      (delete (pureAPI hf) ht k).1.itercount = 0 := by
  obtain ⟨ht', res, hres⟩ : ∃ ht' res, delete (pureAPI hf) ht k = (ht', res) :=
    ⟨_, _, rfl⟩
  rw [hres]
  obtain ⟨inv', hfz', hit', herr, hnone, hsome⟩ := delete_char k inv ht' res hres
  match res with
  | .error e =>
    obtain ⟨-, hsrc⟩ := herr e rfl
    rcases hsrc with h1 | h1 | h1 | ⟨k', h1⟩
    · rw [hfz] at h1
      exact absurd h1 (by simp)
    · omega
    · rw [pure_hashKey] at h1
      exact absurd h1 (by simp)
    · exact absurd h1 (by simp [pureAPI])
  | .ok none =>
    obtain ⟨hsame, hno⟩ := hnone rfl
    have hknot : k ∉ (obs ht).map Prod.fst := by
      rcases hno with hempty | ⟨h, hh, hnm⟩
      · rw [hempty]
        simp
      · have hhval : h = remapHash (hf k) := by
          rw [pure_hashKey] at hh
          exact ((Except.ok.injEq _ _).mp hh).symm
        rw [hhval] at hnm
        exact (pure_noMatch_iff hf inv k).mp hnm
    rw [specLookup_not_mem hknot]
    refine ⟨rfl, inv', ?_, by rw [hfz', hfz], by rw [hit', hit]⟩
    rw [hsame, specDelete_not_mem hknot]
  | .ok (some v0) =>
    obtain ⟨e, A, B, heqk, hv0, hold, hnew, -⟩ := hsome v0 rfl
    have hke : k = e.key := by
      simp only [pureAPI, Except.ok.injEq, decide_eq_true_eq] at heqk
      exact heqk
    rw [← hke] at hold
    have hnd := pure_keys_nodup hf inv
    rw [hold] at hnd
    have hkA : k ∉ A.map Prod.fst := by
      intro hcon
      rw [List.map_append, List.map_cons, List.nodup_append] at hnd
      exact hnd.2.2 hcon (List.mem_cons_self _ _)
    have hkB : k ∉ B.map Prod.fst := by
      intro hcon
      rw [List.map_append, List.map_cons, List.nodup_append] at hnd
      have := hnd.2.1
      rw [List.nodup_cons] at this
      exact this.1 hcon
    have hnd0 := pure_keys_nodup hf inv
    have hlook : specLookup (obs ht) k = some e.value := by
      apply specLookup_mem hnd0
      rw [hold]
      exact List.mem_append.mpr (Or.inr (List.mem_cons_self _ _))
    rw [hlook, hv0]
    refine ⟨rfl, inv', ?_, by rw [hfz', hfz], by rw [hit', hit]⟩
    rw [hnew, hold, specDelete_split e.value hkA hkB]

/-- In the pure instantiation, `lookup` computes `specLookup` on the
observable list. -/
theorem pure_lookup_spec (hf : K → Nat) {ht : Hashtable K V}
    (inv : Inv (pureAPI hf) ht) (k : K) :
    lookup (pureAPI hf) ht k = .ok (specLookup (obs ht) k) := by
  have hunf : lookup (pureAPI hf) ht k =
      (if ht.table.isEmpty then Except.ok none
       else
         match scanSlots (pureAPI (V := V) hf).eqFn (remapHash (hf k)) k
           (chainSlots (chainIdx (remapHash (hf k)) ht.table.length) 0
             (ht.table.getD (chainIdx (remapHash (hf k)) ht.table.length) [])) none with
         | .error e => .error e
         | .ok (.found _ e) => .ok (some e.value)
         | .ok (.notFound _) => .ok none) := by
    rw [lookup]
    rfl
  rw [hunf]
  by_cases hemp : ht.table.isEmpty
  · have htnil := List.isEmpty_iff.mp hemp
    have hobsnil : obs ht = [] := by
      simp [obs, obsEntries, inv.order_nil_of_table_nil htnil]
    rw [hobsnil]
    simp [hemp, specLookup]
  · simp only [hemp, Bool.false_eq_true, if_false]
    by_cases hk : k ∈ (obs ht).map Prod.fst
    · obtain ⟨p, hp, hpk⟩ := List.mem_map.mp hk
      obtain ⟨a, e, ha, hget, hkey, hval⟩ := obs_mem_slot inv hp
      have hek : e.key = k := by rw [hkey, hpk]
      have hhash : e.hash = remapHash (hf k) := by
        have := inv.hashOk a e hget
        rw [pure_hashKey] at this
        have h2 := (Except.ok.injEq _ _).mp this
        rw [← h2, hek]
      have hmem := mem_chainSlots_of_getSlot
        (validAddr_of_isSome (t := ht.table) (a := a) (by rw [hget]; rfl))
      rw [hget] at hmem
      have hci : a.1 = chainIdx (remapHash (hf k)) ht.table.length := by
        have := inv.placed a e hget
        rw [hhash] at this
        exact this
      rw [hci] at hmem
      have hrest : ∀ b e', ((b : Addr), (some e' : Slot K V)) ∈
          chainSlots (chainIdx (remapHash (hf k)) ht.table.length) 0
            (ht.table.getD (chainIdx (remapHash (hf k)) ht.table.length) []) →
          e'.hash = remapHash (hf k) → (b, e') ≠ (a, e) →
          (pureAPI (V := V) hf).eqFn k e'.key = .ok false := by
        intro b e' hmem' hh' hne
        obtain ⟨hget', -⟩ := getSlot_of_mem_chainSlots hmem'
        show Except.ok (decide (k = e'.key)) = .ok false
        by_cases hke' : k = e'.key
        · exfalso
          by_cases hab : b = a
          · subst hab
            rw [hget] at hget'
            have : e' = e := by
              have := (Option.some.injEq _ _).mp hget'
              exact this.symm
            exact hne (by rw [this])
          · have hbord : b ∈ ht.order := inv.fullOrd b (by rw [hget']; rfl)
            have haord : a ∈ ht.order := inv.fullOrd a (by rw [hget]; rfl)
            rcases pairwise_or inv.eqFalse hbord haord hab with hr | hr
            · have := hr e' e hget' hget (by rw [hhash, hh'])
              rw [hek, ← hke'] at this
              simp [pureAPI] at this
            · have := hr e e' hget hget' (by rw [hhash, hh'])
              rw [hek, ← hke'] at this
              simp [pureAPI] at this
        · simp [pureAPI, hke']
      have hscan := scan_found_of_unique (pureAPI (V := V) hf).eqFn
        (remapHash (hf k)) k hmem hhash
        (by show Except.ok (decide (k = e.key)) = .ok true; simp [hek])
        hrest none
      rw [hscan]
      have hplook : specLookup (obs ht) k = some p.2 := by
        apply specLookup_mem (pure_keys_nodup hf inv)
        rw [show ((k, p.2) : K × V) = p from by rw [← hpk]]
        exact hp
      show Except.ok (some e.value) = Except.ok (specLookup (obs ht) k)
      rw [hplook, hval]
    · have hnm := (pure_noMatch_iff hf inv k).mpr hk
      obtain ⟨c, hscan⟩ :=
        scan_notFound_of_noMatch_ht (chainIdx (remapHash (hf k)) ht.table.length) hnm
      rw [hscan]
      show Except.ok none = Except.ok (specLookup (obs ht) k)
      rw [specLookup_not_mem hk]

end PureLayer


theorem keysList_eq_obs_map {K V : Type} {ht : Hashtable K V} :
    keysList ht = (obs ht).map Prod.fst := by
  simp [keysList, obs, List.map_map, Function.comp]

section OpsLayer

variable {K V : Type} [DecidableEq K]

/-- Running a pure operation sequence preserves well-formedness and tracks
the association-list model step by step. -/
theorem pure_runOps (hf : K → Nat) (ops : List (TOp K V)) :
    ∀ (ht : Hashtable K V), Inv (pureAPI hf) ht → ht.frozen = false →
      ht.itercount = 0 →
      Inv (pureAPI hf) (runOps (pureAPI hf) ht ops) ∧
        (runOps (pureAPI hf) ht ops).frozen = false ∧
        (runOps (pureAPI hf) ht ops).itercount = 0 ∧
        obs (runOps (pureAPI hf) ht ops) = ops.foldl specOp (obs ht) := by
  induction ops with
  | nil =>
    intro ht inv hfz hit
    exact ⟨inv, hfz, hit, rfl⟩
  | cons op rest ih =>
    intro ht inv hfz hit
    match op with
    | .ins k v =>
      obtain ⟨-, inv', hobs', hfz', hit'⟩ :=
        pure_insert_spec hf inv hfz hit k v (ht.len + ht.table.length)
      have hrun : runOps (pureAPI hf) ht (.ins k v :: rest) =
          runOps (pureAPI hf)
            (insert (pureAPI hf) (ht.len + ht.table.length + 2) ht k v).1 rest := rfl
      rw [hrun]
      obtain ⟨g1, g2, g3, g4⟩ := ih _ inv' hfz' hit'
      refine ⟨g1, g2, g3, ?_⟩
      rw [g4, hobs']
      rfl
    | .del k =>
      obtain ⟨-, inv', hobs', hfz', hit'⟩ := pure_delete_spec hf inv hfz hit k
      have hrun : runOps (pureAPI hf) ht (.del k :: rest) =
          runOps (pureAPI hf) (delete (pureAPI hf) ht k).1 rest := rfl
      rw [hrun]
      obtain ⟨g1, g2, g3, g4⟩ := ih _ inv' hfz' hit'
      refine ⟨g1, g2, g3, ?_⟩
      rw [g4, hobs']
      rfl

theorem keys_specInsert (m : List (K × V)) (k : K) (v : V) :
    (specInsert m k v).map Prod.fst =
      if k ∈ m.map Prod.fst then m.map Prod.fst else m.map Prod.fst ++ [k] := by
  induction m with
  | nil => simp [specInsert]
  | cons p rest ih =>
    by_cases hpk : p.1 = k
    · simp [specInsert, hpk]
    · simp only [specInsert, hpk, if_false, List.map_cons, ih]
      have hmemiff : k ∈ p.1 :: rest.map Prod.fst ↔ k ∈ rest.map Prod.fst := by
        constructor
        · intro hm
          rcases List.mem_cons.mp hm with h1 | h2
          · exact absurd h1.symm hpk
          · exact h2
        · exact List.mem_cons_of_mem _
      by_cases hk : k ∈ rest.map Prod.fst
      · simp [hk, hmemiff]
      · simp [hk, hmemiff]

theorem length_specInsert (m : List (K × V)) (k : K) (v : V) :
    (specInsert m k v).length =
      if k ∈ m.map Prod.fst then m.length else m.length + 1 := by
  induction m with
  | nil => simp [specInsert]
  | cons p rest ih =>
    by_cases hpk : p.1 = k
    · simp [specInsert, hpk]
    · simp only [specInsert, hpk, if_false, List.length_cons, ih]
      have hmemiff : k ∈ p.1 :: rest.map Prod.fst ↔ k ∈ rest.map Prod.fst := by
        constructor
        · intro hm
          rcases List.mem_cons.mp hm with h1 | h2
          · exact absurd h1.symm hpk
          · exact h2
        · exact List.mem_cons_of_mem _
      by_cases hk : k ∈ rest.map Prod.fst
      · simp [hk, hmemiff]
      · simp [hk, hmemiff]

/-- The keys of the insert-only fold: every key not yet present is appended
at its first occurrence. -/
theorem foldl_specInsert_keys (ps : List (K × V)) :
    ∀ m : List (K × V),
      ((ps.foldl (fun m p => specInsert m p.1 p.2) m).map Prod.fst) =
        m.map Prod.fst ++
          (firstKeys (ps.map Prod.fst)).filter
            (fun x => decide (x ∉ m.map Prod.fst)) := by
  induction ps with
  | nil => intro m; simp [firstKeys]
  | cons p rest ih =>
    intro m
    simp only [List.foldl_cons, List.map_cons, firstKeys]
    rw [ih (specInsert m p.1 p.2)]
    rw [keys_specInsert]
    by_cases hp : p.1 ∈ m.map Prod.fst
    · rw [if_pos hp]
      rw [List.filter_cons]
      rw [if_neg (by simp [hp])]
      congr 1
      rw [List.filter_filter]
      apply List.filter_congr
      intro x _
      by_cases hxm : x ∈ m.map Prod.fst
      · simp [hxm]
      · have hxp : x ≠ p.1 := fun hcon => hxm (hcon ▸ hp)
        simp [hxm, hxp]
    · rw [if_neg hp]
      rw [List.filter_cons]
      rw [if_pos (by simp [hp])]
      rw [List.append_assoc, List.singleton_append]
      congr 1
      congr 1
      rw [List.filter_filter]
      apply List.filter_congr
      intro x _
      by_cases hxp : x = p.1
      · subst hxp
        simp
      · by_cases hxm : x ∈ m.map Prod.fst
        · simp [hxm, hxp]
        · simp [hxm, hxp]

/-- Folding `specInsert` over pairwise-distinct fresh keys just appends. -/
theorem foldl_specInsert_of_nodup (ps : List (K × V)) :
    ∀ m : List (K × V), ((m ++ ps).map Prod.fst).Nodup →
      ps.foldl (fun m p => specInsert m p.1 p.2) m = m ++ ps := by
  induction ps with
  | nil => intro m _; simp
  | cons p rest ih =>
    intro m hnd
    simp only [List.foldl_cons]
    have hp : p.1 ∉ m.map Prod.fst := by
      intro hcon
      rw [List.map_append, List.nodup_append] at hnd
      exact hnd.2.2 hcon (by simp)
    rw [specInsert_not_mem p.2 hp]
    have heq : (m ++ [p]) ++ rest = m ++ p :: rest := by
      rw [List.append_assoc, List.singleton_append]
    have : ((m ++ [p] ++ rest).map Prod.fst).Nodup := by
      rw [heq]
      exact hnd
    have hres := ih (m ++ [p]) this
    rw [show m ++ [(p.1, p.2)] = m ++ [p] from by simp]
    rw [hres, heq]

end OpsLayer

section IterNLemmas

variable {K V : Type}

theorem iterateN_eq {ht : Hashtable K V} (hfz : ht.frozen = false) :
    ∀ n, iterateN ht n = { ht with itercount := ht.itercount + n } := by
  intro n
  induction n with
  | zero => rfl
  | succ m ih =>
    show (iterate (iterateN ht m)).2 = _
    rw [ih, iterate_snd ({ ht with itercount := ht.itercount + m }) hfz]
    rfl

theorem iterDoneN_eq {ht : Hashtable K V} (hfz : ht.frozen = false) :
    ∀ n, iterDoneN ht n = { ht with itercount := ht.itercount - n } := by
  intro n
  induction n with
  | zero => rfl
  | succ m ih =>
    show iterDone (iterDoneN ht m) = _
    rw [ih]
    unfold iterDone
    rw [if_neg (by simp [hfz])]
    rfl

end IterNLemmas

section SpecModelLemmas

variable {K V : Type} [DecidableEq K]

theorem foldl_specOp_insOps (ps m : List (K × V)) :
    (insOps ps).foldl specOp m = ps.foldl (fun m p => specInsert m p.1 p.2) m := by
  unfold insOps
  rw [List.foldl_map]
  rfl

theorem specLookup_specInsert_self (m : List (K × V)) (k : K) (v : V) :
    specLookup (specInsert m k v) k = some v := by
  induction m with
  | nil =>
    unfold specInsert specLookup
    rw [List.find?_cons_of_pos _ (by simp)]
    rfl
  | cons p rest ih =>
    by_cases hpk : p.1 = k
    · unfold specInsert
      rw [if_pos hpk]
      unfold specLookup
      rw [List.find?_cons_of_pos _ (by simp)]
      rfl
    · unfold specInsert
      rw [if_neg hpk]
      unfold specLookup
      rw [List.find?_cons_of_neg _ (by simp [hpk])]
      exact ih

theorem specLookup_specDelete_self (m : List (K × V)) (k : K) :
    specLookup (specDelete m k) k = none := by
  apply specLookup_not_mem
  intro hmem
  obtain ⟨p, hp, hpk⟩ := List.mem_map.mp hmem
  rw [specDelete, List.mem_filter] at hp
  have h2 : p.1 ≠ k := by simpa using hp.2
  exact h2 hpk

end SpecModelLemmas

/-! ## The claims about the generic ordered hash table -/

/-- **C1.**  Lookup correctness over arbitrary operation sequences on hashable
keys: running any sequence of inserts and deletes from the empty table
(through any number of internal grows), `lookup k` returns exactly what the
association-list model prescribes; in the model, the most recently inserted
value for `k` is returned after an insert and not-found after a delete; and
inserting any number of distinct keys then looking each one up returns all
the original values. -/
theorem C1_lookup_correct {K V : Type} [DecidableEq K] (hf : K → Nat)
    (ops : List (TOp K V)) (k : K) (v : V) (m : List (K × V))
    (ps : List (K × V)) (hnd : (ps.map Prod.fst).Nodup) :
    lookup (pureAPI hf) (runOps (pureAPI hf) (mkHT K V) ops) k =
        .ok (specLookup (specOps ops) k) ∧
      specLookup (specInsert m k v) k = some v ∧
      specLookup (specDelete m k) k = none ∧
      ∀ p ∈ ps,
        lookup (pureAPI hf) (runOps (pureAPI hf) (mkHT K V) (insOps ps)) p.1 =
          .ok (some p.2) := by
  refine ⟨?_, specLookup_specInsert_self m k v, specLookup_specDelete_self m k, ?_⟩
  · obtain ⟨inv1, -, -, hobs1⟩ :=
      pure_runOps hf ops (mkHT K V) (Inv.mkHT (pureAPI hf)) rfl rfl
    rw [pure_lookup_spec hf inv1, hobs1]
    rfl
  · intro p hp
    obtain ⟨inv2, -, -, hobs2⟩ :=
      pure_runOps hf (insOps ps) (mkHT K V) (Inv.mkHT (pureAPI hf)) rfl rfl
    rw [pure_lookup_spec hf inv2, hobs2]
    have hobs : (insOps ps).foldl specOp (obs (mkHT K V)) = ps := by
      show (insOps ps).foldl specOp [] = ps
      rw [foldl_specOp_insOps]
      simpa using foldl_specInsert_of_nodup ps [] (by simpa using hnd)
    rw [hobs]
    exact congrArg Except.ok (specLookup_mem hnd (by simpa using hp))

/-- **C1** at a concrete instance: two inserts and a delete, then the
distinct-keys round trip. -/
theorem C1_lookup_correct_witness :
    (([(1, 10), (2, 20)] : List (Nat × Nat)).map Prod.fst).Nodup ∧
      (lookup (pureAPI id)
          (runOps (pureAPI id) (mkHT Nat Nat) [TOp.ins 1 10, TOp.del 1]) 1 =
          .ok (specLookup (specOps [TOp.ins 1 10, TOp.del 1]) 1) ∧
        specLookup (specInsert [(2, 7)] 1 5) 1 = some 5 ∧
        specLookup (specDelete [(2, 7)] 1) 1 = none ∧
        ∀ p ∈ ([(1, 10), (2, 20)] : List (Nat × Nat)),
          lookup (pureAPI id)
            (runOps (pureAPI id) (mkHT Nat Nat) (insOps [(1, 10), (2, 20)])) p.1 =
            .ok (some p.2)) :=
  ⟨by decide,
    C1_lookup_correct id [TOp.ins 1 10, TOp.del 1] 1 5 [(2, 7)]
      [(1, 10), (2, 20)] (by decide)⟩

/-- **C2.**  Insert-only sequences: iterating the resulting table yields the
keys in first-insertion order (`firstKeys`); and an insert whose key is
already present overwrites the value in place, changing neither the
iteration order nor the length. -/
theorem C2_insertion_order {K V : Type} [DecidableEq K] (hf : K → Nat)
    (ps : List (K × V)) (k : K) (v : V)
    (hk : k ∈ firstKeys (ps.map Prod.fst)) :
    (iterate (runOps (pureAPI hf) (mkHT K V) (insOps ps))).1 =
        firstKeys (ps.map Prod.fst) ∧
      keysList
          (insertD (pureAPI hf) (runOps (pureAPI hf) (mkHT K V) (insOps ps)) k v).1 =
        keysList (runOps (pureAPI hf) (mkHT K V) (insOps ps)) ∧
      (insertD (pureAPI hf) (runOps (pureAPI hf) (mkHT K V) (insOps ps)) k v).1.len =
        (runOps (pureAPI hf) (mkHT K V) (insOps ps)).len ∧
      lookup (pureAPI hf)
          (insertD (pureAPI hf) (runOps (pureAPI hf) (mkHT K V) (insOps ps)) k v).1 k =
        .ok (some v) := by
  obtain ⟨inv1, hfz1, hit1, hobs1⟩ :=
    pure_runOps hf (insOps ps) (mkHT K V) (Inv.mkHT (pureAPI hf)) rfl rfl
  have hobsps : obs (runOps (pureAPI hf) (mkHT K V) (insOps ps)) =
      ps.foldl (fun m p => specInsert m p.1 p.2) [] := by
    rw [hobs1]
    show (insOps ps).foldl specOp [] = _
    rw [foldl_specOp_insOps]
  have hkeys1 : keysList (runOps (pureAPI hf) (mkHT K V) (insOps ps)) =
      firstKeys (ps.map Prod.fst) := by
    rw [keysList_eq_obs_map, hobsps, foldl_specInsert_keys]
    simp
  have hkm : k ∈ (obs (runOps (pureAPI hf) (mkHT K V) (insOps ps))).map Prod.fst := by
    rw [← keysList_eq_obs_map, hkeys1]
    exact hk
  obtain ⟨-, inv2, hobs2, -, -⟩ :=
    pure_insert_spec hf inv1 hfz1 hit1 k v
      ((runOps (pureAPI hf) (mkHT K V) (insOps ps)).len +
        (runOps (pureAPI hf) (mkHT K V) (insOps ps)).table.length)
  have hinsD : insertD (pureAPI hf) (runOps (pureAPI hf) (mkHT K V) (insOps ps)) k v =
      insert (pureAPI hf)
        ((runOps (pureAPI hf) (mkHT K V) (insOps ps)).len +
          (runOps (pureAPI hf) (mkHT K V) (insOps ps)).table.length + 2)
        (runOps (pureAPI hf) (mkHT K V) (insOps ps)) k v := rfl
  refine ⟨?_, ?_, ?_, ?_⟩
  · rw [iterate_fst]
    exact hkeys1
  · rw [hinsD, keysList_eq_obs_map, hobs2, keys_specInsert, if_pos hkm,
      ← keysList_eq_obs_map]
  · rw [hinsD, ← obs_length inv2, hobs2, length_specInsert, if_pos hkm,
      obs_length inv1]
  · rw [hinsD, pure_lookup_spec hf inv2, hobs2, specLookup_specInsert_self]

/-- **C2** at a concrete instance: key 1 inserted twice keeps its first
position; overwriting key 2 preserves order, length, and stores the new
value. -/
theorem C2_insertion_order_witness :
    2 ∈ firstKeys (([(1, 10), (2, 20), (1, 30)] : List (Nat × Nat)).map Prod.fst) ∧
      ((iterate (runOps (pureAPI id) (mkHT Nat Nat)
            (insOps [(1, 10), (2, 20), (1, 30)]))).1 =
          firstKeys (([(1, 10), (2, 20), (1, 30)] : List (Nat × Nat)).map Prod.fst) ∧
        keysList (insertD (pureAPI id)
            (runOps (pureAPI id) (mkHT Nat Nat) (insOps [(1, 10), (2, 20), (1, 30)]))
            2 99).1 =
          keysList (runOps (pureAPI id) (mkHT Nat Nat)
            (insOps [(1, 10), (2, 20), (1, 30)])) ∧
        (insertD (pureAPI id)
            (runOps (pureAPI id) (mkHT Nat Nat) (insOps [(1, 10), (2, 20), (1, 30)]))
            2 99).1.len =
          (runOps (pureAPI id) (mkHT Nat Nat)
            (insOps [(1, 10), (2, 20), (1, 30)])).len ∧
        lookup (pureAPI id)
            (insertD (pureAPI id)
              (runOps (pureAPI id) (mkHT Nat Nat) (insOps [(1, 10), (2, 20), (1, 30)]))
              2 99).1 2 =
          .ok (some 99)) :=
  ⟨by decide, C2_insertion_order id [(1, 10), (2, 20), (1, 30)] 2 99 (by decide)⟩

/-- **C3.**  Freeze finality: after `freeze`, the frozen flag is set; every
`insert`, `delete`, and `clear` returns the corresponding frozen-mutation
error and leaves the table untouched; `lookup` still succeeds with the same
verdict (its found value frozen) and iteration still yields the same keys;
and a second `freeze` leaves the table in the same state as one. -/
theorem C3_freeze_finality {K V : Type} (api : ValueAPI K V) (ht : Hashtable K V)
    (hfk : ∀ x, api.freezeK x = x) (hfz : ht.frozen = false) (f : Nat)
    (k : K) (v : V) :
    (freezeHT api ht).frozen = true ∧
      insert api f (freezeHT api ht) k v = (freezeHT api ht, some .frozenInsert) ∧
      delete api (freezeHT api ht) k = (freezeHT api ht, .error .frozenDelete) ∧
      clear (freezeHT api ht) = (freezeHT api ht, some .frozenClear) ∧
      lookup api (freezeHT api ht) k = (lookup api ht k).map (Option.map api.freezeV) ∧
      (iterate (freezeHT api ht)).1 = keysList ht ∧
      freezeHT api (freezeHT api ht) = freezeHT api ht := by
  have hfzn := freezeHT_frozen api ht
  exact ⟨hfzn, insert_frozen hfzn f k v, delete_frozen hfzn k, clear_frozen hfzn,
    lookup_freezeHT hfk hfz k,
    by rw [iterate_fst]; exact keysList_freezeHT hfk,
    freezeHT_idem api ht⟩

/-- **C3** at a concrete instance: the empty table, frozen. -/
theorem C3_freeze_finality_witness :
    (∀ x : Nat, (pureAPI (V := Nat) id).freezeK x = x) ∧
      (mkHT Nat Nat).frozen = false ∧
      ((freezeHT (pureAPI id) (mkHT Nat Nat)).frozen = true ∧
        insert (pureAPI id) 5 (freezeHT (pureAPI id) (mkHT Nat Nat)) 1 2 =
          (freezeHT (pureAPI id) (mkHT Nat Nat), some .frozenInsert) ∧
        delete (pureAPI id) (freezeHT (pureAPI id) (mkHT Nat Nat)) 1 =
          (freezeHT (pureAPI id) (mkHT Nat Nat), .error .frozenDelete) ∧
        clear (freezeHT (pureAPI id) (mkHT Nat Nat)) =
          (freezeHT (pureAPI id) (mkHT Nat Nat), some .frozenClear) ∧
        lookup (pureAPI id) (freezeHT (pureAPI id) (mkHT Nat Nat)) 1 =
          (lookup (pureAPI id) (mkHT Nat Nat) 1).map
            (Option.map (pureAPI (V := Nat) id).freezeV) ∧
        (iterate (freezeHT (pureAPI id) (mkHT Nat Nat))).1 = keysList (mkHT Nat Nat) ∧
        freezeHT (pureAPI id) (freezeHT (pureAPI id) (mkHT Nat Nat)) =
          freezeHT (pureAPI id) (mkHT Nat Nat)) :=
  ⟨fun _ => rfl, rfl,
    C3_freeze_finality (pureAPI id) (mkHT Nat Nat) (fun _ => rfl) rfl 5 1 2⟩

/-- **C4.**  Iterator guard: on an unfrozen table with `n ≥ 1` outstanding
iterators, `insert`, `delete`, and `clear` all fail with the corresponding
active-iterator error and leave the table untouched; after all `n` iterators
are released with `Done`, the table is back in its original state and the
same insert succeeds. -/
theorem C4_iterator_guard {K V : Type} [DecidableEq K] (hf : K → Nat)
    (ht : Hashtable K V) (inv : Inv (pureAPI hf) ht) (hfz : ht.frozen = false)
    (hit : ht.itercount = 0) (n : Nat) (hn : 0 < n) (f : Nat) (k : K) (v : V) :
    insert (pureAPI hf) f (iterateN ht n) k v = (iterateN ht n, some .iterInsert) ∧
      delete (pureAPI hf) (iterateN ht n) k = (iterateN ht n, .error .iterDelete) ∧
      clear (iterateN ht n) = (iterateN ht n, some .iterClear) ∧
      iterDoneN (iterateN ht n) n = ht ∧
      (insertD (pureAPI hf) (iterDoneN (iterateN ht n) n) k v).2 = none := by
  have hN := iterateN_eq hfz n
  have hfz' : (iterateN ht n).frozen = false := by
    rw [hN]
    exact hfz
  have hit' : 0 < (iterateN ht n).itercount := by
    rw [hN]
    show 0 < ht.itercount + n
    omega
  have hrestore : iterDoneN (iterateN ht n) n = ht := by
    have h1 : iterDoneN (iterateN ht n) n =
        { ht with itercount := ht.itercount + n - n } := by
      rw [iterDoneN_eq hfz' n, hN]
    rw [h1, Nat.add_sub_cancel]
  refine ⟨insert_iterating hfz' hit' f k v, delete_iterating hfz' hit' k,
    clear_iterating hfz' hit', hrestore, ?_⟩
  rw [hrestore]
  exact (pure_insert_spec hf inv hfz hit k v (ht.len + ht.table.length)).1

/-- **C4** at a concrete instance: one iterator on the empty table. -/
theorem C4_iterator_guard_witness :
    Inv (pureAPI (V := Nat) id) (mkHT Nat Nat) ∧ (mkHT Nat Nat).frozen = false ∧
      (mkHT Nat Nat).itercount = 0 ∧ 0 < 1 ∧
      (insert (pureAPI id) 3 (iterateN (mkHT Nat Nat) 1) 1 2 =
          (iterateN (mkHT Nat Nat) 1, some .iterInsert) ∧
        delete (pureAPI id) (iterateN (mkHT Nat Nat) 1) 1 =
          (iterateN (mkHT Nat Nat) 1, .error .iterDelete) ∧
        clear (iterateN (mkHT Nat Nat) 1) =
          (iterateN (mkHT Nat Nat) 1, some .iterClear) ∧
        iterDoneN (iterateN (mkHT Nat Nat) 1) 1 = mkHT Nat Nat ∧
        (insertD (pureAPI id) (iterDoneN (iterateN (mkHT Nat Nat) 1) 1) 1 2).2 =
          none) :=
  ⟨Inv.mkHT (pureAPI id), rfl, rfl, by decide,
    C4_iterator_guard id (mkHT Nat Nat) (Inv.mkHT (pureAPI id)) rfl rfl 1
      (by decide) 3 1 2⟩

/-- **C10.**  Whenever `insert`, `delete`, or `clear` returns an error, the
table's observable state — entries in insertion order, keys, and length — is
exactly what it was before the call; and for `insert`/`delete` the error
really stems from a frozen table, an active iterator, an unhashable key, or
a key-equality comparison error during the scan. -/
theorem C10_error_leaves_state {K V : Type} (api : ValueAPI K V)
    (ht : Hashtable K V) (inv : Inv api ht) (k kd : K) (v : V) :
    (∀ e, (insertD api ht k v).2 = some e →
        obs (insertD api ht k v).1 = obs ht ∧
        keysList (insertD api ht k v).1 = keysList ht ∧
        (insertD api ht k v).1.len = ht.len ∧
        (ht.frozen = true ∨ 0 < ht.itercount ∨ hashKey api k = .error e ∨
          ∃ k', api.eqFn k k' = .error e)) ∧
      (∀ e, (delete api ht kd).2 = .error e → (delete api ht kd).1 = ht ∧
        (ht.frozen = true ∨ 0 < ht.itercount ∨ hashKey api kd = .error e ∨
          ∃ k', api.eqFn kd k' = .error e)) ∧
      (∀ e, (clear ht).2 = some e → (clear ht).1 = ht) := by
  refine ⟨?_, ?_, ?_⟩
  · intro e he
    obtain ⟨-, -, -, herr, -⟩ :=
      insert_char k v (ht.len + ht.table.length) inv
        (insertD api ht k v).1 (insertD api ht k v).2 rfl
    obtain ⟨hobs', hlen', hsrc⟩ := herr e he
    exact ⟨hobs', by rw [keysList_eq_obs_map, keysList_eq_obs_map, hobs'],
      hlen', hsrc⟩
  · intro e he
    obtain ⟨-, -, -, herr, -, -⟩ :=
      delete_char kd inv (delete api ht kd).1 (delete api ht kd).2 rfl
    exact herr e he
  · intro e he
    obtain ⟨-, -, -, herr, -⟩ := clear_char inv (clear ht).1 (clear ht).2 rfl
    exact herr (by rw [he]; exact Option.some_ne_none e)

/-- **C10** at a concrete instance: the empty table (the guards hold
vacuously when no error is returned, and the invariant hypothesis is
discharged by the empty table). -/
theorem C10_error_leaves_state_witness :
    Inv (pureAPI (V := Nat) id) (mkHT Nat Nat) ∧
      ((∀ e, (insertD (pureAPI id) (mkHT Nat Nat) 1 2).2 = some e →
          obs (insertD (pureAPI id) (mkHT Nat Nat) 1 2).1 = obs (mkHT Nat Nat) ∧
          keysList (insertD (pureAPI id) (mkHT Nat Nat) 1 2).1 =
            keysList (mkHT Nat Nat) ∧
          (insertD (pureAPI id) (mkHT Nat Nat) 1 2).1.len = (mkHT Nat Nat).len ∧
          ((mkHT Nat Nat).frozen = true ∨ 0 < (mkHT Nat Nat).itercount ∨
            hashKey (pureAPI (V := Nat) id) 1 = .error e ∨
            ∃ k', (pureAPI (V := Nat) id).eqFn 1 k' = .error e)) ∧
        (∀ e, (delete (pureAPI id) (mkHT Nat Nat) 3).2 = .error e →
          (delete (pureAPI id) (mkHT Nat Nat) 3).1 = mkHT Nat Nat ∧
          ((mkHT Nat Nat).frozen = true ∨ 0 < (mkHT Nat Nat).itercount ∨
            hashKey (pureAPI (V := Nat) id) 3 = .error e ∨
            ∃ k', (pureAPI (V := Nat) id).eqFn 3 k' = .error e)) ∧
        (∀ e, (clear (mkHT Nat Nat)).2 = some e →
          (clear (mkHT Nat Nat)).1 = mkHT Nat Nat)) :=
  ⟨Inv.mkHT (pureAPI id),
    C10_error_leaves_state (pureAPI id) (mkHT Nat Nat) (Inv.mkHT (pureAPI id)) 1 3 2⟩


section StrOrder


theorem strLe_refl (a : String) : strLe a a = true := by
  unfold strLe strLt
  rw [charsLt_irrefl]
  rfl


theorem strLt_of_le_of_ne {a b : String} (h : strLe a b = true) (hne : a ≠ b) :
    strLt a b = true := by
  unfold strLe strLt at h
  unfold strLt
  rw [Bool.not_eq_true'] at h
  rcases hc : charsLt a.data b.data with _ | _
  · exact absurd (string_eq_of_data_eq (charsLt_eq_of_not _ _ hc h)) hne
  · rfl

theorem strLt_asymm {a b : String} (h : strLt a b = true) : strLt b a = false :=
  charsLt_asymm h

theorem strLt_trans {a b c : String} (h1 : strLt a b = true)
    (h2 : strLt b c = true) : strLt a c = true :=
  charsLt_trans _ _ _ h1 h2

theorem strLt_irrefl (a : String) : strLt a a = false := charsLt_irrefl _


theorem pairwise_strLt_of_le_nodup {l : List String}
    (hs : l.Pairwise (fun a b => strLe a b = true)) (hnd : l.Nodup) :
    l.Pairwise (fun a b => strLt a b = true) :=
  (hs.and hnd).imp (fun h => strLt_of_le_of_ne h.1 h.2)

end StrOrder

/-! ## Construction lemmas for the struct layer -/

section StructLemmas

theorem Inv_htInit_fresh {K V : Type} (api : ValueAPI K V) (n : Nat) :
    Inv api (htInit (mkHT K V) n) :=
  Inv.of_all_empty api _ rfl rfl (fun a => getSlot_initTable n a)

theorem runOps_insOps_fresh {K V : Type} [DecidableEq K] (hf : K → Nat) (n : Nat)
    (ps : List (K × V)) (hnd : (ps.map Prod.fst).Nodup) :
    Inv (pureAPI hf) (runOps (pureAPI hf) (htInit (mkHT K V) n) (insOps ps)) ∧
      obs (runOps (pureAPI hf) (htInit (mkHT K V) n) (insOps ps)) = ps ∧
      (runOps (pureAPI hf) (htInit (mkHT K V) n) (insOps ps)).len = ps.length ∧
      (runOps (pureAPI hf) (htInit (mkHT K V) n) (insOps ps)).frozen = false ∧
      (runOps (pureAPI hf) (htInit (mkHT K V) n) (insOps ps)).itercount = 0 := by
  obtain ⟨inv, hfz, hit, hobs⟩ :=
    pure_runOps hf (insOps ps) (htInit (mkHT K V) n) (Inv_htInit_fresh _ n) rfl rfl
  have hobs2 : obs (runOps (pureAPI hf) (htInit (mkHT K V) n) (insOps ps)) = ps := by
    rw [hobs]
    show (insOps ps).foldl specOp [] = ps
    rw [foldl_specOp_insOps]
    simpa using foldl_specInsert_of_nodup ps [] (by simpa using hnd)
  refine ⟨inv, hobs2, ?_, hfz, hit⟩
  rw [← obs_length inv, hobs2]

theorem dictKeys_sorted (d : List (String × SVal)) :
    (dictKeys d).Pairwise (fun a b => strLe a b = true) :=
  List.sorted_insertionSort _ _

theorem dictKeys_perm (d : List (String × SVal)) :
    List.Perm (dictKeys d) (d.map Prod.fst) :=
  List.perm_insertionSort _ _

theorem dictKeys_nodup {d : List (String × SVal)}
    (hnd : (d.map Prod.fst).Nodup) : (dictKeys d).Nodup :=
  (dictKeys_perm d).nodup_iff.mpr hnd

theorem dictKeys_pairwise_lt {d : List (String × SVal)}
    (hnd : (d.map Prod.fst).Nodup) :
    (dictKeys d).Pairwise (fun a b => strLt a b = true) :=
  pairwise_strLt_of_le_nodup (dictKeys_sorted d) (dictKeys_nodup hnd)

theorem sortedFields_map_fst (d : List (String × SVal)) :
    (sortedFields d).map Prod.fst = dictKeys d := by
  simp only [sortedFields, List.map_map]
  exact List.map_id _ ▸ List.map_congr_left (fun k _ => rfl)

/-- What `FromStringDict` builds: the sorted field list, a well-formed pure
table, the matching length, and the given constructor. -/
theorem fromStringDict_spec (ctor : SVal) (d : List (String × SVal))
    (hnd : (d.map Prod.fst).Nodup) :
    obs (fromStringDict ctor d).ht = sortedFields d ∧
      Inv strAPI (fromStringDict ctor d).ht ∧
      (fromStringDict ctor d).ht.len = (sortedFields d).length ∧
      (fromStringDict ctor d).constructor = ctor := by
  have hnd2 : ((sortedFields d).map Prod.fst).Nodup := by
    rw [sortedFields_map_fst]
    exact dictKeys_nodup hnd
  obtain ⟨inv, hobs, hlen, -, -⟩ :=
    runOps_insOps_fresh hashString d.length (sortedFields d) hnd2
  exact ⟨hobs, inv, hlen, rfl⟩

theorem specLookup_cons_ne {K V : Type} [DecidableEq K] (p : K × V)
    (m : List (K × V)) {k : K} (h : p.1 ≠ k) :
    specLookup (p :: m) k = specLookup m k := by
  unfold specLookup
  rw [List.find?_cons_of_neg _ (by simp [h])]

theorem specLookup_cons_self {K V : Type} [DecidableEq K] (k : K) (v : V)
    (m : List (K × V)) : specLookup ((k, v) :: m) k = some v := by
  unfold specLookup
  rw [List.find?_cons_of_pos _ (by simp)]
  rfl

/-- Keys of the merge walk: strictly sorted when both inputs are, and the
union of the two key sets. -/
theorem mergePairs_keys :
    ∀ (xs ys : List (String × SVal)),
      (xs.map Prod.fst).Pairwise (fun a b => strLt a b = true) →
      (ys.map Prod.fst).Pairwise (fun a b => strLt a b = true) →
      ((mergePairs xs ys).map Prod.fst).Pairwise (fun a b => strLt a b = true) ∧
      ∀ k : String, k ∈ (mergePairs xs ys).map Prod.fst ↔
        (k ∈ xs.map Prod.fst ∨ k ∈ ys.map Prod.fst)
  | [], ys, _, hy => by
    simp only [mergePairs]
    exact ⟨hy, fun k => by simp⟩
  | p :: xs, [], hx, _ => by
    simp only [mergePairs]
    exact ⟨hx, fun k => by simp⟩
  | (kx, vx) :: xs, (ky, vy) :: ys, hx, hy => by
    rw [List.map_cons] at hx hy
    obtain ⟨hxk, hx'⟩ := List.pairwise_cons.mp hx
    obtain ⟨hyk, hy'⟩ := List.pairwise_cons.mp hy
    by_cases hlt : strLt kx ky = true
    · have hmp : mergePairs ((kx, vx) :: xs) ((ky, vy) :: ys) =
          (kx, vx) :: mergePairs xs ((ky, vy) :: ys) := by
        simp only [mergePairs]
        rw [if_pos hlt]
      obtain ⟨ihp, ihm⟩ := mergePairs_keys xs ((ky, vy) :: ys) hx' hy
      rw [hmp, List.map_cons]
      constructor
      · rw [List.pairwise_cons]
        refine ⟨?_, ihp⟩
        intro b hb
        rcases (ihm b).mp hb with hbx | hby
        · exact hxk b hbx
        · rw [List.map_cons, List.mem_cons] at hby
          rcases hby with h1 | h1
          · rw [h1]
            exact hlt
          · exact strLt_trans hlt (hyk b h1)
      · intro k
        rw [List.mem_cons, ihm k]
        simp only [List.map_cons, List.mem_cons]
        tauto
    · by_cases heq : kx = ky
      · subst heq
        have hmp : mergePairs ((kx, vx) :: xs) ((kx, vy) :: ys) =
            (kx, vy) :: mergePairs xs ys := by
          simp only [mergePairs]
          rw [if_neg hlt, if_pos True.intro]
        obtain ⟨ihp, ihm⟩ := mergePairs_keys xs ys hx' hy'
        rw [hmp, List.map_cons]
        constructor
        · rw [List.pairwise_cons]
          refine ⟨?_, ihp⟩
          intro b hb
          rcases (ihm b).mp hb with hbx | hby
          · exact hxk b hbx
          · exact hyk b hby
        · intro k
          rw [List.mem_cons, ihm k]
          simp only [List.map_cons, List.mem_cons]
          tauto
      · have hlt' : strLt ky kx = true := by
          have hle : strLe ky kx = true := by
            unfold strLe
            rw [Bool.not_eq_true] at hlt
            rw [hlt]
            rfl
          exact strLt_of_le_of_ne hle (fun hcon => heq hcon.symm)
        have hmp : mergePairs ((kx, vx) :: xs) ((ky, vy) :: ys) =
            (ky, vy) :: mergePairs ((kx, vx) :: xs) ys := by
          simp only [mergePairs]
          rw [if_neg hlt, if_neg heq]
        obtain ⟨ihp, ihm⟩ := mergePairs_keys ((kx, vx) :: xs) ys hx hy'
        rw [hmp, List.map_cons]
        constructor
        · rw [List.pairwise_cons]
          refine ⟨?_, ihp⟩
          intro b hb
          rcases (ihm b).mp hb with hbx | hby
          · rw [List.map_cons, List.mem_cons] at hbx
            rcases hbx with h1 | h1
            · rw [h1]
              exact hlt'
            · exact strLt_trans hlt' (hxk b h1)
          · exact hyk b hby
        · intro k
          rw [List.mem_cons, ihm k]
          simp only [List.map_cons, List.mem_cons]
          tauto
termination_by xs ys _ _ => xs.length + ys.length

/-- Values of the merge walk: the right operand wins on keys it holds; keys
it lacks fall through to the left operand. -/
theorem specLookup_mergePairs :
    ∀ (xs ys : List (String × SVal)),
      (xs.map Prod.fst).Pairwise (fun a b => strLt a b = true) →
      (ys.map Prod.fst).Pairwise (fun a b => strLt a b = true) →
      ∀ k : String,
        (k ∈ ys.map Prod.fst →
          specLookup (mergePairs xs ys) k = specLookup ys k) ∧
        (k ∉ ys.map Prod.fst →
          specLookup (mergePairs xs ys) k = specLookup xs k)
  | [], ys, _, _, k => by
    simp only [mergePairs]
    refine ⟨fun _ => trivial, fun hk => ?_⟩
    rw [specLookup_not_mem hk]
    rfl
  | p :: xs, [], _, _, k => by
    simp only [mergePairs]
    exact ⟨fun hk => by simp at hk, fun _ => trivial⟩
  | (kx, vx) :: xs, (ky, vy) :: ys, hx, hy, k => by
    rw [List.map_cons] at hx hy
    obtain ⟨hxk, hx'⟩ := List.pairwise_cons.mp hx
    obtain ⟨hyk, hy'⟩ := List.pairwise_cons.mp hy
    by_cases hlt : strLt kx ky = true
    · have hmp : mergePairs ((kx, vx) :: xs) ((ky, vy) :: ys) =
          (kx, vx) :: mergePairs xs ((ky, vy) :: ys) := by
        simp only [mergePairs]
        rw [if_pos hlt]
      obtain ⟨ih1, ih2⟩ := specLookup_mergePairs xs ((ky, vy) :: ys) hx' hy k
      constructor
      · intro hk
        have hkne : kx ≠ k := by
          intro hcon
          subst hcon
          rw [List.map_cons, List.mem_cons] at hk
          rcases hk with h1 | h1
          · rw [h1] at hlt
            rw [strLt_irrefl] at hlt
            exact absurd hlt (by simp)
          · have := strLt_trans hlt (hyk kx h1)
            rw [strLt_irrefl] at this
            exact absurd this (by simp)
        rw [hmp, specLookup_cons_ne (kx, vx) _ hkne]
        exact ih1 hk
      · intro hk
        by_cases hkx : kx = k
        · subst hkx
          rw [hmp, specLookup_cons_self, specLookup_cons_self]
        · rw [hmp, specLookup_cons_ne (kx, vx) _ hkx,
            specLookup_cons_ne (kx, vx) _ hkx]
          exact ih2 hk
    · by_cases heq : kx = ky
      · subst heq
        have hmp : mergePairs ((kx, vx) :: xs) ((kx, vy) :: ys) =
            (kx, vy) :: mergePairs xs ys := by
          simp only [mergePairs]
          rw [if_neg hlt, if_pos True.intro]
        obtain ⟨ih1, ih2⟩ := specLookup_mergePairs xs ys hx' hy' k
        constructor
        · intro hk
          by_cases hkx : kx = k
          · subst hkx
            rw [hmp, specLookup_cons_self, specLookup_cons_self]
          · rw [hmp, specLookup_cons_ne (kx, vy) _ hkx,
              specLookup_cons_ne (kx, vy) _ hkx]
            rw [List.map_cons, List.mem_cons] at hk
            rcases hk with h1 | h1
            · exact absurd h1.symm hkx
            · exact ih1 h1
        · intro hk
          rw [List.map_cons, List.mem_cons] at hk
          push_neg at hk
          obtain ⟨hkx, hky⟩ := hk
          have hkx' : kx ≠ k := fun hcon => hkx hcon.symm
          rw [hmp, specLookup_cons_ne (kx, vy) _ hkx',
            specLookup_cons_ne (kx, vx) _ hkx']
          exact ih2 hky
      · have hmp : mergePairs ((kx, vx) :: xs) ((ky, vy) :: ys) =
            (ky, vy) :: mergePairs ((kx, vx) :: xs) ys := by
          simp only [mergePairs]
          rw [if_neg hlt, if_neg heq]
        obtain ⟨ih1, ih2⟩ := specLookup_mergePairs ((kx, vx) :: xs) ys hx hy' k
        constructor
        · intro hk
          by_cases hky : ky = k
          · subst hky
            rw [hmp, specLookup_cons_self, specLookup_cons_self]
          · rw [hmp, specLookup_cons_ne (ky, vy) _ hky,
              specLookup_cons_ne (ky, vy) _ hky]
            rw [List.map_cons, List.mem_cons] at hk
            rcases hk with h1 | h1
            · exact absurd h1.symm hky
            · exact ih1 h1
        · intro hk
          rw [List.map_cons, List.mem_cons] at hk
          push_neg at hk
          obtain ⟨hky, hkys⟩ := hk
          have hky' : ky ≠ k := fun hcon => hky hcon.symm
          rw [hmp, specLookup_cons_ne (ky, vy) _ hky']
          exact ih2 hkys
termination_by xs ys _ _ _ => xs.length + ys.length

theorem nodup_of_pairwise_strLt {l : List String}
    (h : l.Pairwise (fun a b => strLt a b = true)) : l.Nodup :=
  h.imp (fun hab hcon => by
    subst hcon
    rw [strLt_irrefl] at hab
    exact absurd hab (by simp))

/-- What the merge walk's table holds: exactly the merged pair sequence. -/
theorem mergeHT_spec {tx ty : Hashtable String SVal}
    (hx : ((obs tx).map Prod.fst).Pairwise (fun a b => strLt a b = true))
    (hy : ((obs ty).map Prod.fst).Pairwise (fun a b => strLt a b = true)) :
    obs (mergeHT tx ty) = mergePairs (obs tx) (obs ty) ∧
      Inv strAPI (mergeHT tx ty) := by
  have hnd : ((mergePairs (obs tx) (obs ty)).map Prod.fst).Nodup :=
    nodup_of_pairwise_strLt (mergePairs_keys _ _ hx hy).1
  obtain ⟨inv, hobs, -, -, -⟩ :=
    runOps_insOps_fresh hashString (tx.len + ty.len)
      (mergePairs (obs tx) (obs ty)) hnd
  exact ⟨hobs, inv⟩

/-- A successful struct addition comes from an equal-comparing constructor
pair and is the merged struct. -/
theorem structBinaryPlus_ok {x y s : Struct}
    (hs : structBinary x Token.plus y Side.left = .ok (some s)) :
    starlarkEqual x.constructor y.constructor = .ok true ∧
      s = ⟨x.constructor, mergeHT x.ht y.ht⟩ := by
  have hs' : structBinaryPlus x y = .ok (some s) := hs
  unfold structBinaryPlus at hs'
  rcases hceq : starlarkEqual x.constructor y.constructor with e | b
  · rw [hceq] at hs'
    simp at hs'
  · rcases b with _ | _
    · rw [hceq] at hs'
      simp at hs'
    · rw [hceq] at hs'
      simp only [Except.ok.injEq, Option.some.injEq] at hs'
      exact ⟨rfl, hs'.symm⟩


end StructLemmas

/-- **C5.**  The struct merge ("+"): when the constructors compare equal the
result keeps the constructor and its fields are the union of both field
sets in ascending lexicographic key order, with the right operand's value
taken for every key present in both; when they compare unequal the
operation fails with the constructor-mismatch error naming both
constructors; and an error from the constructor comparison itself is
propagated, wrapped with both constructor renderings. -/
theorem C5_merge (x y : Struct)
    (hx : ((obs x.ht).map Prod.fst).Pairwise (fun a b => strLt a b = true))
    (hy : ((obs y.ht).map Prod.fst).Pairwise (fun a b => strLt a b = true)) :
    (∀ s, structBinary x Token.plus y Side.left = .ok (some s) →
        s.constructor = x.constructor ∧
        obs s.ht = mergePairs (obs x.ht) (obs y.ht) ∧
        ((obs s.ht).map Prod.fst).Pairwise (fun a b => strLt a b = true) ∧
        (∀ k, k ∈ (obs s.ht).map Prod.fst ↔
          (k ∈ (obs x.ht).map Prod.fst ∨ k ∈ (obs y.ht).map Prod.fst)) ∧
        (∀ k, k ∈ (obs y.ht).map Prod.fst →
          specLookup (obs s.ht) k = specLookup (obs y.ht) k) ∧
        (∀ k, k ∉ (obs y.ht).map Prod.fst →
          specLookup (obs s.ht) k = specLookup (obs x.ht) k)) ∧
      (starlarkEqual x.constructor y.constructor = .ok true →
        structBinary x Token.plus y Side.left =
          .ok (some ⟨x.constructor, mergeHT x.ht y.ht⟩)) ∧
      (starlarkEqual x.constructor y.constructor = .ok false →
        structBinary x Token.plus y Side.left =
          .error (.ctorMismatch (svalString x.constructor)
            (svalString y.constructor))) ∧
      (∀ e, starlarkEqual x.constructor y.constructor = .error e →
        structBinary x Token.plus y Side.left =
          .error (.ctorCmpError (svalString x.constructor)
            (svalString y.constructor) e)) ∧
      structBinary x Token.plus y Side.right =
        structBinary y Token.plus x Side.left := by
  refine ⟨?_, ?_, ?_, ?_, rfl⟩
  · intro s hs
    obtain ⟨hceq, hseq⟩ := structBinaryPlus_ok hs
    subst hseq
    obtain ⟨hobs, -⟩ := mergeHT_spec hx hy
    obtain ⟨hpw, hmem⟩ := mergePairs_keys _ _ hx hy
    refine ⟨rfl, hobs, ?_, ?_, ?_, ?_⟩
    · rw [hobs]
      exact hpw
    · intro k
      rw [hobs]
      exact hmem k
    · intro k hk
      rw [hobs]
      exact (specLookup_mergePairs _ _ hx hy k).1 hk
    · intro k hk
      rw [hobs]
      exact (specLookup_mergePairs _ _ hx hy k).2 hk
  · intro hceq
    show structBinaryPlus x y = _
    unfold structBinaryPlus
    rw [hceq]
  · intro hceq
    show structBinaryPlus x y = _
    unfold structBinaryPlus
    rw [hceq]
  · intro e hceq
    show structBinaryPlus x y = _
    unfold structBinaryPlus
    rw [hceq]

/-- **C5** at a concrete instance: two one-field structs with the default
constructor. -/
theorem C5_merge_witness :
    ((obs (⟨SVal.str "struct", oneFieldHT "a" (.int 1)⟩ : Struct).ht).map
        Prod.fst).Pairwise (fun a b => strLt a b = true) ∧
      ((obs (⟨SVal.str "struct", oneFieldHT "b" (.int 2)⟩ : Struct).ht).map
        Prod.fst).Pairwise (fun a b => strLt a b = true) ∧
      ((∀ s, structBinary ⟨SVal.str "struct", oneFieldHT "a" (.int 1)⟩ Token.plus
          ⟨SVal.str "struct", oneFieldHT "b" (.int 2)⟩ Side.left = .ok (some s) →
          s.constructor = (⟨SVal.str "struct", oneFieldHT "a" (.int 1)⟩ : Struct).constructor ∧
          obs s.ht = mergePairs (obs (oneFieldHT "a" (.int 1)))
            (obs (oneFieldHT "b" (.int 2))) ∧
          ((obs s.ht).map Prod.fst).Pairwise (fun a b => strLt a b = true) ∧
          (∀ k, k ∈ (obs s.ht).map Prod.fst ↔
            (k ∈ (obs (oneFieldHT "a" (.int 1))).map Prod.fst ∨
              k ∈ (obs (oneFieldHT "b" (.int 2))).map Prod.fst)) ∧
          (∀ k, k ∈ (obs (oneFieldHT "b" (.int 2))).map Prod.fst →
            specLookup (obs s.ht) k = specLookup (obs (oneFieldHT "b" (.int 2))) k) ∧
          (∀ k, k ∉ (obs (oneFieldHT "b" (.int 2))).map Prod.fst →
            specLookup (obs s.ht) k = specLookup (obs (oneFieldHT "a" (.int 1))) k)) ∧
        (starlarkEqual (SVal.str "struct") (SVal.str "struct") = .ok true →
          structBinary ⟨SVal.str "struct", oneFieldHT "a" (.int 1)⟩ Token.plus
            ⟨SVal.str "struct", oneFieldHT "b" (.int 2)⟩ Side.left =
            .ok (some ⟨SVal.str "struct",
              mergeHT (oneFieldHT "a" (.int 1)) (oneFieldHT "b" (.int 2))⟩)) ∧
        (starlarkEqual (SVal.str "struct") (SVal.str "struct") = .ok false →
          structBinary ⟨SVal.str "struct", oneFieldHT "a" (.int 1)⟩ Token.plus
            ⟨SVal.str "struct", oneFieldHT "b" (.int 2)⟩ Side.left =
            .error (.ctorMismatch (svalString (SVal.str "struct"))
              (svalString (SVal.str "struct")))) ∧
        (∀ e, starlarkEqual (SVal.str "struct") (SVal.str "struct") = .error e →
          structBinary ⟨SVal.str "struct", oneFieldHT "a" (.int 1)⟩ Token.plus
            ⟨SVal.str "struct", oneFieldHT "b" (.int 2)⟩ Side.left =
            .error (.ctorCmpError (svalString (SVal.str "struct"))
              (svalString (SVal.str "struct")) e)) ∧
        structBinary ⟨SVal.str "struct", oneFieldHT "a" (.int 1)⟩ Token.plus
            ⟨SVal.str "struct", oneFieldHT "b" (.int 2)⟩ Side.right =
          structBinary ⟨SVal.str "struct", oneFieldHT "b" (.int 2)⟩ Token.plus
            ⟨SVal.str "struct", oneFieldHT "a" (.int 1)⟩ Side.left) :=
  ⟨by decide, by decide,
    C5_merge ⟨SVal.str "struct", oneFieldHT "a" (.int 1)⟩
      ⟨SVal.str "struct", oneFieldHT "b" (.int 2)⟩ (by decide) (by decide)⟩

/-- **C6.**  Field keys are stored in ascending lexicographic order:
construction sorts the caller's mapping (so permutations of the mapping
give the same key sequence), merge preserves sortedness, and `attrNames`
returns exactly that sorted sequence. -/
theorem C6_sorted_keys (ctor : SVal) (d d' : List (String × SVal))
    (hnd : (d.map Prod.fst).Nodup) (hnd' : (d'.map Prod.fst).Nodup)
    (hperm : List.Perm d d') (x y s : Struct)
    (hx : ((obs x.ht).map Prod.fst).Pairwise (fun a b => strLt a b = true))
    (hy : ((obs y.ht).map Prod.fst).Pairwise (fun a b => strLt a b = true))
    (hs : structBinary x Token.plus y Side.left = .ok (some s)) :
    attrNames (fromStringDict ctor d) = dictKeys d ∧
      (attrNames (fromStringDict ctor d)).Pairwise (fun a b => strLt a b = true) ∧
      attrNames (fromStringDict ctor d') = attrNames (fromStringDict ctor d) ∧
      (attrNames s).Pairwise (fun a b => strLt a b = true) := by
  have hkeys : ∀ (e : List (String × SVal)), (e.map Prod.fst).Nodup →
      attrNames (fromStringDict ctor e) = dictKeys e := by
    intro e hnde
    obtain ⟨hobs, -, -, -⟩ := fromStringDict_spec ctor e hnde
    show keysList (fromStringDict ctor e).ht = _
    rw [keysList_eq_obs_map, hobs, sortedFields_map_fst]
  refine ⟨hkeys d hnd, ?_, ?_, ?_⟩
  · rw [hkeys d hnd]
    exact dictKeys_pairwise_lt hnd
  · rw [hkeys d hnd, hkeys d' hnd']
    refine List.eq_of_perm_of_sorted ?_ (dictKeys_sorted d') (dictKeys_sorted d)
    exact ((dictKeys_perm d').trans (hperm.map Prod.fst).symm).trans
      (dictKeys_perm d).symm
  · obtain ⟨hceq, hseq⟩ := structBinaryPlus_ok hs
    subst hseq
    show (keysList (mergeHT x.ht y.ht)).Pairwise _
    rw [keysList_eq_obs_map, (mergeHT_spec hx hy).1]
    exact (mergePairs_keys _ _ hx hy).1

/-- **C6** at a concrete instance: a two-field mapping given in reverse
order, its permutation, and a concrete merge. -/
theorem C6_sorted_keys_witness :
    (([("b", SVal.int 2), ("a", SVal.int 1)].map Prod.fst).Nodup) ∧
      (([("a", SVal.int 1), ("b", SVal.int 2)].map Prod.fst).Nodup) ∧
      List.Perm [("b", SVal.int 2), ("a", SVal.int 1)]
        [("a", SVal.int 1), ("b", SVal.int 2)] ∧
      (attrNames (fromStringDict (SVal.str "struct")
          [("b", SVal.int 2), ("a", SVal.int 1)]) =
        dictKeys [("b", SVal.int 2), ("a", SVal.int 1)] ∧
      (attrNames (fromStringDict (SVal.str "struct")
          [("b", SVal.int 2), ("a", SVal.int 1)])).Pairwise
        (fun a b => strLt a b = true) ∧
      attrNames (fromStringDict (SVal.str "struct")
          [("a", SVal.int 1), ("b", SVal.int 2)]) =
        attrNames (fromStringDict (SVal.str "struct")
          [("b", SVal.int 2), ("a", SVal.int 1)]) ∧
      (attrNames (⟨SVal.str "struct",
          mergeHT (oneFieldHT "a" (.int 1)) (oneFieldHT "b" (.int 2))⟩ : Struct)).Pairwise
        (fun a b => strLt a b = true)) :=
  ⟨by decide, by decide, List.Perm.swap _ _ _,
    C6_sorted_keys (SVal.str "struct") [("b", SVal.int 2), ("a", SVal.int 1)]
      [("a", SVal.int 1), ("b", SVal.int 2)] (by decide) (by decide)
      (List.Perm.swap _ _ _)
      ⟨SVal.str "struct", oneFieldHT "a" (.int 1)⟩
      ⟨SVal.str "struct", oneFieldHT "b" (.int 2)⟩
      ⟨SVal.str "struct", mergeHT (oneFieldHT "a" (.int 1)) (oneFieldHT "b" (.int 2))⟩
      (by decide) (by decide) rfl⟩

/-- The hash fold propagates the first value-hash error: any prefix of
hashable fields is mixed and then the erroring field aborts the fold. -/
theorem structHashFields_first_error :
    ∀ (A : List (String × SVal)) (k : String) (v : SVal)
      (B : List (String × SVal)) (e : Err) (x m : Nat), svalHash v = .error e →
      (∀ p ∈ A, ∃ h, svalHash p.2 = .ok h) →
      structHashFields (A ++ (k, v) :: B) x m = .error e
  | [], k, v, B, e, x, m, hv, _ => by
    rw [List.nil_append]
    show (match svalHash v with
      | .error e' => .error e'
      | .ok y => structHashFields B
          ((x ^^^ 3 * hashString k % 2 ^ 32) ^^^ y * m % 2 ^ 32)
          ((m + 7349) % 2 ^ 32)) = Except.error e
    rw [hv]
  | (k1, v1) :: A, k, v, B, e, x, m, hv, hA => by
    obtain ⟨h, hh⟩ := hA (k1, v1) (List.mem_cons_self _ _)
    rw [List.cons_append]
    have hstep : structHashFields ((k1, v1) :: (A ++ (k, v) :: B)) x m =
        structHashFields (A ++ (k, v) :: B)
          ((x ^^^ 3 * hashString k1 % 2 ^ 32) ^^^ h * m % 2 ^ 32)
          ((m + 7349) % 2 ^ 32) := by
      show (match svalHash v1 with
        | .error e' => .error e'
        | .ok y => structHashFields (A ++ (k, v) :: B)
            ((x ^^^ 3 * hashString k1 % 2 ^ 32) ^^^ y * m % 2 ^ 32)
            ((m + 7349) % 2 ^ 32) : Except Err Nat) = _
      rw [hh]
    rw [hstep]
    exact structHashFields_first_error A k v B e _ _ hv
      (fun q hq => hA q (List.mem_cons_of_mem _ hq))

/-- **C7.**  The struct hash mixes each field's name hash and value hash in
field order with the seeds 8731 and 9839 evolving per field; the result is
a deterministic function of the field sequence, it is order-dependent and
sensitive to both keys and values (exhibited on concrete fields), and the
first error hashing a field value is returned instead of a number. -/
theorem C7_hash_mixing (s : Struct) (A B : List (String × SVal)) (k : String)
    (v : SVal) (e : Err) (x m : Nat) (hv : svalHash v = .error e)
    (hA : ∀ p ∈ A, ∃ h, svalHash p.2 = .ok h) :
    structHash s = structHashFields (obs s.ht) 8731 9839 ∧
      structHashFields (A ++ (k, v) :: B) x m = .error e ∧
      structHashFields [("a", .int 1), ("b", .int 2)] 8731 9839 ≠
        structHashFields [("b", .int 2), ("a", .int 1)] 8731 9839 ∧
      structHashFields [("a", .int 1)] 8731 9839 ≠
        structHashFields [("c", .int 1)] 8731 9839 ∧
      structHashFields [("a", .int 1)] 8731 9839 ≠
        structHashFields [("a", .int 2)] 8731 9839 :=
  ⟨rfl, structHashFields_first_error A k v B e x m hv hA,
    by decide, by decide, by decide⟩

/-- **C7** at a concrete instance: one hashable field followed by an
unhashable list value. -/
theorem C7_hash_mixing_witness :
    svalHash (SVal.list []) = .error (.unhashable "list") ∧
      (∀ p ∈ [("a", SVal.str "x")], ∃ h, svalHash p.2 = .ok h) ∧
      (structHash ⟨SVal.str "struct", oneFieldHT "a" (.int 1)⟩ =
        structHashFields (obs (oneFieldHT "a" (.int 1))) 8731 9839 ∧
      structHashFields ([("a", SVal.str "x")] ++ ("b", SVal.list []) :: []) 8731 9839 =
        .error (.unhashable "list") ∧
      structHashFields [("a", .int 1), ("b", .int 2)] 8731 9839 ≠
        structHashFields [("b", .int 2), ("a", .int 1)] 8731 9839 ∧
      structHashFields [("a", .int 1)] 8731 9839 ≠
        structHashFields [("c", .int 1)] 8731 9839 ∧
      structHashFields [("a", .int 1)] 8731 9839 ≠
        structHashFields [("a", .int 2)] 8731 9839) :=
  ⟨rfl,
    fun p hp => by
      rw [List.mem_singleton] at hp
      subst hp
      exact ⟨hashString "x", rfl⟩,
    C7_hash_mixing ⟨SVal.str "struct", oneFieldHT "a" (.int 1)⟩
      [("a", SVal.str "x")] [] "b" (SVal.list []) (.unhashable "list") 8731 9839
      rfl
      (fun p hp => by
        rw [List.mem_singleton] at hp
        subst hp
        exact ⟨hashString "x", rfl⟩)⟩

/-- **C8** counterexample: two structurally deep structs (triply nested
tuple values) with different field counts compare at depth budget 0 to the
boolean verdict `false`, not a recursion-limit error — the length fast path
of `structsEqual` precedes any depth check. -/
theorem C8_depth0_counterexample :
    structCompareSameType
      (fromStringDict (.str "struct")
        [("a", .tuple [.tuple [.tuple [.int 1]]])])
      Token.eql
      (fromStringDict (.str "struct")
        [("a", .tuple [.tuple [.tuple [.int 1]]]),
          ("b", .tuple [.tuple [.tuple [.int 2]]])])
      0 = .ok false := by
  obtain ⟨-, -, hlen1, -⟩ := fromStringDict_spec (.str "struct")
    [("a", .tuple [.tuple [.tuple [.int 1]]])] (by decide)
  obtain ⟨-, -, hlen2, -⟩ := fromStringDict_spec (.str "struct")
    [("a", .tuple [.tuple [.tuple [.int 1]]]),
      ("b", .tuple [.tuple [.tuple [.int 2]]])] (by decide)
  show structsEqual _ _ 0 = .ok false
  unfold structsEqual
  rw [if_pos]
  rw [hlen1, hlen2]
  decide

/-- **C8** (amended).  The length fast path and a key mismatch do yield
boolean verdicts at depth 0; but whenever the two structs have equally many
fields, equal-comparing constructors, and a shared first field name, the
depth-0 comparison is the recursion-limit error and never a verdict — the
first value comparison runs at a depth budget below 1, and `equalDepth`
below budget 1 errors before inspecting any value. -/
theorem C8_depth_budget (x y : Struct) (hlen : x.ht.len = y.ht.len)
    (hctor : starlarkEqual x.constructor y.constructor = .ok true)
    (k : String) (v w : SVal) (xs ys : List (String × SVal))
    (hx : obs x.ht = (k, v) :: xs) (hy : obs y.ht = (k, w) :: ys) :
    structsEqual x y 0 = .error .recursionLimit ∧
      structCompareSameType x Token.eql y 0 = .error .recursionLimit ∧
      ∀ a b : SVal, equalDepth 0 a b = .error .recursionLimit := by
  have h1 : structsEqual x y 0 = .error .recursionLimit := by
    unfold structsEqual
    rw [if_neg (by rw [hlen]; exact fun hc => hc rfl), hctor, hx, hy]
    show fieldsEqual 0 ((k, v) :: xs) ((k, w) :: ys) = .error .recursionLimit
    unfold fieldsEqual
    rw [if_neg (fun hc => hc rfl)]
    rfl
  refine ⟨h1, ?_, fun a b => rfl⟩
  show structsEqual x y 0 = _
  exact h1

/-- **C8** (amended) at a concrete instance: two one-field structs with the
shared field name and deep tuple values. -/
theorem C8_depth_budget_witness :
    (⟨SVal.str "struct", oneFieldHT "a" (.tuple [.tuple [.int 1]])⟩ : Struct).ht.len =
        (⟨SVal.str "struct", oneFieldHT "a" (.tuple [.tuple [.int 2]])⟩ : Struct).ht.len ∧
      starlarkEqual (SVal.str "struct") (SVal.str "struct") = .ok true ∧
      obs (oneFieldHT "a" (.tuple [.tuple [.int 1]])) =
        [("a", SVal.tuple [.tuple [.int 1]])] ∧
      obs (oneFieldHT "a" (.tuple [.tuple [.int 2]])) =
        [("a", SVal.tuple [.tuple [.int 2]])] ∧
      (structsEqual ⟨SVal.str "struct", oneFieldHT "a" (.tuple [.tuple [.int 1]])⟩
          ⟨SVal.str "struct", oneFieldHT "a" (.tuple [.tuple [.int 2]])⟩ 0 =
          .error .recursionLimit ∧
        structCompareSameType
            ⟨SVal.str "struct", oneFieldHT "a" (.tuple [.tuple [.int 1]])⟩
            Token.eql
            ⟨SVal.str "struct", oneFieldHT "a" (.tuple [.tuple [.int 2]])⟩ 0 =
          .error .recursionLimit ∧
        ∀ a b : SVal, equalDepth 0 a b = .error .recursionLimit) :=
  ⟨rfl, by decide, rfl, rfl,
    C8_depth_budget ⟨SVal.str "struct", oneFieldHT "a" (.tuple [.tuple [.int 1]])⟩
      ⟨SVal.str "struct", oneFieldHT "a" (.tuple [.tuple [.int 2]])⟩ rfl (by decide)
      "a" (SVal.tuple [.tuple [.int 1]]) (SVal.tuple [.tuple [.int 2]]) [] []
      rfl rfl⟩


/-! ## Representation invariant and lemmas for the ordered string dictionary -/

section OsdLemmas

theorem mem_of_getD_some {α : Type} {l : List (Option α)} {x : α} {j : Nat}
    (h : l.getD j none = some x) : some x ∈ l := by
  by_cases hj : j < l.length
  · rw [List.getD_eq_getElem l none hj] at h
    rw [← h]
    exact List.getElem_mem hj
  · rw [List.getD_eq_default _ _ (by omega)] at h
    simp at h

theorem getD_some_of_mem {α : Type} {l : List (Option α)} {x : α}
    (h : some x ∈ l) : ∃ j, j < l.length ∧ l.getD j none = some x := by
  obtain ⟨j, hj, hx⟩ := List.mem_iff_getElem.mp h
  exact ⟨j, hj, by rw [List.getD_eq_getElem l none hj, hx]⟩

theorem mem_of_getD_ne_nil {α : Type} {l : List (List α)} {j : Nat}
    (h : l.getD j [] ≠ []) : l.getD j [] ∈ l := by
  by_cases hj : j < l.length
  · rw [List.getD_eq_getElem l [] hj]
    exact List.getElem_mem hj
  · rw [List.getD_eq_default _ _ (by omega)] at h
    exact absurd rfl h


theorem bucketShaped_of_allSome : ∀ {b : OsdBucket},
    (∀ s ∈ b, s.isSome) → BucketShaped b
  | [], _ => trivial
  | some _ :: rest, h =>
    bucketShaped_of_allSome (b := rest)
      (fun s hs => h s (List.mem_cons_of_mem _ hs))
  | none :: _, h => by
    have := h none (List.mem_cons_self _ _)
    simp at this

theorem bucketShaped_of_allNone : ∀ {b : OsdBucket},
    (∀ s ∈ b, s = none) → BucketShaped b
  | [], _ => trivial
  | some x :: _, h => by
    have := h (some x) (List.mem_cons_self _ _)
    simp at this
  | none :: rest, h => fun s hs => h s (List.mem_cons_of_mem _ hs)

theorem bucketShaped_replicate_none (n : Nat) :
    BucketShaped (List.replicate n none) :=
  bucketShaped_of_allNone (fun _ hs => List.eq_of_mem_replicate hs)


theorem storedIn_of_slot {t : List OsdChain} (ci bi si : Nat) {i : Nat}
    (h : ((t.getD ci []).getD bi []).getD si none = some i) :
    StoredIn (t.getD ci []) i := by
  have hb : some i ∈ (t.getD ci []).getD bi [] := mem_of_getD_some h
  have hne : (t.getD ci []).getD bi [] ≠ [] := by
    intro hcon
    rw [hcon] at hb
    simp at hb
  exact ⟨_, mem_of_getD_ne_nil hne, hb⟩

theorem slot_of_storedIn {t : List OsdChain} (ci : Nat) {i : Nat}
    (h : StoredIn (t.getD ci []) i) :
    ∃ bi si, ((t.getD ci []).getD bi []).getD si none = some i := by
  obtain ⟨b, hb, hib⟩ := h
  obtain ⟨bi, hbi, hbeq⟩ := List.mem_iff_getElem.mp hb
  obtain ⟨si, hsi, hseq⟩ := getD_some_of_mem hib
  refine ⟨bi, si, ?_⟩
  rw [List.getD_eq_getElem _ [] hbi, hbeq]
  exact hseq

theorem key_inj {es : List OsdEntry} (hnd : (es.map OsdEntry.key).Nodup)
    {i j : Nat} (hi : i < es.length) (hj : j < es.length)
    (h : (osdEntryAt es i).key = (osdEntryAt es j).key) : i = j := by
  have hmi : i < (es.map OsdEntry.key).length := by simpa using hi
  have hmj : j < (es.map OsdEntry.key).length := by simpa using hj
  have h2 : (es.map OsdEntry.key)[i] = (es.map OsdEntry.key)[j] := by
    rw [List.getElem_map, List.getElem_map]
    have e1 : osdEntryAt es i = es[i] := List.getD_eq_getElem es _ hi
    have e2 : osdEntryAt es j = es[j] := List.getD_eq_getElem es _ hj
    rw [← e1, ← e2]
    exact h
  exact (List.Nodup.getElem_inj_iff hnd).mp h2

theorem osdEntryAt_mem {es : List OsdEntry} {i : Nat} (hi : i < es.length) :
    osdEntryAt es i ∈ es := by
  have : osdEntryAt es i = es[i] := List.getD_eq_getElem es _ hi
  rw [this]
  exact List.getElem_mem hi

theorem osdScanBucketGet_none (es : List OsdEntry) (h : Nat) (k : String) :
    ∀ b : OsdBucket,
      (∀ i, some i ∈ b →
        ¬((osdEntryAt es i).hash = h ∧ k = (osdEntryAt es i).key)) →
      osdScanBucketGet es h k b = none
  | [], _ => rfl
  | none :: _, _ => rfl
  | some i :: rest, hmiss => by
    show (if (osdEntryAt es i).hash = h ∧ k = (osdEntryAt es i).key then some i
      else osdScanBucketGet es h k rest) = none
    rw [if_neg (hmiss i (List.mem_cons_self _ _))]
    exact osdScanBucketGet_none es h k rest
      (fun j hj => hmiss j (List.mem_cons_of_mem _ hj))

theorem osdScanChainGet_none (es : List OsdEntry) (h : Nat) (k : String) :
    ∀ ch : OsdChain,
      (∀ i, StoredIn ch i →
        ¬((osdEntryAt es i).hash = h ∧ k = (osdEntryAt es i).key)) →
      osdScanChainGet es h k ch = none
  | [], _ => rfl
  | b :: rest, hmiss => by
    show (match osdScanBucketGet es h k b with
      | some i => some i
      | none => osdScanChainGet es h k rest) = none
    rw [osdScanBucketGet_none es h k b
      (fun i hi => hmiss i ⟨b, List.mem_cons_self _ _, hi⟩)]
    exact osdScanChainGet_none es h k rest
      (fun i ⟨b', hb', hi⟩ => hmiss i ⟨b', List.mem_cons_of_mem _ hb', hi⟩)

theorem osdScanBucketGet_found (es : List OsdEntry) (h : Nat) (k : String)
    (j : Nat) : ∀ b : OsdBucket, BucketShaped b → some j ∈ b →
      ((osdEntryAt es j).hash = h ∧ k = (osdEntryAt es j).key) →
      (∀ i, some i ∈ b →
        (osdEntryAt es i).hash = h ∧ k = (osdEntryAt es i).key → i = j) →
      osdScanBucketGet es h k b = some j
  | [], _, hmem, _, _ => by simp at hmem
  | none :: rest, hsh, hmem, _, _ => by
    rcases List.mem_cons.mp hmem with h1 | h1
    · simp at h1
    · have := hsh (some j) h1
      simp at this
  | some i :: rest, hsh, hmem, htest, huniq => by
    show (if (osdEntryAt es i).hash = h ∧ k = (osdEntryAt es i).key then some i
      else osdScanBucketGet es h k rest) = some j
    by_cases hti : (osdEntryAt es i).hash = h ∧ k = (osdEntryAt es i).key
    · rw [if_pos hti, huniq i (List.mem_cons_self _ _) hti]
    · rw [if_neg hti]
      have hjrest : some j ∈ rest := by
        rcases List.mem_cons.mp hmem with h1 | h1
        · exfalso
          have hij : i = j := by
            have := (Option.some.injEq _ _).mp h1.symm
            exact this
          rw [hij] at hti
          exact hti htest
        · exact h1
      exact osdScanBucketGet_found es h k j rest hsh hjrest htest
        (fun i' hi' ht' => huniq i' (List.mem_cons_of_mem _ hi') ht')

theorem osdScanChainGet_found (es : List OsdEntry) (h : Nat) (k : String)
    (j : Nat) : ∀ ch : OsdChain, ChainShaped ch → StoredIn ch j →
      ((osdEntryAt es j).hash = h ∧ k = (osdEntryAt es j).key) →
      (∀ i, StoredIn ch i →
        (osdEntryAt es i).hash = h ∧ k = (osdEntryAt es i).key → i = j) →
      osdScanChainGet es h k ch = some j
  | [], _, hst, _, _ => by
    obtain ⟨b, hb, -⟩ := hst
    simp at hb
  | b :: rest, hsh, hst, htest, huniq => by
    have hbsh : BucketShaped b ∧ ChainShaped rest := by
      rcases rest with _ | ⟨c, rest'⟩
      · exact ⟨hsh, trivial⟩
      · exact ⟨bucketShaped_of_allSome hsh.1, hsh.2⟩
    show (match osdScanBucketGet es h k b with
      | some i => some i
      | none => osdScanChainGet es h k rest) = some j
    by_cases hjb : some j ∈ b
    · rw [osdScanBucketGet_found es h k j b hbsh.1 hjb htest
        (fun i hi ht => huniq i ⟨b, List.mem_cons_self _ _, hi⟩ ht)]
    · have hjrest : StoredIn rest j := by
        obtain ⟨b', hb', hjb'⟩ := hst
        rcases List.mem_cons.mp hb' with h1 | h1
        · exact absurd (h1 ▸ hjb') hjb
        · exact ⟨b', h1, hjb'⟩
      rw [osdScanBucketGet_none es h k b
        (fun i hi hti => hjb (huniq i ⟨b, List.mem_cons_self _ _, hi⟩ hti ▸ hi))]
      exact osdScanChainGet_found es h k j rest hbsh.2 hjrest htest
        (fun i ⟨b', hb', hi⟩ ht => huniq i ⟨b', List.mem_cons_of_mem _ hb', hi⟩ ht)

/-- Under the invariant, `getEntry` finds the unique entry with the sought
key. -/
theorem getEntryIdx_found {d : OSD} (inv : OSDInv d) {i : Nat}
    (hi : i < d.entries.length) {k : String}
    (hk : (osdEntryAt d.entries i).key = k) :
    getEntryIdx d (hashString k) k = some i := by
  have hene : d.entries ≠ [] := by
    intro hcon
    rw [hcon] at hi
    simp at hi
  have htne : d.table ≠ [] := fun hcon => hene (inv.tnil hcon)
  have hhash : (osdEntryAt d.entries i).hash = hashString k := by
    rw [inv.hashOk _ (osdEntryAt_mem hi), hk]
  unfold getEntryIdx
  rw [if_neg (by simpa using htne)]
  obtain ⟨b, hb, hib⟩ := inv.placed i hi
  rw [hhash] at hb
  exact osdScanChainGet_found d.entries (hashString k) k i _
    (inv.shaped _) ⟨b, hb, hib⟩ ⟨hhash, hk.symm⟩
    (fun i' hst ht => by
      obtain ⟨bi, si, hslot⟩ := slot_of_storedIn _ hst
      obtain ⟨hi', -⟩ := inv.valid _ _ _ _ hslot
      exact key_inj inv.keysNodup hi' hi (by rw [← ht.2, hk]))

/-- Under the invariant, `getEntry` misses keys the dictionary does not
hold. -/
theorem getEntryIdx_none {d : OSD} (inv : OSDInv d) {k : String}
    (hk : k ∉ d.entries.map OsdEntry.key) :
    getEntryIdx d (hashString k) k = none := by
  unfold getEntryIdx
  by_cases hemp : d.table.isEmpty
  · rw [if_pos hemp]
  · rw [if_neg hemp]
    apply osdScanChainGet_none
    rintro i hst ⟨-, hkey⟩
    obtain ⟨bi, si, hslot⟩ := slot_of_storedIn _ hst
    obtain ⟨hi, -⟩ := inv.valid _ _ _ _ hslot
    exact hk (by
      rw [hkey]
      exact List.mem_map_of_mem OsdEntry.key (osdEntryAt_mem hi))

theorem chainShaped_cons {b : OsdBucket} {rest : OsdChain}
    (hb : ∀ s ∈ b, s.isSome) (hrest : ChainShaped rest) :
    ChainShaped (b :: rest) := by
  rcases rest with _ | ⟨c, rest'⟩
  · exact bucketShaped_of_allSome hb
  · exact ⟨hb, hrest⟩

theorem osdScanPosBucket_spec (es : List OsdEntry) (k : String) (idx : Nat) :
    ∀ (b : OsdBucket) (s0 : Nat), BucketShaped b →
      (∀ i, some i ∈ b → (osdEntryAt es i).key ≠ k) →
      (osdScanPosBucket es k b s0 = .ok none ∧ ∀ s ∈ b, s.isSome) ∨
      (∃ si, osdScanPosBucket es k b s0 = .ok (some (s0 + si)) ∧
        si < b.length ∧ b.getD si none = none ∧
        BucketShaped (modIdx (fun _ => some idx) si b))
  | [], _, _, _ => Or.inl ⟨rfl, by simp⟩
  | none :: rest, s0, hsh, _ => by
    right
    refine ⟨0, rfl, by simp, rfl, ?_⟩
    show BucketShaped rest
    exact bucketShaped_of_allNone hsh
  | some i :: rest, s0, hsh, hfresh => by
    have hne := hfresh i (List.mem_cons_self _ _)
    have hred : osdScanPosBucket es k (some i :: rest) s0 =
        osdScanPosBucket es k rest (s0 + 1) := by
      show (if (osdEntryAt es i).key = k then Except.error (Err.duplicateKey k)
        else osdScanPosBucket es k rest (s0 + 1)) = _
      rw [if_neg hne]
    rcases osdScanPosBucket_spec es k idx rest (s0 + 1) hsh
        (fun j hj => hfresh j (List.mem_cons_of_mem _ hj)) with
      ⟨hres, hall⟩ | ⟨si, hres, hlt, hslot, hshape⟩
    · left
      refine ⟨by rw [hred, hres], ?_⟩
      intro s hs
      rcases List.mem_cons.mp hs with h1 | h1
      · rw [h1]
        rfl
      · exact hall s h1
    · right
      refine ⟨si + 1, ?_, by simpa using hlt, ?_, ?_⟩
      · rw [hred, hres, show s0 + 1 + si = s0 + (si + 1) from by omega]
      · rw [List.getD_cons_succ]
        exact hslot
      · show BucketShaped (modIdx (fun _ => some idx) si rest)
        exact hshape

theorem osdFindPos_spec (es : List OsdEntry) (k : String) (idx : Nat) :
    ∀ (ch : OsdChain) (b0 : Nat), ChainShaped ch →
      (∀ i, StoredIn ch i → (osdEntryAt es i).key ≠ k) →
      (osdFindPos es k ch b0 = .ok none ∧ (∀ b ∈ ch, ∀ s ∈ b, s.isSome) ∧
        ChainShaped (ch ++ [some idx :: List.replicate (bucketSize - 1) none])) ∨
      (∃ bi si, osdFindPos es k ch b0 = .ok (some (b0 + bi, si)) ∧
        bi < ch.length ∧ si < (ch.getD bi []).length ∧
        (ch.getD bi []).getD si none = none ∧
        ChainShaped (modIdx (fun b => modIdx (fun _ => some idx) si b) bi ch))
  | [], _, _, _ => by
    left
    refine ⟨rfl, by simp, ?_⟩
    show BucketShaped (List.replicate (bucketSize - 1) none)
    exact bucketShaped_replicate_none _
  | b :: rest, b0, hsh, hfresh => by
    have hsplit : BucketShaped b ∧ ChainShaped rest ∧
        (rest ≠ [] → ∀ s ∈ b, s.isSome) := by
      rcases rest with _ | ⟨c, rest'⟩
      · exact ⟨hsh, trivial, fun hc => absurd rfl hc⟩
      · exact ⟨bucketShaped_of_allSome hsh.1, hsh.2, fun _ => hsh.1⟩
    rcases osdScanPosBucket_spec es k idx b 0 hsplit.1
        (fun i hi => hfresh i ⟨b, List.mem_cons_self _ _, hi⟩) with
      ⟨hres, hall⟩ | ⟨si, hres, hlt, hslot, hshape⟩
    · have hred : osdFindPos es k (b :: rest) b0 =
          osdFindPos es k rest (b0 + 1) := by
        show (match osdScanPosBucket es k b 0 with
          | .error e => .error e
          | .ok (some si) => .ok (some (b0, si))
          | .ok none => osdFindPos es k rest (b0 + 1) :
            Except Err (Option (Nat × Nat))) = _
        rw [hres]
      rcases osdFindPos_spec es k idx rest (b0 + 1) hsplit.2.1
          (fun i hst => hfresh i (by
            obtain ⟨b', hb', hi⟩ := hst
            exact ⟨b', List.mem_cons_of_mem _ hb', hi⟩)) with
        ⟨hres2, hall2, hshape2⟩ | ⟨bi, si, hres2, hbi, hsilt, hslot2, hshape2⟩
      · left
        refine ⟨by rw [hred, hres2], ?_, ?_⟩
        · intro b' hb'
          rcases List.mem_cons.mp hb' with h1 | h1
          · rw [h1]
            exact hall
          · exact hall2 b' h1
        · rw [List.cons_append]
          exact chainShaped_cons hall hshape2
      · right
        refine ⟨bi + 1, si, ?_, by simpa using hbi, ?_, ?_, ?_⟩
        · rw [hred, hres2, show b0 + 1 + bi = b0 + (bi + 1) from by omega]
        · rw [List.getD_cons_succ]
          exact hsilt
        · rw [List.getD_cons_succ]
          exact hslot2
        · show ChainShaped (b :: modIdx (fun b => modIdx (fun _ => some idx) si b) bi rest)
          exact chainShaped_cons hall hshape2
    · right
      have hrestnil : rest = [] := by
        rcases hrest : rest with _ | ⟨c, rest'⟩
        · rfl
        · exfalso
          have hfull := hsplit.2.2 (by rw [hrest]; simp)
          have hsome := hfull (b.getD si none) (by
            rw [List.getD_eq_getElem b none hlt]
            exact List.getElem_mem hlt)
          rw [hslot] at hsome
          simp at hsome
      subst hrestnil
      refine ⟨0, si, ?_, by simp, hlt, hslot, ?_⟩
      · show (match osdScanPosBucket es k b 0 with
          | .error e => .error e
          | .ok (some si) => .ok (some (b0, si))
          | .ok none => osdFindPos es k [] (b0 + 1)) = Except.ok (some (b0 + 0, si))
        rw [hres, Nat.zero_add]
        rfl
      · show BucketShaped (modIdx (fun _ => some idx) si b)
        exact hshape

theorem osdEntryAt_append_last (es : List OsdEntry) (e : OsdEntry) :
    osdEntryAt (es ++ [e]) es.length = e := by
  unfold osdEntryAt
  rw [List.getD_eq_getElem _ _ (by simp)]
  simp

theorem osdEntryAt_append_lt {es : List OsdEntry} (e : OsdEntry) {i : Nat}
    (hi : i < es.length) : osdEntryAt (es ++ [e]) i = osdEntryAt es i := by
  unfold osdEntryAt
  rw [List.getD_append _ _ _ _ hi]

/-- The common invariant-preservation step of `append`: the new entry goes to
the end of the flat sequence and its index is stored somewhere in its hash
chain, while every previously stored index keeps its slot. -/
theorem OSDInv_insert_step {d : OSD} (inv : OSDInv d) {h : Nat} {k : String}
    (v : SVal) (hh : h = hashString k) (hk : k ∉ d.entries.map OsdEntry.key)
    (htne : d.table ≠ [])
    (hload : d.entries.length + 1 ≤ bucketSize ∨
      2 * (d.entries.length + 1) ≤ 13 * d.table.length + 2)
    (T : List OsdChain) (hTlen : T.length = d.table.length)
    (hshape : ∀ ci, ChainShaped (T.getD ci []))
    (hchar : ∀ ci bi si j, ((T.getD ci []).getD bi []).getD si none = some j →
      ((d.table.getD ci []).getD bi []).getD si none = some j ∨
        (j = d.entries.length ∧ ci = chainIdx h d.table.length))
    (hkeep : ∀ ci bi si j,
      ((d.table.getD ci []).getD bi []).getD si none = some j →
      ((T.getD ci []).getD bi []).getD si none = some j)
    (hnew : StoredIn (T.getD (chainIdx h d.table.length) []) d.entries.length) :
    OSDInv { table := T, entries := d.entries ++ [⟨h, k, v⟩] } := by
  have htlen : 0 < d.table.length := List.length_pos.mpr htne
  refine ⟨?_, ?_, hshape, ?_, ?_, ?_, ?_⟩
  · show ((d.entries ++ [(⟨h, k, v⟩ : OsdEntry)]).map OsdEntry.key).Nodup
    rw [List.map_append, List.nodup_append]
    refine ⟨inv.keysNodup, List.nodup_singleton _, ?_⟩
    intro a ha hb
    rw [List.map_singleton, List.mem_singleton] at hb
    subst hb
    exact hk ha
  · intro e he
    rcases List.mem_append.mp he with h1 | h1
    · exact inv.hashOk e h1
    · rw [List.mem_singleton] at h1
      subst h1
      exact hh
  · intro ci bi si j hsl
    show j < (d.entries ++ [(⟨h, k, v⟩ : OsdEntry)]).length ∧
      ci = chainIdx (osdEntryAt (d.entries ++ [(⟨h, k, v⟩ : OsdEntry)]) j).hash
        T.length
    rw [List.length_append, List.length_singleton, hTlen]
    rcases hchar ci bi si j hsl with hold | ⟨hj, hc⟩
    · obtain ⟨hjlt, hcij⟩ := inv.valid _ _ _ _ hold
      exact ⟨by omega, by rw [osdEntryAt_append_lt _ hjlt]; exact hcij⟩
    · subst hj
      subst hc
      exact ⟨by omega, by rw [osdEntryAt_append_last]⟩
  · intro j hj
    show ∃ b ∈ T.getD
        (chainIdx (osdEntryAt (d.entries ++ [(⟨h, k, v⟩ : OsdEntry)]) j).hash
          T.length) [],
      some j ∈ b
    rw [hTlen]
    have hj' : j < d.entries.length + 1 := by
      simpa using hj
    by_cases hjl : j < d.entries.length
    · rw [osdEntryAt_append_lt _ hjl]
      obtain ⟨b, hb, hjb⟩ := inv.placed j hjl
      obtain ⟨bi, si, hslot⟩ :=
        slot_of_storedIn
          (chainIdx (osdEntryAt d.entries j).hash d.table.length)
          (t := d.table) ⟨b, hb, hjb⟩
      exact storedIn_of_slot _ _ _ (hkeep _ _ _ _ hslot)
    · have hjeq : j = d.entries.length := by omega
      subst hjeq
      rw [osdEntryAt_append_last]
      exact hnew
  · show (d.entries ++ [(⟨h, k, v⟩ : OsdEntry)]).length ≤ bucketSize ∨
      2 * (d.entries ++ [(⟨h, k, v⟩ : OsdEntry)]).length ≤ 13 * T.length + 2
    rw [List.length_append, List.length_singleton, hTlen]
    exact hload
  · intro hcon
    exfalso
    have h0 := congrArg List.length hcon
    rw [hTlen] at h0
    simp only [List.length_nil] at h0
    omega

/-- One `append` with the grow loop not triggered: no error, the entry is
appended to the flat sequence, the bucket-array size is unchanged, and the
invariant is preserved. -/
theorem osdAppendLoop_core {d : OSD} (inv : OSDInv d) (f : Nat) {h : Nat}
    {k : String} (v : SVal) (hh : h = hashString k)
    (hk : k ∉ d.entries.map OsdEntry.key)
    (hov : overloaded d.entries.length d.table.length = false)
    (htne : d.table ≠ []) :
    (osdAppendLoop f d h k v).2 = none ∧
      (osdAppendLoop f d h k v).1.entries = d.entries ++ [⟨h, k, v⟩] ∧
      (osdAppendLoop f d h k v).1.table.length = d.table.length ∧
      OSDInv (osdAppendLoop f d h k v).1 := by
  have htlen : 0 < d.table.length := List.length_pos.mpr htne
  have hci : chainIdx h d.table.length < d.table.length := chainIdx_lt htlen
  have hfresh : ∀ i, StoredIn (d.table.getD (chainIdx h d.table.length) []) i →
      (osdEntryAt d.entries i).key ≠ k := by
    intro i hst hcon
    obtain ⟨bi, si, hslot⟩ := slot_of_storedIn _ hst
    obtain ⟨hilt, -⟩ := inv.valid _ _ _ _ hslot
    exact hk (hcon ▸ List.mem_map_of_mem OsdEntry.key (osdEntryAt_mem hilt))
  have hload' : d.entries.length + 1 ≤ bucketSize ∨
      2 * (d.entries.length + 1) ≤ 13 * d.table.length + 2 := by
    have h8 : bucketSize = 8 := rfl
    rcases overloaded_eq_false.mp hov with h1 | h1
    · omega
    · omega
  have hloop : osdAppendLoop f d h k v =
      (match osdFindPos d.entries k
          (d.table.getD (chainIdx h d.table.length) []) 0 with
        | .error e => (d, some e)
        | .ok (some (bi, si)) =>
          ({ table := osdSetIdx d.table (chainIdx h d.table.length) bi si
                d.entries.length,
             entries := d.entries ++ [⟨h, k, v⟩] }, none)
        | .ok none =>
          ({ table := osdAppendBucket d.table (chainIdx h d.table.length)
                d.entries.length,
             entries := d.entries ++ [⟨h, k, v⟩] }, none)) := by
    rw [osdAppendLoop.eq_def]
    show (if overloaded d.entries.length d.table.length = true then
        match f with
        | 0 => (d, some Err.outOfFuel)
        | fl + 1 => osdAppendLoop fl (osdGrow fl d) h k v
      else
        match osdFindPos d.entries k
            (d.table.getD (chainIdx h d.table.length) []) 0 with
        | .error e => (d, some e)
        | .ok (some (bi, si)) =>
          ({ table := osdSetIdx d.table (chainIdx h d.table.length) bi si
                d.entries.length,
             entries := d.entries ++ [(⟨h, k, v⟩ : OsdEntry)] }, none)
        | .ok none =>
          ({ table := osdAppendBucket d.table (chainIdx h d.table.length)
                d.entries.length,
             entries := d.entries ++ [(⟨h, k, v⟩ : OsdEntry)] }, none)) = _
    rw [if_neg (by simp [hov])]
  rcases osdFindPos_spec d.entries k d.entries.length
      (d.table.getD (chainIdx h d.table.length) []) 0
      (inv.shaped _) hfresh with
    ⟨hres, -, hshapeApp⟩ | ⟨bi, si, hres, hbi, hsilt, hslot, hshapeSet⟩
  · -- no free slot anywhere: a fresh overflow bucket is appended
    have hval : osdAppendLoop f d h k v =
        ({ table := osdAppendBucket d.table (chainIdx h d.table.length)
              d.entries.length,
           entries := d.entries ++ [⟨h, k, v⟩] }, none) := by
      rw [hloop, hres]
    have htab : ∀ ci', (osdAppendBucket d.table (chainIdx h d.table.length)
        d.entries.length).getD ci' [] =
        if ci' = chainIdx h d.table.length then
          d.table.getD ci' [] ++
            [some d.entries.length :: List.replicate (bucketSize - 1) none]
        else d.table.getD ci' [] := by
      intro ci'
      unfold osdAppendBucket
      by_cases hc : ci' = chainIdx h d.table.length
      · subst hc
        rw [getD_modIdx_self _ _ _ _ hci, if_pos rfl]
      · rw [getD_modIdx_ne _ _ _ _ _ (fun hcon => hc hcon.symm), if_neg hc]
    have htablen : (osdAppendBucket d.table (chainIdx h d.table.length)
        d.entries.length).length = d.table.length := by
      unfold osdAppendBucket
      exact length_modIdx _ _ _
    rw [hval]
    refine ⟨rfl, rfl, htablen, ?_⟩
    refine OSDInv_insert_step inv v hh hk htne hload' _ htablen ?_ ?_ ?_ ?_
    · intro ci'
      rw [htab ci']
      by_cases hc : ci' = chainIdx h d.table.length
      · rw [if_pos hc, hc]
        exact hshapeApp
      · rw [if_neg hc]
        exact inv.shaped ci'
    · intro ci' bi' si' j hsl
      rw [htab ci'] at hsl
      by_cases hc : ci' = chainIdx h d.table.length
      · rw [if_pos hc] at hsl
        by_cases hb : bi' < (d.table.getD ci' []).length
        · rw [List.getD_append _ _ _ _ hb] at hsl
          exact Or.inl hsl
        · by_cases hb2 : bi' = (d.table.getD ci' []).length
          · rw [hb2, List.getD_append_right _ _ _ _ (le_refl _),
              Nat.sub_self] at hsl
            rw [List.getD_cons_zero] at hsl
            rcases si' with _ | si''
            · rw [List.getD_cons_zero] at hsl
              exact Or.inr ⟨((Option.some.injEq _ _).mp hsl).symm, hc⟩
            · rw [List.getD_cons_succ, getD_replicate] at hsl
              split at hsl <;> simp at hsl
          · have hlen2 : (d.table.getD ci' [] ++
                [some d.entries.length ::
                  List.replicate (bucketSize - 1) none]).length ≤ bi' := by
              rw [List.length_append, List.length_singleton]
              omega
            rw [List.getD_eq_default _ _ hlen2] at hsl
            simp at hsl
      · rw [if_neg hc] at hsl
        exact Or.inl hsl
    · intro ci' bi' si' j hsl
      rw [htab ci']
      by_cases hc : ci' = chainIdx h d.table.length
      · rw [if_pos hc]
        have hb : bi' < (d.table.getD ci' []).length := by
          by_contra hcon
          have hdef : (d.table.getD ci' []).getD bi' [] = [] :=
            List.getD_eq_default _ _ (by omega)
          rw [hdef] at hsl
          simp at hsl
        rw [List.getD_append _ _ _ _ hb]
        exact hsl
      · rw [if_neg hc]
        exact hsl
    · refine storedIn_of_slot (chainIdx h d.table.length)
        ((d.table.getD (chainIdx h d.table.length) []).length) 0 ?_
      rw [htab, if_pos rfl, List.getD_append_right _ _ _ _ (le_refl _),
        Nat.sub_self, List.getD_cons_zero, List.getD_cons_zero]
  · -- a free slot exists: the entry pointer is written there
    rw [show (0 + bi) = bi from Nat.zero_add bi] at hres
    have hval : osdAppendLoop f d h k v =
        ({ table := osdSetIdx d.table (chainIdx h d.table.length) bi si
              d.entries.length,
           entries := d.entries ++ [⟨h, k, v⟩] }, none) := by
      rw [hloop, hres]
    have htab : ∀ ci', (osdSetIdx d.table (chainIdx h d.table.length) bi si
        d.entries.length).getD ci' [] =
        if ci' = chainIdx h d.table.length then
          modIdx (fun b => modIdx (fun _ => some d.entries.length) si b) bi
            (d.table.getD ci' [])
        else d.table.getD ci' [] := by
      intro ci'
      unfold osdSetIdx
      by_cases hc : ci' = chainIdx h d.table.length
      · subst hc
        rw [getD_modIdx_self _ _ _ _ hci, if_pos rfl]
      · rw [getD_modIdx_ne _ _ _ _ _ (fun hcon => hc hcon.symm), if_neg hc]
    have htablen : (osdSetIdx d.table (chainIdx h d.table.length) bi si
        d.entries.length).length = d.table.length := by
      unfold osdSetIdx
      exact length_modIdx _ _ _
    rw [hval]
    refine ⟨rfl, rfl, htablen, ?_⟩
    refine OSDInv_insert_step inv v hh hk htne hload' _ htablen ?_ ?_ ?_ ?_
    · intro ci'
      rw [htab ci']
      by_cases hc : ci' = chainIdx h d.table.length
      · rw [if_pos hc, hc]
        exact hshapeSet
      · rw [if_neg hc]
        exact inv.shaped ci'
    · intro ci' bi' si' j hsl
      rw [htab ci'] at hsl
      by_cases hc : ci' = chainIdx h d.table.length
      · rw [if_pos hc] at hsl
        by_cases hbb : bi' = bi
        · subst hbb
          rw [getD_modIdx_self _ _ _ _ (hc ▸ hbi)] at hsl
          by_cases hss : si' = si
          · subst hss
            rw [getD_modIdx_self _ _ _ _ (hc ▸ hsilt)] at hsl
            exact Or.inr ⟨((Option.some.injEq _ _).mp hsl).symm, hc⟩
          · rw [getD_modIdx_ne _ _ _ _ _ (fun hcon => hss hcon.symm)] at hsl
            exact Or.inl hsl
        · rw [getD_modIdx_ne _ _ _ _ _ (fun hcon => hbb hcon.symm)] at hsl
          exact Or.inl hsl
      · rw [if_neg hc] at hsl
        exact Or.inl hsl
    · intro ci' bi' si' j hsl
      rw [htab ci']
      by_cases hc : ci' = chainIdx h d.table.length
      · rw [if_pos hc]
        by_cases hbb : bi' = bi
        · subst hbb
          rw [getD_modIdx_self _ _ _ _ (hc ▸ hbi)]
          by_cases hss : si' = si
          · subst hss
            rw [hc] at hsl
            rw [hslot] at hsl
            simp at hsl
          · rw [getD_modIdx_ne _ _ _ _ _ (fun hcon => hss hcon.symm)]
            exact hsl
        · rw [getD_modIdx_ne _ _ _ _ _ (fun hcon => hbb hcon.symm)]
          exact hsl
      · rw [if_neg hc]
        exact hsl
    · refine storedIn_of_slot (chainIdx h d.table.length) bi si ?_
      rw [htab, if_pos rfl, getD_modIdx_self _ _ _ _ hbi,
        getD_modIdx_self _ _ _ _ hsilt]

/-- A freshly allocated table of empty buckets is well-formed. -/
theorem OSDInv_replicate (n : Nat) :
    OSDInv { table := List.replicate n [osdEmptyBucket], entries := [] } := by
  have hempty : ∀ ci bi si i,
      (((List.replicate n [osdEmptyBucket]).getD ci []).getD bi []).getD si none ≠
        some i := by
    intro ci bi si i hsl
    rw [getD_replicate] at hsl
    by_cases hci : ci < n
    · rw [if_pos hci] at hsl
      rcases bi with _ | bi'
      · rw [List.getD_cons_zero] at hsl
        unfold osdEmptyBucket at hsl
        rw [getD_replicate] at hsl
        split at hsl <;> simp at hsl
      · rw [List.getD_cons_succ] at hsl
        simp at hsl
    · rw [if_neg hci] at hsl
      simp at hsl
  refine ⟨List.nodup_nil, by simp, ?_, ?_, ?_, ?_, ?_⟩
  · intro ci
    show ChainShaped ((List.replicate n [osdEmptyBucket]).getD ci [])
    rw [getD_replicate]
    split
    · show BucketShaped osdEmptyBucket
      exact bucketShaped_replicate_none _
    · trivial
  · intro ci bi si i hsl
    exact absurd hsl (hempty ci bi si i)
  · intro i hi
    simp at hi
  · left
    simp [bucketSize]
  · intro _
    rfl

theorem osdInit_eq (d : OSD) (size : Nat) : osdInit d size =
    { table := List.replicate (if initNB size < 2 then 1 else initNB size)
        [osdEmptyBucket], entries := [] } := by
  unfold osdInit
  by_cases hnb : initNB size < 2
  · rw [if_pos hnb, if_pos hnb]
    rfl
  · rw [if_neg hnb, if_neg hnb]

theorem OSDInv_osdInit (d : OSD) (size : Nat) :
    OSDInv (osdInit d size) ∧ (osdInit d size).table ≠ [] ∧
      (osdInit d size).entries = [] := by
  rw [osdInit_eq]
  refine ⟨OSDInv_replicate _, ?_, rfl⟩
  show List.replicate _ _ ≠ []
  simp only [ne_eq, List.replicate_eq_nil_iff]
  split <;> omega

theorem osdAppend_eq_loop {cur : OSD} (htne : cur.table ≠ []) (f h : Nat)
    (k : String) (v : SVal) :
    osdAppend f cur h k v = osdAppendLoop f cur h k v := by
  rw [osdAppend.eq_def]
  show osdAppendLoop f (if cur.table.isEmpty then osdInit cur 1 else cur) h k v = _
  rw [if_neg (by simpa using htne)]

/-- The re-append loop of `grow` rebuilds exactly the old entry sequence. -/
theorem osdReinsert_good (f : Nat) :
    ∀ (rest : List OsdEntry) (cur : OSD), OSDInv cur → cur.table ≠ [] →
      (∀ e ∈ rest, e.hash = hashString e.key) →
      (cur.entries.map OsdEntry.key ++ rest.map OsdEntry.key).Nodup →
      2 * (cur.entries.length + rest.length) < 13 * cur.table.length →
      (osdReinsert f cur rest).entries = cur.entries ++ rest ∧
        OSDInv (osdReinsert f cur rest) ∧
        (osdReinsert f cur rest).table.length = cur.table.length
  | [], cur, inv, _, _, _, _ => by
    have hred : osdReinsert f cur [] = cur := by
      rw [osdReinsert.eq_def]
    rw [hred]
    exact ⟨by simp, inv, rfl⟩
  | e :: rest', cur, inv, htne, hhash, hnd, hload => by
    have hred : osdReinsert f cur (e :: rest') =
        osdReinsert f (osdAppend f cur e.hash e.key e.value).1 rest' := by
      rw [osdReinsert.eq_def]
    have hkfresh : e.key ∉ cur.entries.map OsdEntry.key := by
      intro hcon
      obtain ⟨-, -, hdisj⟩ := List.nodup_append.mp hnd
      exact hdisj hcon (by
        rw [List.map_cons]
        exact List.mem_cons_self _ _)
    have hov : overloaded cur.entries.length cur.table.length = false := by
      apply overloaded_eq_false.mpr
      right
      have := List.length_cons e rest'
      omega
    have hcore := osdAppendLoop_core inv f (h := e.hash) (k := e.key) e.value
      (hhash e (List.mem_cons_self _ _)) hkfresh hov htne
    rw [osdAppend_eq_loop htne] at hred
    have hent : (osdAppendLoop f cur e.hash e.key e.value).1.entries =
        cur.entries ++ [e] := hcore.2.1
    have htne' : (osdAppendLoop f cur e.hash e.key e.value).1.table ≠ [] := by
      intro hcon
      have := congrArg List.length hcon
      rw [hcore.2.2.1] at this
      simp at this
      rw [this] at htne
      exact htne (List.length_eq_zero.mp rfl)
    have hnd' : ((osdAppendLoop f cur e.hash e.key e.value).1.entries.map
        OsdEntry.key ++ rest'.map OsdEntry.key).Nodup := by
      rw [hent, List.map_append, List.append_assoc]
      rw [List.map_cons] at hnd
      simpa using hnd
    have hload' : 2 * ((osdAppendLoop f cur e.hash e.key e.value).1.entries.length +
        rest'.length) < 13 * (osdAppendLoop f cur e.hash e.key e.value).1.table.length := by
      rw [hent, hcore.2.2.1, List.length_append, List.length_singleton]
      have := List.length_cons e rest'
      omega
    obtain ⟨hres1, hres2, hres3⟩ := osdReinsert_good f rest' _ hcore.2.2.2 htne'
      (fun e' he' => hhash e' (List.mem_cons_of_mem _ he')) hnd' hload'
    rw [hred]
    refine ⟨?_, hres2, by rw [hres3, hcore.2.2.1]⟩
    rw [hres1, hent, List.append_assoc, List.singleton_append]

/-- `grow` keeps the entry sequence, doubles the bucket array, restores the
invariant, and leaves the table no longer overloaded. -/
theorem osdGrow_good {d : OSD} (inv : OSDInv d) (f : Nat)
    (hov : overloaded d.entries.length d.table.length = true) :
    (osdGrow f d).entries = d.entries ∧ OSDInv (osdGrow f d) ∧
      (osdGrow f d).table.length = 2 * d.table.length ∧
      overloaded d.entries.length (osdGrow f d).table.length = false ∧
      (osdGrow f d).table ≠ [] := by
  have h8 : bucketSize = 8 := rfl
  have hlen8 : bucketSize ≤ d.entries.length := ((overloaded_iff _ _).mp hov).1
  have hene : d.entries ≠ [] := by
    intro hcon
    rw [hcon] at hlen8
    simp [h8] at hlen8
  have htne : d.table ≠ [] := fun hcon => hene (inv.tnil hcon)
  have htpos : 0 < d.table.length := List.length_pos.mpr htne
  have hreins : 2 * (([] : List OsdEntry).length + d.entries.length) <
      13 * (List.replicate (2 * d.table.length) [osdEmptyBucket]).length := by
    simp only [List.length_nil, List.length_replicate, Nat.zero_add]
    rcases inv.load with h1 | h1 <;> omega
  have hred : osdGrow f d = osdReinsert f
      { table := List.replicate (2 * d.table.length) [osdEmptyBucket],
        entries := [] } d.entries := by
    rw [osdGrow.eq_def]
  obtain ⟨hres1, hres2, hres3⟩ := osdReinsert_good f d.entries
    { table := List.replicate (2 * d.table.length) [osdEmptyBucket],
      entries := [] } (OSDInv_replicate _)
    (by simp only [ne_eq, List.replicate_eq_nil_iff]; omega)
    (fun e he => inv.hashOk e he) (by simpa using inv.keysNodup) hreins
  rw [hred]
  have hlen : (osdReinsert f
      { table := List.replicate (2 * d.table.length) [osdEmptyBucket],
        entries := [] } d.entries).table.length = 2 * d.table.length := by
    rw [hres3, List.length_replicate]
  refine ⟨by simpa using hres1, hres2, hlen, ?_, ?_⟩
  · apply overloaded_eq_false.mpr
    right
    rw [hlen]
    have h13 : 13 * (2 * d.table.length) = 26 * d.table.length := by ring
    rw [h13]
    rcases inv.load with h1 | h1 <;> omega
  · intro hcon
    have hzero := congrArg List.length hcon
    rw [hlen] at hzero
    simp only [List.length_nil] at hzero
    omega

/-- `append` on a well-formed table with a fresh key: one unit of fuel beyond
the possible single regrow always suffices; no error, and the entry lands at
the end of the flat sequence. -/
theorem osdAppendLoop_fresh {d : OSD} (inv : OSDInv d) (f : Nat) {h : Nat}
    {k : String} (v : SVal) (hh : h = hashString k)
    (hk : k ∉ d.entries.map OsdEntry.key) (htne : d.table ≠ []) :
    (osdAppendLoop (f + 1) d h k v).2 = none ∧
      (osdAppendLoop (f + 1) d h k v).1.entries = d.entries ++ [⟨h, k, v⟩] ∧
      OSDInv (osdAppendLoop (f + 1) d h k v).1 := by
  by_cases hov : overloaded d.entries.length d.table.length
  · have hred : osdAppendLoop (f + 1) d h k v =
        osdAppendLoop f (osdGrow f d) h k v := by
      rw [osdAppendLoop.eq_def]
      show (if overloaded d.entries.length d.table.length = true then
          match f + 1 with
          | 0 => (d, some Err.outOfFuel)
          | fl + 1 => osdAppendLoop fl (osdGrow fl d) h k v
        else
          match osdFindPos d.entries k
              (d.table.getD (chainIdx h d.table.length) []) 0 with
          | .error e => (d, some e)
          | .ok (some (bi, si)) =>
            ({ table := osdSetIdx d.table (chainIdx h d.table.length) bi si
                  d.entries.length,
               entries := d.entries ++ [(⟨h, k, v⟩ : OsdEntry)] }, none)
          | .ok none =>
            ({ table := osdAppendBucket d.table (chainIdx h d.table.length)
                  d.entries.length,
               entries := d.entries ++ [(⟨h, k, v⟩ : OsdEntry)] }, none)) = _
      rw [if_pos hov]
    obtain ⟨hge, hginv, -, hgov, hgne⟩ := osdGrow_good inv f hov
    have hgov' : overloaded (osdGrow f d).entries.length
        (osdGrow f d).table.length = false := by
      rw [hge]
      exact hgov
    have hcore := osdAppendLoop_core hginv f (h := h) (k := k) v hh
      (by rw [hge]; exact hk) hgov' hgne
    rw [hred]
    exact ⟨hcore.1, by rw [hcore.2.1, hge], hcore.2.2.2⟩
  · have hovf : overloaded d.entries.length d.table.length = false := by
      simpa using hov
    have hcore := osdAppendLoop_core inv (f + 1) v hh hk hovf htne
    exact ⟨hcore.1, hcore.2.1, hcore.2.2.2⟩

theorem osdAppend_fresh {d : OSD} (inv : OSDInv d) (f : Nat) {h : Nat}
    {k : String} (v : SVal) (hh : h = hashString k)
    (hk : k ∉ d.entries.map OsdEntry.key) :
    (osdAppend (f + 1) d h k v).2 = none ∧
      (osdAppend (f + 1) d h k v).1.entries = d.entries ++ [⟨h, k, v⟩] ∧
      OSDInv (osdAppend (f + 1) d h k v).1 := by
  by_cases hte : d.table.isEmpty
  · have htnil : d.table = [] := by rwa [List.isEmpty_iff] at hte
    have henil : d.entries = [] := inv.tnil htnil
    have hred : osdAppend (f + 1) d h k v =
        osdAppendLoop (f + 1) (osdInit d 1) h k v := by
      rw [osdAppend.eq_def]
      show osdAppendLoop (f + 1)
          (if d.table.isEmpty then osdInit d 1 else d) h k v = _
      rw [if_pos hte]
    obtain ⟨inv0, hne0, hent0⟩ := OSDInv_osdInit d 1
    rw [hred]
    have hstep := osdAppendLoop_fresh inv0 f v hh (by rw [hent0]; simp) hne0
    exact ⟨hstep.1, by rw [hstep.2.1, hent0, henil], hstep.2.2⟩
  · have htne : d.table ≠ [] := by
      intro hcon
      rw [hcon] at hte
      simp at hte
    rw [osdAppend_eq_loop htne]
    exact osdAppendLoop_fresh inv f v hh hk htne

/-- The construction fold of `OrderStringDict`: each append succeeds and the
entry sequence is the key sequence paired with its hashes and values. -/
theorem osd_fold_spec (d : List (String × SVal)) :
    ∀ (ks : List String) (cur : OSD), OSDInv cur →
      (cur.entries.map OsdEntry.key ++ ks).Nodup →
      (ks.foldl (fun osd k =>
          (osdAppend (osdDefaultFuel osd) osd (hashString k) k (dictGet d k)).1)
        cur).entries =
        cur.entries ++ ks.map (fun k => ⟨hashString k, k, dictGet d k⟩) ∧
      OSDInv (ks.foldl (fun osd k =>
          (osdAppend (osdDefaultFuel osd) osd (hashString k) k (dictGet d k)).1)
        cur)
  | [], cur, inv, _ => ⟨by simp, inv⟩
  | k :: ks', cur, inv, hnd => by
    have hkfresh : k ∉ cur.entries.map OsdEntry.key := by
      intro hcon
      obtain ⟨-, -, hdisj⟩ := List.nodup_append.mp hnd
      exact hdisj hcon (List.mem_cons_self _ _)
    have hstep := osdAppend_fresh inv (cur.entries.length + cur.table.length + 1)
      (h := hashString k) (k := k) (dictGet d k) rfl hkfresh
    have hent : (osdAppend (osdDefaultFuel cur) cur (hashString k) k
        (dictGet d k)).1.entries =
        cur.entries ++ [⟨hashString k, k, dictGet d k⟩] := hstep.2.1
    have hinv' : OSDInv (osdAppend (osdDefaultFuel cur) cur (hashString k) k
        (dictGet d k)).1 := hstep.2.2
    have hnd' : ((osdAppend (osdDefaultFuel cur) cur (hashString k) k
        (dictGet d k)).1.entries.map OsdEntry.key ++ ks').Nodup := by
      rw [hent, List.map_append, List.append_assoc]
      rw [show ((([⟨hashString k, k, dictGet d k⟩] : List OsdEntry).map
        OsdEntry.key) ++ ks') = k :: ks' from rfl]
      exact hnd
    obtain ⟨ih1, ih2⟩ := osd_fold_spec d ks' _ hinv' hnd'
    rw [List.foldl_cons]
    refine ⟨?_, ih2⟩
    rw [ih1, hent, List.append_assoc, List.singleton_append, List.map_cons]

/-- What `OrderStringDict` builds: the sorted keys with their hashes and
mapped values, in a well-formed dictionary. -/
theorem orderStringDict_spec (d : List (String × SVal))
    (hnd : (d.map Prod.fst).Nodup) :
    OSDInv (orderStringDict d) ∧
      (orderStringDict d).entries =
        (dictKeys d).map (fun k => ⟨hashString k, k, dictGet d k⟩) := by
  obtain ⟨inv0, -, hent0⟩ := OSDInv_osdInit { table := [], entries := [] } d.length
  have hnd0 : ((osdInit { table := [], entries := [] } d.length).entries.map
      OsdEntry.key ++ dictKeys d).Nodup := by
    rw [hent0]
    simpa using dictKeys_nodup hnd
  obtain ⟨h1, h2⟩ := osd_fold_spec d (dictKeys d) _ inv0 hnd0
  refine ⟨h2, ?_⟩
  show ((dictKeys d).foldl (fun osd k =>
      (osdAppend (osdDefaultFuel osd) osd (hashString k) k (dictGet d k)).1)
    (osdInit { table := [], entries := [] } d.length)).entries = _
  rw [h1, hent0, List.nil_append]

theorem map_modIdx_invariant {α β : Type} (f : α → α) (g : α → β)
    (hg : ∀ x, g (f x) = g x) :
    ∀ (i : Nat) (l : List α), (modIdx f i l).map g = l.map g
  | i, [] => by cases i <;> rfl
  | 0, x :: l => by simp [modIdx, hg]
  | i + 1, x :: l => by simp [modIdx, map_modIdx_invariant f g hg i l]

theorem osdKeys_valupdate (d : OSD) (i : Nat) (v : SVal) :
    osdKeys { d with
      entries := modIdx (fun e => { e with value := v }) i d.entries } =
      osdKeys d := by
  unfold osdKeys
  exact map_modIdx_invariant (fun e => { e with value := v }) OsdEntry.key
    (fun x => rfl) i d.entries

theorem osdEntryAt_valupdate (es : List OsdEntry) (i j : Nat) (v : SVal) :
    (osdEntryAt (modIdx (fun e => { e with value := v }) i es) j).key =
      (osdEntryAt es j).key ∧
    (osdEntryAt (modIdx (fun e => { e with value := v }) i es) j).hash =
      (osdEntryAt es j).hash := by
  unfold osdEntryAt
  rw [getD_modIdx]
  split
  · exact ⟨rfl, rfl⟩
  · exact ⟨rfl, rfl⟩

theorem osdScanBucketGet_congr (es es' : List OsdEntry)
    (hkh : ∀ j, (osdEntryAt es' j).key = (osdEntryAt es j).key ∧
      (osdEntryAt es' j).hash = (osdEntryAt es j).hash) (h : Nat) (k : String) :
    ∀ b : OsdBucket, osdScanBucketGet es' h k b = osdScanBucketGet es h k b
  | [] => rfl
  | none :: _ => rfl
  | some i :: rest => by
    show (if (osdEntryAt es' i).hash = h ∧ k = (osdEntryAt es' i).key then some i
      else osdScanBucketGet es' h k rest) = _
    rw [(hkh i).1, (hkh i).2, osdScanBucketGet_congr es es' hkh h k rest]
    rfl

theorem osdScanChainGet_congr (es es' : List OsdEntry)
    (hkh : ∀ j, (osdEntryAt es' j).key = (osdEntryAt es j).key ∧
      (osdEntryAt es' j).hash = (osdEntryAt es j).hash) (h : Nat) (k : String) :
    ∀ ch : OsdChain, osdScanChainGet es' h k ch = osdScanChainGet es h k ch
  | [] => rfl
  | b :: rest => by
    show (match osdScanBucketGet es' h k b with
      | some i => some i
      | none => osdScanChainGet es' h k rest) = _
    rw [osdScanBucketGet_congr es es' hkh h k b,
      osdScanChainGet_congr es es' hkh h k rest]
    rfl

/-- `Set` updates the value through the entry pointer; the scan only reads
hashes and keys, so lookups are unaffected by the value write. -/
theorem getEntryIdx_valupdate (d : OSD) (i : Nat) (v : SVal) (h : Nat)
    (k : String) :
    getEntryIdx { d with
      entries := modIdx (fun e => { e with value := v }) i d.entries } h k =
      getEntryIdx d h k := by
  unfold getEntryIdx
  by_cases hemp : d.table.isEmpty
  · rw [if_pos hemp, if_pos hemp]
  · rw [if_neg hemp, if_neg hemp]
    exact osdScanChainGet_congr d.entries _
      (fun j => osdEntryAt_valupdate d.entries i j v) h k _

end OsdLemmas

/-- **C9.**  The ordered string dictionary built from a mapping: `Set` on a
missing key reports not-found and leaves the dictionary — keys and values —
entirely unchanged (it never inserts); `Set` on a present key reports found,
and afterwards both `Get` of that key and `Index` at the key's position
return the new value while the key sequence is unchanged. -/
theorem C9_set_get_index (d : List (String × SVal))
    (hnd : (d.map Prod.fst).Nodup) (k : String) (v : SVal) (i : Nat) :
    osdKeys (orderStringDict d) = dictKeys d ∧
      osdLen (orderStringDict d) = d.length ∧
      (k ∉ d.map Prod.fst →
        osdSet (orderStringDict d) k v = (orderStringDict d, false) ∧
        osdGet (orderStringDict d) k = none) ∧
      (i < (dictKeys d).length → (dictKeys d).getD i "" = k →
        (osdSet (orderStringDict d) k v).2 = true ∧
        osdKeys (osdSet (orderStringDict d) k v).1 = dictKeys d ∧
        osdGet (osdSet (orderStringDict d) k v).1 k = some v ∧
        osdIndex (osdSet (orderStringDict d) k v).1 i = v) := by
  obtain ⟨inv, hent⟩ := orderStringDict_spec d hnd
  have hkeys : osdKeys (orderStringDict d) = dictKeys d := by
    unfold osdKeys
    rw [hent, List.map_map]
    exact List.map_id _ ▸ List.map_congr_left (fun x _ => rfl)
  have hlen : osdLen (orderStringDict d) = d.length := by
    unfold osdLen
    rw [hent, List.length_map, (dictKeys_perm d).length_eq, List.length_map]
  refine ⟨hkeys, hlen, ?_, ?_⟩
  · intro hk
    have hk' : k ∉ (orderStringDict d).entries.map OsdEntry.key := by
      show k ∉ osdKeys (orderStringDict d)
      rw [hkeys]
      intro hcon
      exact hk ((dictKeys_perm d).mem_iff.mp hcon)
    have hnone := getEntryIdx_none inv hk'
    constructor
    · unfold osdSet
      rw [hnone]
    · unfold osdGet
      rw [hnone]
      rfl
  · intro hilt hik
    have hlen2 : i < (orderStringDict d).entries.length := by
      rw [hent, List.length_map]
      exact hilt
    have hkey : (osdEntryAt (orderStringDict d).entries i).key = k := by
      have hmap := getD_map_pointed OsdEntry.key (⟨0, "", SVal.str ""⟩ : OsdEntry)
        "" rfl (orderStringDict d).entries i
      have hik' : ((orderStringDict d).entries.map OsdEntry.key).getD i "" = k := by
        show (osdKeys (orderStringDict d)).getD i "" = k
        rw [hkeys]
        exact hik
      rw [hmap] at hik'
      exact hik'
    have hfound := getEntryIdx_found inv hlen2 hkey
    have hset : osdSet (orderStringDict d) k v =
        ({ orderStringDict d with
          entries := modIdx (fun e => { e with value := v }) i
            (orderStringDict d).entries }, true) := by
      unfold osdSet
      rw [hfound]
    have hvalue : osdEntryAt (modIdx (fun e => { e with value := v }) i
        (orderStringDict d).entries) i =
        { osdEntryAt (orderStringDict d).entries i with value := v } := by
      unfold osdEntryAt
      exact getD_modIdx_self _ _ _ _ hlen2
    refine ⟨by rw [hset], ?_, ?_, ?_⟩
    · rw [hset]
      show osdKeys { orderStringDict d with
        entries := modIdx (fun e => { e with value := v }) i
          (orderStringDict d).entries } = dictKeys d
      rw [osdKeys_valupdate]
      exact hkeys
    · rw [hset]
      show (getEntryIdx { orderStringDict d with
          entries := modIdx (fun e => { e with value := v }) i
            (orderStringDict d).entries } (hashString k) k).map
          (fun j => (osdEntryAt (modIdx (fun e => { e with value := v }) i
            (orderStringDict d).entries) j).value) = some v
      rw [getEntryIdx_valupdate, hfound]
      show some (osdEntryAt (modIdx (fun e => { e with value := v }) i
        (orderStringDict d).entries) i).value = some v
      rw [hvalue]
    · rw [hset]
      show (osdEntryAt (modIdx (fun e => { e with value := v }) i
        (orderStringDict d).entries) i).value = v
      rw [hvalue]

/-- **C9** at a concrete instance: a two-key mapping; "a" sits at sorted
position 0, "z" is absent. -/
theorem C9_set_get_index_witness :
    (([("b", SVal.int 2), ("a", SVal.int 1)].map Prod.fst).Nodup) ∧
      (osdKeys (orderStringDict [("b", SVal.int 2), ("a", SVal.int 1)]) =
        dictKeys [("b", SVal.int 2), ("a", SVal.int 1)] ∧
      osdLen (orderStringDict [("b", SVal.int 2), ("a", SVal.int 1)]) = 2 ∧
      ("a" ∉ ([("b", SVal.int 2), ("a", SVal.int 1)].map Prod.fst) →
        osdSet (orderStringDict [("b", SVal.int 2), ("a", SVal.int 1)]) "a"
            (SVal.int 9) =
          (orderStringDict [("b", SVal.int 2), ("a", SVal.int 1)], false) ∧
        osdGet (orderStringDict [("b", SVal.int 2), ("a", SVal.int 1)]) "a" =
          none) ∧
      (0 < (dictKeys [("b", SVal.int 2), ("a", SVal.int 1)]).length →
        (dictKeys [("b", SVal.int 2), ("a", SVal.int 1)]).getD 0 "" = "a" →
        (osdSet (orderStringDict [("b", SVal.int 2), ("a", SVal.int 1)]) "a"
          (SVal.int 9)).2 = true ∧
        osdKeys (osdSet (orderStringDict [("b", SVal.int 2), ("a", SVal.int 1)])
            "a" (SVal.int 9)).1 =
          dictKeys [("b", SVal.int 2), ("a", SVal.int 1)] ∧
        osdGet (osdSet (orderStringDict [("b", SVal.int 2), ("a", SVal.int 1)])
            "a" (SVal.int 9)).1 "a" = some (SVal.int 9) ∧
        osdIndex (osdSet (orderStringDict [("b", SVal.int 2), ("a", SVal.int 1)])
            "a" (SVal.int 9)).1 0 = SVal.int 9)) :=
  ⟨by decide,
    C9_set_get_index [("b", SVal.int 2), ("a", SVal.int 1)] (by decide) "a"
      (SVal.int 9) 0⟩

end StarlarkGo
